import Mathlib

/-!
Verification of the task-butler storage engine.

This file embeds, in Lean, the storage layer of the repository:
`src/task_butler/storage/markdown.py` (class `MarkdownStorage`) and
`src/task_butler/storage/repository.py` (class `TaskRepository`), together
with the data model they operate on (`Task`, `Note`, `RecurrenceRule` and the
`Status`/`Priority`/`Frequency` enums, whose source file `models/task.py` /
`models/enums.py` is not part of the provided sources and is therefore
modelled from the specification).

Modelling conventions:
- Python strings are `List Char`; Python string operations (`split`, `strip`,
  `startswith`, slices, `in`) are implemented character by character below.
- A frontmatter file (`frontmatter.Post`) is a pair of a structured metadata
  record and a content string.  The YAML serialisation of scalar metadata
  values (dates via `isoformat`/`fromisoformat`, numbers, lists of strings)
  is performed by the external `python-frontmatter`/`datetime` libraries and
  is modelled as the identity on structured values; every piece of text the
  repository itself produces or parses (the body, the notes section, note
  timestamps) is modelled textually.
- A storage directory is a list of (filename, file) pairs; `pathlib.glob`
  enumeration order is the list order.
- Python exceptions become `Except`; `datetime.now()` is an explicit
  parameter `now`.
-/

namespace TB

/-! ## Python string primitives -/

/-- Python strings, as lists of characters. -/
abbrev Str := List Char

/-- Characters matched by Python's `str.strip()` / regex `\s` (ASCII range). -/
def pyIsSpace (c : Char) : Bool :=
  c == ' ' || c == '\t' || c == '\n' || c == '\r' || c == '\x0b' || c == '\x0c'

/-- `isPre p s` is Python's `s.startswith(p)`. -/
def isPre : Str → Str → Bool
  | [], _ => true
  | _ :: _, [] => false
  | a :: p, b :: s => a == b && isPre p s

/-- `isSuf p s` is Python's `s.endswith(p)`. -/
def isSuf (p s : Str) : Bool := isPre p.reverse s.reverse

/-- `hasSub s pat` is Python's `pat in s` (substring containment). -/
def hasSub : Str → Str → Bool
  | [], pat => isPre pat []
  | c :: r, pat => isPre pat (c :: r) || hasSub r pat

/-- Worker for `pySplit`: split on the non-empty separator `hd :: tl`,
scanning left to right exactly like Python's `str.split(sep)`.  The `skip`
counter consumes the tail of a separator that was just matched (this keeps
the recursion structural). -/
def pySplitGo (hd : Char) (tl : Str) : Str → Nat → List Str
  | [], _ => [[]]
  | _ :: r, skip + 1 => pySplitGo hd tl r skip
  | c :: r, 0 =>
    if isPre (hd :: tl) (c :: r) then
      [] :: pySplitGo hd tl r tl.length
    else
      match pySplitGo hd tl r 0 with
      | [] => [[c]]
      | h :: t => (c :: h) :: t

/-- Python's `s.split(sep)` for a non-empty separator (the empty-separator
case raises in Python and never occurs in the embedded code). -/
def pySplit (sep s : Str) : List Str :=
  match sep with
  | [] => [s]
  | hd :: tl => pySplitGo hd tl s 0

/-- Python's `sep.join(parts)`. -/
def joinSep (sep : Str) : List Str → Str
  | [] => []
  | [x] => x
  | x :: y :: t => x ++ sep ++ joinSep sep (y :: t)

/-- Python's `s.index(ch)`: index of the first occurrence, `none` when
Python raises `ValueError`. -/
def pyIndex (ch : Char) : Str → Option Nat
  | [] => none
  | d :: r => if d == ch then some 0 else (pyIndex ch r).map (· + 1)

/-- Python's `s.lstrip()`. -/
def pyLstrip (s : Str) : Str := s.dropWhile pyIsSpace

/-- Python's `s.rstrip()`. -/
def pyRstrip (s : Str) : Str := (s.reverse.dropWhile pyIsSpace).reverse

/-- Python's `s.strip()`. -/
def pyStrip (s : Str) : Str := pyLstrip (pyRstrip s)

/-- Python's `s.strip("_")`. -/
def stripUnd (s : Str) : Str :=
  ((s.dropWhile (· == '_')).reverse.dropWhile (· == '_')).reverse

/-- Python's `s.rstrip("_")`. -/
def rstripUnd (s : Str) : Str := (s.reverse.dropWhile (· == '_')).reverse

/-- ASCII lowercasing of one character, as done by `str.lower()` on the
ASCII subset relevant here. -/
def lowerChar (c : Char) : Char :=
  if 'A' ≤ c && c ≤ 'Z' then Char.ofNat (c.toNat + 32) else c

/-- Python's `s.lower()` (ASCII model). -/
def pyLower (s : Str) : Str := s.map lowerChar

/-! ## Timestamps

`datetime` values carry year/month/day/hour/minute/second/microsecond; the
`isoformat`/`fromisoformat` round-trip used for the frontmatter date fields
is the identity on these records.  The note lines inside the body use
`strftime("%Y-%m-%d %H:%M")` / `strptime(..., "%Y-%m-%d %H:%M")`, which are
modelled textually below following CPython's `_strptime` regular expressions
(`%Y` = four digits, `%m` = `1[0-2]|0[1-9]|[1-9]`, `%d` =
`3[01]|[12]\d|0[1-9]|[1-9]`, `%H` = `2[0-3]|[0-1]\d|\d`, `%M` = `[0-5]\d|\d`,
a literal whitespace in the format matches one or more whitespace
characters, the whole string must be consumed, and the parsed fields must
form a valid calendar date). -/

structure DateTime where
  year : Nat
  month : Nat
  day : Nat
  hour : Nat
  minute : Nat
  second : Nat
  microsecond : Nat
deriving DecidableEq

/-- The decimal digit character for `n < 10`. -/
def digitChar (n : Nat) : Char := Char.ofNat (48 + n)

/-- Numeric value of a digit character. -/
def digitVal (c : Char) : Nat := c.toNat - 48

/-- ASCII digit test. -/
def isDigitC (c : Char) : Bool := '0' ≤ c && c ≤ '9'

/-- Two-digit zero-padded decimal (the `datetime` month/day/hour/minute
fields are below 100 by construction). -/
def pad2 (n : Nat) : Str := [digitChar (n / 10), digitChar (n % 10)]

/-- Four-digit zero-padded decimal (for `%Y`; note timestamps come from
`datetime.now()`, whose year has four digits). -/
def pad4 (n : Nat) : Str :=
  [digitChar (n / 1000), digitChar (n / 100 % 10), digitChar (n / 10 % 10), digitChar (n % 10)]

/-- `datetime.strftime("%Y-%m-%d %H:%M")`. -/
def strftimeYmdHM (dt : DateTime) : Str :=
  pad4 dt.year ++ '-' :: pad2 dt.month ++ '-' :: pad2 dt.day ++
    ' ' :: pad2 dt.hour ++ ':' :: pad2 dt.minute

/-- Read exactly four digits (`%Y`). -/
def readYear4 : Str → Option (Nat × Str)
  | a :: b :: c :: d :: r =>
    if isDigitC a && isDigitC b && isDigitC c && isDigitC d then
      some (((digitVal a * 10 + digitVal b) * 10 + digitVal c) * 10 + digitVal d, r)
    else none
  | _ => none

/-- Read `%m` per the CPython pattern `1[0-2]|0[1-9]|[1-9]`. -/
def readMonth : Str → Option (Nat × Str)
  | c1 :: c2 :: r =>
    if isDigitC c1 && isDigitC c2 &&
        ((c1 == '1' && digitVal c2 ≤ 2) || (c1 == '0' && 1 ≤ digitVal c2)) then
      some (digitVal c1 * 10 + digitVal c2, r)
    else if isDigitC c1 && 1 ≤ digitVal c1 then some (digitVal c1, c2 :: r)
    else none
  | [c1] => if isDigitC c1 && 1 ≤ digitVal c1 then some (digitVal c1, []) else none
  | [] => none

/-- Read `%d` per the CPython pattern `3[01]|[12]\d|0[1-9]|[1-9]`. -/
def readDay : Str → Option (Nat × Str)
  | c1 :: c2 :: r =>
    if isDigitC c1 && isDigitC c2 &&
        ((c1 == '3' && digitVal c2 ≤ 1) || c1 == '1' || c1 == '2' ||
          (c1 == '0' && 1 ≤ digitVal c2)) then
      some (digitVal c1 * 10 + digitVal c2, r)
    else if isDigitC c1 && 1 ≤ digitVal c1 then some (digitVal c1, c2 :: r)
    else none
  | [c1] => if isDigitC c1 && 1 ≤ digitVal c1 then some (digitVal c1, []) else none
  | [] => none

/-- Read `%H` per the CPython pattern `2[0-3]|[0-1]\d|\d`. -/
def readHour : Str → Option (Nat × Str)
  | c1 :: c2 :: r =>
    if isDigitC c1 && isDigitC c2 &&
        ((c1 == '2' && digitVal c2 ≤ 3) || c1 == '0' || c1 == '1') then
      some (digitVal c1 * 10 + digitVal c2, r)
    else if isDigitC c1 then some (digitVal c1, c2 :: r)
    else none
  | [c1] => if isDigitC c1 then some (digitVal c1, []) else none
  | [] => none

/-- Read `%M` per the CPython pattern `[0-5]\d|\d`. -/
def readMinute : Str → Option (Nat × Str)
  | c1 :: c2 :: r =>
    if isDigitC c1 && isDigitC c2 && digitVal c1 ≤ 5 then
      some (digitVal c1 * 10 + digitVal c2, r)
    else if isDigitC c1 then some (digitVal c1, c2 :: r)
    else none
  | [c1] => if isDigitC c1 then some (digitVal c1, []) else none
  | [] => none

/-- Expect one literal character. -/
def expectChar (ch : Char) : Str → Option Str
  | c :: r => if c == ch then some r else none
  | [] => none

/-- A literal whitespace in a `strptime` format matches `\s+`. -/
def skipSpaces1 : Str → Option Str
  | c :: r => if pyIsSpace c then some (r.dropWhile pyIsSpace) else none
  | [] => none

/-- Gregorian leap-year rule used by `datetime`. -/
def isLeapYear (y : Nat) : Bool := y % 4 == 0 && (y % 100 != 0 || y % 400 == 0)

/-- Number of days in a month. -/
def daysInMonth (y m : Nat) : Nat :=
  if m == 2 then (if isLeapYear y then 29 else 28)
  else if m == 4 || m == 6 || m == 9 || m == 11 then 30 else 31

/-- `datetime.strptime(s, "%Y-%m-%d %H:%M")`, `none` when Python raises
`ValueError`.  The trailing checks mirror the `datetime` constructor:
`MINYEAR = 1` and the day must exist in the month; month/day/hour/minute
ranges are already enforced by the field patterns. -/
def strptimeYmdHM (s : Str) : Option DateTime := do
  let (y, s) ← readYear4 s
  let s ← expectChar '-' s
  let (m, s) ← readMonth s
  let s ← expectChar '-' s
  let (d, s) ← readDay s
  let s ← skipSpaces1 s
  let (hh, s) ← readHour s
  let s ← expectChar ':' s
  let (mm, s) ← readMinute s
  match s with
  | [] => if 1 ≤ y && d ≤ daysInMonth y m then some ⟨y, m, d, hh, mm, 0, 0⟩ else none
  | _ :: _ => none

/-! ## Data model

Modelled from the spec: the enum and task model source files
(`task_butler/models/enums.py`, `task_butler/models/task.py`) are not among
the provided sources (only `models/__init__.py`, which re-exports them, is).
The field lists and enum values below follow spec §3 (Data model) and the
usage in `storage/markdown.py` / `storage/repository.py`. -/

/-- Modelled from the spec: workflow status enum (`models/enums.py` is
missing); spec §3: status ∈ pending, in_progress, done, cancelled. -/
inductive Status where
  | pending
  | in_progress
  | done
  | cancelled
deriving DecidableEq

def Status.value : Status → Str
  | .pending => "pending".toList
  | .in_progress => "in_progress".toList
  | .done => "done".toList
  | .cancelled => "cancelled".toList

/-- `Status(v)`: enum lookup by value, `none` when Python raises. -/
def Status.ofValue (s : Str) : Option Status :=
  if s = "pending".toList then some .pending
  else if s = "in_progress".toList then some .in_progress
  else if s = "done".toList then some .done
  else if s = "cancelled".toList then some .cancelled
  else none

/-- Modelled from the spec: priority enum (`models/enums.py` is missing);
spec §3: priority ∈ urgent, high, medium, low, lowest. -/
inductive Priority where
  | urgent
  | high
  | medium
  | low
  | lowest
deriving DecidableEq

def Priority.value : Priority → Str
  | .urgent => "urgent".toList
  | .high => "high".toList
  | .medium => "medium".toList
  | .low => "low".toList
  | .lowest => "lowest".toList

/-- `Priority(v)`: enum lookup by value. -/
def Priority.ofValue (s : Str) : Option Priority :=
  if s = "urgent".toList then some .urgent
  else if s = "high".toList then some .high
  else if s = "medium".toList then some .medium
  else if s = "low".toList then some .low
  else if s = "lowest".toList then some .lowest
  else none

/-- Modelled from the spec: recurrence frequency enum (`models/enums.py` is
missing); spec §3: frequency ∈ daily, weekly, monthly, yearly. -/
inductive Frequency where
  | daily
  | weekly
  | monthly
  | yearly
deriving DecidableEq

def Frequency.value : Frequency → Str
  | .daily => "daily".toList
  | .weekly => "weekly".toList
  | .monthly => "monthly".toList
  | .yearly => "yearly".toList

/-- `Frequency(v)`: enum lookup by value. -/
def Frequency.ofValue (s : Str) : Option Frequency :=
  if s = "daily".toList then some .daily
  else if s = "weekly".toList then some .weekly
  else if s = "monthly".toList then some .monthly
  else if s = "yearly".toList then some .yearly
  else none

/-- Modelled from the spec: a note record {content, timestamp}
(`models/task.py` is missing); spec §3. -/
structure Note where
  content : Str
  created_at : DateTime
deriving DecidableEq

/-- Modelled from the spec: recurrence rule (`models/task.py` is missing);
spec §3: frequency, interval, optional day-of-week set, optional
day-of-month, optional end date. -/
structure RecurrenceRule where
  frequency : Frequency
  interval : Int
  days_of_week : Option (List Int)
  day_of_month : Option Int
  end_date : Option DateTime
deriving DecidableEq

/-- Modelled from the spec: the task entity (`models/task.py` is missing);
fields per spec §3 and their use in `storage/markdown.py`. -/
structure Task where
  id : Str
  title : Str
  description : Str
  status : Status
  priority : Priority
  due_date : Option DateTime
  scheduled_date : Option DateTime
  start_date : Option DateTime
  completed_at : Option DateTime
  estimated_hours : Option Rat
  actual_hours : Option Rat
  tags : List Str
  project : Option Str
  parent_id : Option Str
  dependencies : List Str
  recurrence : Option RecurrenceRule
  recurrence_parent_id : Option Str
  created_at : DateTime
  updated_at : DateTime
  notes : List Note
deriving DecidableEq

/-- Modelled from the spec: `Task.short_id` — first 8 characters of the id
(spec §3, glossary). -/
def Task.short_id (t : Task) : Str := t.id.take 8

/-- Modelled from the spec: `Task.is_open` — a task is open while pending or
in progress (spec §4.5; `tests/test_models.py::test_is_open`). -/
def Task.is_open (t : Task) : Bool :=
  t.status == .pending || t.status == .in_progress

/-! ## Frontmatter files -/

/-- The `recurrence` sub-dictionary of the frontmatter metadata. -/
structure RecMeta where
  frequency : Option Str
  interval : Option Int
  days_of_week : Option (List Int)
  day_of_month : Option Int
  end_date : Option DateTime
deriving DecidableEq

/-- The frontmatter metadata dictionary: one optional slot per key the
storage code reads or writes (`none` = key absent). -/
structure FrontMeta where
  id : Option Str
  title : Option Str
  status : Option Str
  priority : Option Str
  created_at : Option DateTime
  updated_at : Option DateTime
  due_date : Option DateTime
  scheduled_date : Option DateTime
  start_date : Option DateTime
  completed_at : Option DateTime
  estimated_hours : Option Rat
  actual_hours : Option Rat
  tags : Option (List Str)
  project : Option Str
  parent_id : Option Str
  dependencies : Option (List Str)
  recurrence : Option RecMeta
  recurrence_parent_id : Option Str
deriving DecidableEq

/-- A `frontmatter.Post`: metadata plus body content. -/
structure Post where
  meta : FrontMeta
  content : Str
deriving DecidableEq

/-- Python exceptions surfaced by the storage layer: `KeyError` for a
missing metadata key, `ValueError` for enum lookups and explicit raises. -/
inductive Err where
  | keyError (key : Str)
  | valueError (msg : Str)
deriving DecidableEq

instance {ε α : Type} [DecidableEq ε] [DecidableEq α] : DecidableEq (Except ε α) := fun a b =>
  match a, b with
  | .ok x, .ok y =>
    if h : x = y then isTrue (by rw [h]) else isFalse (fun hh => h (by injection hh))
  | .error x, .error y =>
    if h : x = y then isTrue (by rw [h]) else isFalse (fun hh => h (by injection hh))
  | .ok _, .error _ => isFalse (fun h => Except.noConfusion h)
  | .error _, .ok _ => isFalse (fun h => Except.noConfusion h)

/-- Decision procedure for `List.Forall₂` (used to evaluate the
store-shape predicates on concrete stores). -/
def decForall₂ {α β : Type} (R : α → β → Prop) [inst : ∀ a b, Decidable (R a b)] :
    (l₁ : List α) → (l₂ : List β) → Decidable (List.Forall₂ R l₁ l₂)
  | [], [] => isTrue List.Forall₂.nil
  | [], _ :: _ => isFalse (fun h => by cases h)
  | _ :: _, [] => isFalse (fun h => by cases h)
  | a :: l₁, b :: l₂ =>
    match inst a b with
    | isFalse hR => isFalse (fun h => by cases h with | cons h1 h2 => exact hR h1)
    | isTrue hR =>
      match decForall₂ R l₁ l₂ with
      | isTrue hrest => isTrue (List.Forall₂.cons hR hrest)
      | isFalse hrest =>
        isFalse (fun h => by cases h with | cons h1 h2 => exact hrest h2)

instance {α β : Type} {R : α → β → Prop} [∀ a b, Decidable (R a b)]
    (l₁ : List α) (l₂ : List β) : Decidable (List.Forall₂ R l₁ l₂) :=
  decForall₂ R l₁ l₂

/-- A storage directory: filenames paired with file contents, in glob
enumeration order. -/
abbrev FS := List (Str × Post)

/-- Fetch a file by name. -/
def lookupFile (fs : FS) (name : Str) : Option Post :=
  (fs.find? (fun f => f.1 == name)).map (·.2)

/-- Write a file (replace in place, or append if new). -/
def writeFile (fs : FS) (name : Str) (p : Post) : FS :=
  if (fs.find? (fun f => f.1 == name)).isSome then
    fs.map (fun f => if f.1 == name then (name, p) else f)
  else fs ++ [(name, p)]

/-- Unlink a file. -/
def removeFile (fs : FS) (name : Str) : FS :=
  fs.filter (fun f => f.1 != name)

/-! ## MarkdownStorage -/

/-- The literal `"## Notes"`. -/
def notesMarker : Str := "## Notes".toList

/-- The literal `"- ["`. -/
def noteLead : Str := "- [".toList

/-- `MarkdownStorage.INVALID_FILENAME_CHARS`: the class `[<>:"/\\|?*\x00-\x1f]`. -/
def isInvalidFileChar (c : Char) : Bool :=
  c == '<' || c == '>' || c == ':' || c == '"' || c == '/' || c == '\\' ||
    c == '|' || c == '?' || c == '*' || c.toNat ≤ 0x1f

/-- A character matched by the regex class `[\s_]`. -/
def isWsUnd (c : Char) : Bool := pyIsSpace c || c == '_'

/-- Worker for `collapseRuns`; the flag records whether the previous
character belonged to a whitespace/underscore run (whose replacement
underscore has already been emitted). -/
def collapseGo : Str → Bool → Str
  | [], _ => []
  | c :: r, inRun =>
    if isWsUnd c then
      if inRun then collapseGo r true else '_' :: collapseGo r true
    else c :: collapseGo r false

/-- `re.sub(r"[\s_]+", "_", s)`: replace each maximal run of
whitespace/underscores by a single underscore. -/
def collapseRuns (s : Str) : Str := collapseGo s false

/-- `MarkdownStorage._sanitize_filename`. -/
def MarkdownStorage.sanitize_filename (title : Str) : Str :=
  let s1 := title.map (fun c => if isInvalidFileChar c then '_' else c)
  let s2 := collapseRuns s1
  let s3 := stripUnd s2
  let s4 := if 50 < s3.length then rstripUnd (s3.take 50) else s3
  if s4 = [] then "task".toList else s4

/-- `MarkdownStorage._task_filename`: `{short_id}_{sanitized_title}.md`. -/
def MarkdownStorage.task_filename (task_id title : Str) : Str :=
  task_id.take 8 ++ '_' :: MarkdownStorage.sanitize_filename title ++ ".md".toList

/-- Does `name` match the glob pattern `{short}_*.md`? -/
def globMatch (short : Str) (name : Str) : Bool :=
  isPre (short ++ ['_']) name && isSuf ".md".toList name &&
    short.length + 4 ≤ name.length

/-- First file matching `{short}_*.md` in glob order. -/
def globFirst (fs : FS) (short : Str) : Option Str :=
  (fs.find? (fun f => globMatch short f.1)).map (·.1)

/-- `MarkdownStorage._find_task_file`: glob by short id, then the legacy
`{task_id}.md` name, then the placeholder `{short_id}_task.md`. -/
def MarkdownStorage.find_task_file (fs : FS) (task_id : Str) : Str :=
  match globFirst fs (task_id.take 8) with
  | some name => name
  | none =>
    if (lookupFile fs (task_id ++ ".md".toList)).isSome then task_id ++ ".md".toList
    else task_id.take 8 ++ "_task.md".toList

/-- The frontmatter metadata written by `MarkdownStorage.save` (each
`if task.<field>:` guard is Python truthiness: absent `None`, empty lists,
empty strings and zero numbers are not written). -/
def MarkdownStorage.encodeMeta (t : Task) : FrontMeta where
  id := some t.id
  title := some t.title
  status := some t.status.value
  priority := some t.priority.value
  created_at := some t.created_at
  updated_at := some t.updated_at
  due_date := t.due_date
  scheduled_date := t.scheduled_date
  start_date := t.start_date
  completed_at := t.completed_at
  estimated_hours := match t.estimated_hours with
    | some v => if v = 0 then none else some v
    | none => none
  actual_hours := match t.actual_hours with
    | some v => if v = 0 then none else some v
    | none => none
  tags := if t.tags = [] then none else some t.tags
  project := match t.project with
    | some p => if p = [] then none else some p
    | none => none
  parent_id := match t.parent_id with
    | some p => if p = [] then none else some p
    | none => none
  dependencies := if t.dependencies = [] then none else some t.dependencies
  recurrence := t.recurrence.map (fun r =>
    { frequency := some r.frequency.value
      interval := some r.interval
      days_of_week := match r.days_of_week with
        | some l => if l = [] then none else some l
        | none => none
      day_of_month := match r.day_of_month with
        | some d => if d = 0 then none else some d
        | none => none
      end_date := r.end_date })
  recurrence_parent_id := match t.recurrence_parent_id with
    | some p => if p = [] then none else some p
    | none => none

/-- One line of the notes section: `- [<%Y-%m-%d %H:%M>] <content>`. -/
def noteLine (n : Note) : Str :=
  noteLead ++ strftimeYmdHM n.created_at ++ ']' :: ' ' :: n.content

/-- The body written by `MarkdownStorage.save` in the default
`"frontmatter"` format: `"\n".join(content_parts)` where the parts are the
description (if non-empty), then `"\n## Notes\n"` and one line per note (if
any notes). -/
def MarkdownStorage.encodeContent (t : Task) : Str :=
  joinSep ['\n']
    ((if t.description = [] then [] else [t.description]) ++
      (if t.notes = [] then []
       else ('\n' :: notesMarker ++ ['\n']) :: t.notes.map noteLine))

/-- The file written by `MarkdownStorage.save` (default format). -/
def MarkdownStorage.savePost (t : Task) : Post :=
  ⟨MarkdownStorage.encodeMeta t, MarkdownStorage.encodeContent t⟩

/-- `MarkdownStorage.save`: computes the path from the current title,
unlinks an existing file with a different name, writes the file, and
returns the written path. -/
def MarkdownStorage.save (fs : FS) (t : Task) : Str × FS :=
  let new_path := MarkdownStorage.task_filename t.id t.title
  let existing := MarkdownStorage.find_task_file fs t.id
  let fs1 :=
    if (lookupFile fs existing).isSome && existing != new_path then
      removeFile fs existing
    else fs
  (new_path, writeFile fs1 new_path (MarkdownStorage.savePost t))

/-- The `try`/`except` note-line parse inside `load_from_path`: find the
first `]`, parse `line[3:timestamp_end]` as a timestamp, and on any failure
fall back to `Note(content=line[2:])` whose `created_at` defaults to
`datetime.now()`. -/
def noteFromLine (now : DateTime) (line : Str) : Note :=
  match pyIndex ']' line with
  | none => ⟨line.drop 2, now⟩
  | some i =>
    match strptimeYmdHM ((line.drop 3).take (i - 3)) with
    | none => ⟨line.drop 2, now⟩
    | some dt => ⟨line.drop (i + 2), dt⟩

/-- The notes loop of `load_from_path`: strip the section, split into
lines, strip each line, and parse each line starting with `"- ["`. -/
def parseNotes (now : DateTime) (sec : Str) : List Note :=
  (pySplit ['\n'] (pyStrip sec)).filterMap (fun l =>
    let l := pyStrip l
    if isPre noteLead l then some (noteFromLine now l) else none)

/-- The per-line test of `_strip_obsidian_lines`:
`stripped.startswith("- [ ]") or stripped.lower().startswith("- [x]")`. -/
def isObsLine (stripped : Str) : Bool :=
  isPre "- [ ]".toList stripped || isPre "- [x]".toList (pyLower stripped)

/-- `MarkdownStorage._strip_obsidian_lines`: drop every line whose stripped
form starts with `"- [ ]"` or (case-insensitively) `"- [x]"`, rejoin, strip. -/
def MarkdownStorage.strip_obsidian_lines (content : Str) : Str :=
  pyStrip (joinSep ['\n']
    ((pySplit ['\n'] content).filter (fun line => !isObsLine (pyStrip line))))

/-- `metadata[key]`: `KeyError` when absent. -/
def req {α : Type} (o : Option α) (key : Str) : Except Err α :=
  match o with
  | some v => .ok v
  | none => .error (.keyError key)

/-- The recurrence block of `load_from_path`. -/
def decodeRecurrence (rm : RecMeta) : Except Err RecurrenceRule := do
  let fstr ← req rm.frequency "frequency".toList
  let freq ← match Frequency.ofValue fstr with
    | none => Except.error (Err.valueError fstr)
    | some q => Except.ok q
  .ok ⟨freq, rm.interval.getD 1, rm.days_of_week, rm.day_of_month, rm.end_date⟩

/-- `MarkdownStorage.load_from_path`, given the file's parsed frontmatter:
recurrence block, notes/description split on `"## Notes"`, obsidian-line
stripping, then the `Task(...)` construction (whose argument order fixes
the order `KeyError`s are raised in). -/
def decodePost (now : DateTime) (p : Post) : Except Err Task := do
  let recurrence ← match p.meta.recurrence with
    | none => Except.ok none
    | some rm => (decodeRecurrence rm).map some
  let content := p.content
  let (description0, notes) :=
    if hasSub content notesMarker then
      let parts := pySplit notesMarker content
      (pyStrip (parts.headD []), parseNotes now ((parts.drop 1).headD []))
    else (content, [])
  let description := MarkdownStorage.strip_obsidian_lines description0
  let id ← req p.meta.id "id".toList
  let title ← req p.meta.title "title".toList
  let statusStr ← req p.meta.status "status".toList
  let status ← match Status.ofValue statusStr with
    | none => Except.error (Err.valueError statusStr)
    | some s => Except.ok s
  let priorityStr ← req p.meta.priority "priority".toList
  let priority ← match Priority.ofValue priorityStr with
    | none => Except.error (Err.valueError priorityStr)
    | some s => Except.ok s
  let created_at ← req p.meta.created_at "created_at".toList
  let updated_at ← req p.meta.updated_at "updated_at".toList
  .ok {
    id := id
    title := title
    description := description
    status := status
    priority := priority
    due_date := p.meta.due_date
    scheduled_date := p.meta.scheduled_date
    start_date := p.meta.start_date
    completed_at := p.meta.completed_at
    estimated_hours := p.meta.estimated_hours
    actual_hours := p.meta.actual_hours
    tags := p.meta.tags.getD []
    project := p.meta.project
    parent_id := p.meta.parent_id
    dependencies := p.meta.dependencies.getD []
    recurrence := recurrence
    recurrence_parent_id := p.meta.recurrence_parent_id
    created_at := created_at
    updated_at := updated_at
    notes := notes }

/-- `MarkdownStorage.load_from_path` at the file-system level: `None` when
the path does not exist, otherwise decode (exceptions propagate). -/
def MarkdownStorage.load_from_path (now : DateTime) (fs : FS) (name : Str) :
    Except Err (Option Task) :=
  match lookupFile fs name with
  | none => .ok none
  | some p => (decodePost now p).map some

/-- `MarkdownStorage.load`. -/
def MarkdownStorage.load (now : DateTime) (fs : FS) (task_id : Str) :
    Except Err (Option Task) :=
  MarkdownStorage.load_from_path now fs (MarkdownStorage.find_task_file fs task_id)

/-- `MarkdownStorage.delete`. -/
def MarkdownStorage.delete (fs : FS) (task_id : Str) : Bool × FS :=
  let path := MarkdownStorage.find_task_file fs task_id
  if (lookupFile fs path).isSome then (true, removeFile fs path) else (false, fs)

/-- `MarkdownStorage.list_all`: decode every `*.md` file in glob order;
decoding exceptions propagate out of the scan. -/
def MarkdownStorage.list_all (now : DateTime) (fs : FS) : Except Err (List Task) :=
  (fs.filter (fun f => isSuf ".md".toList f.1)).mapM (fun f => decodePost now f.2)

/-! ## TaskRepository -/

/-- `TaskRepository.get`: try `storage.load` with the given identifier,
then scan `storage.list_all()` for the first task whose id starts with it. -/
def TaskRepository.get (now : DateTime) (fs : FS) (task_id : Str) :
    Except Err (Option Task) := do
  let t? ← MarkdownStorage.load now fs task_id
  match t? with
  | some t => Except.ok (some t)
  | none => do
    let ts ← MarkdownStorage.list_all now fs
    Except.ok (ts.find? (fun t => isPre task_id t.id))

/-- `TaskRepository.update`: stamp `updated_at` and save unconditionally. -/
def TaskRepository.update (now : DateTime) (fs : FS) (t : Task) : Task × FS :=
  let t' := { t with updated_at := now }
  (t', (MarkdownStorage.save fs t').2)

/-- `TaskRepository.delete`: resolve, then delete the file; `False` when
the identifier resolves to nothing. -/
def TaskRepository.delete (now : DateTime) (fs : FS) (task_id : Str) :
    Except Err (Bool × FS) := do
  let t? ← TaskRepository.get now fs task_id
  match t? with
  | some t => Except.ok (MarkdownStorage.delete fs t.id)
  | none => Except.ok (false, fs)

/-- `TaskRepository.list_all` with its filter chain; each `if <arg>:` guard
is Python truthiness, so an empty-string project/tag disables that filter,
and `parent_id` is compared with `is not None` / `== ""`. -/
def TaskRepository.list_all (now : DateTime) (fs : FS)
    (status : Option Status) (priority : Option Priority)
    (project : Option Str) (tag : Option Str) (parent_id : Option Str)
    (include_done : Bool) : Except Err (List Task) := do
  let tasks ← MarkdownStorage.list_all now fs
  let tasks := match status with
    | some st => tasks.filter (fun t => t.status == st)
    | none =>
      if include_done then tasks
      else tasks.filter (fun t => t.status != Status.done)
  let tasks := match priority with
    | some p => tasks.filter (fun t => t.priority == p)
    | none => tasks
  let tasks := match project with
    | some p => if p = [] then tasks else tasks.filter (fun t => t.project == some p)
    | none => tasks
  let tasks := match tag with
    | some tg => if tg = [] then tasks else tasks.filter (fun t => t.tags.contains tg)
    | none => tasks
  let tasks := match parent_id with
    | none => tasks
    | some pid =>
      if pid = [] then tasks.filter (fun t => t.parent_id.isNone)
      else tasks.filter (fun t => t.parent_id == some pid)
  Except.ok tasks

/-- `TaskRepository.get_children`. -/
def TaskRepository.get_children (now : DateTime) (fs : FS) (parent_id : Str) :
    Except Err (List Task) :=
  (MarkdownStorage.list_all now fs).map (fun ts =>
    ts.filter (fun t => t.parent_id == some parent_id))

/-- `TaskRepository.get_dependents`. -/
def TaskRepository.get_dependents (now : DateTime) (fs : FS) (task_id : Str) :
    Except Err (List Task) :=
  (MarkdownStorage.list_all now fs).map (fun ts =>
    ts.filter (fun t => t.dependencies.contains task_id))

/-- `TaskRepository.get_blocking_tasks`: resolve each dependency through
`get` and keep the open ones. -/
def TaskRepository.get_blocking_tasks (now : DateTime) (fs : FS) (task_id : Str) :
    Except Err (List Task) := do
  let t? ← TaskRepository.get now fs task_id
  match t? with
  | none => Except.ok []
  | some t =>
    if t.dependencies = [] then Except.ok []
    else
      t.dependencies.foldlM (fun acc dep => do
        let d? ← TaskRepository.get now fs dep
        match d? with
        | some d => Except.ok (if d.is_open then acc ++ [d] else acc)
        | none => Except.ok acc) []

/-- `TaskRepository.can_start`: no blocking dependencies. -/
def TaskRepository.can_start (now : DateTime) (fs : FS) (task_id : Str) :
    Except Err Bool :=
  (TaskRepository.get_blocking_tasks now fs task_id).map (fun l => l.length == 0)

/-! ## TaskManager.delete (spec-modelled) -/

/-- Fuelled worker for `natDigits` (the fuel keeps the recursion
structural; `n + 1` units always suffice). -/
def natDigitsF : Nat → Nat → Str
  | 0, _ => []
  | f + 1, n =>
    if n < 10 then [digitChar n]
    else natDigitsF f (n / 10) ++ [digitChar (n % 10)]

/-- Decimal rendering of a natural number. -/
def natDigits (n : Nat) : Str := natDigitsF (n + 1) n

/-- The dependents rejection message of spec §4.5. -/
def depErrMsg (n : Nat) : Str :=
  "Cannot delete: ".toList ++ natDigits n ++ " task(s) depend on this task".toList

/-- The children rejection message of spec §4.5. -/
def childErrMsg (n : Nat) : Str :=
  "Cannot delete: task has ".toList ++ natDigits n ++ " child task(s)".toList

/-- Modelled from the spec: `TaskManager.delete` — the file
`task_butler/core/task_manager.py` is not among the provided sources (only
`core/__init__.py`, which re-exports `TaskManager`, and its tests are).
Spec §4.5: "`delete` fails when dependents exist (\"Cannot delete: N
task(s) depend on this\") or children exist (\"has N child task(s)\")";
spec §7: a write-path identifier that resolves to nothing raises.  On any
error the storage state is returned unchanged. -/
def TaskManager.delete (now : DateTime) (fs : FS) (task_id : Str) :
    (Except Err Bool) × FS :=
  match TaskRepository.get now fs task_id with
  | .error e => (.error e, fs)
  | .ok none => (.error (.valueError ("Task not found: ".toList ++ task_id)), fs)
  | .ok (some t) =>
    match TaskRepository.get_dependents now fs t.id with
    | .error e => (.error e, fs)
    | .ok deps =>
      if 0 < deps.length then (.error (.valueError (depErrMsg deps.length)), fs)
      else
        match TaskRepository.get_children now fs t.id with
        | .error e => (.error e, fs)
        | .ok children =>
          if 0 < children.length then
            (.error (.valueError (childErrMsg children.length)), fs)
          else
            match TaskRepository.delete now fs task_id with
            | .error e => (.error e, fs)
            | .ok (b, fs') => (.ok b, fs')

/-! ## Predicates used by the statements -/

/-- A `datetime` value a minute-precision note timestamp can represent and
that `strftime("%Y-%m-%d %H:%M")` renders unambiguously: a valid calendar
date with a four-digit year and no sub-minute part. -/
def ValidMinute (dt : DateTime) : Prop :=
  1000 ≤ dt.year ∧ dt.year ≤ 9999 ∧ 1 ≤ dt.month ∧ dt.month ≤ 12 ∧
    1 ≤ dt.day ∧ dt.day ≤ daysInMonth dt.year dt.month ∧
    dt.hour ≤ 23 ∧ dt.minute ≤ 59 ∧ dt.second = 0 ∧ dt.microsecond = 0

instance (dt : DateTime) : Decidable (ValidMinute dt) := by
  unfold ValidMinute; infer_instance

/-- A note whose line in the notes section decodes back to the same note:
single-line content with no trailing whitespace, not containing the
section marker, and a minute-precision timestamp. -/
def GoodNote (n : Note) : Prop :=
  '\n' ∉ n.content ∧ pyRstrip n.content = n.content ∧
    hasSub n.content notesMarker = false ∧ ValidMinute n.created_at

instance (n : Note) : Decidable (GoodNote n) := by
  unfold GoodNote; infer_instance

/-- A description the decoder reconstructs (up to edge whitespace): it does
not contain the notes-section marker and none of its lines looks like a
checkbox line. -/
def GoodDescription (d : Str) : Prop :=
  hasSub d notesMarker = false ∧
    ∀ l ∈ pySplit ['\n'] d, isObsLine (pyStrip l) = false

instance (d : Str) : Decidable (GoodDescription d) := by
  unfold GoodDescription; infer_instance

/-- The save/load round-trip hypotheses for a task: a good description and
good notes, and no field whose Python-falsy value (`0`, `""`, `[]`) is
conflated with "absent" by the `if task.<field>:` guards of `save`. -/
def RoundTrippable (t : Task) : Prop :=
  GoodDescription t.description ∧
    (∀ n ∈ t.notes, GoodNote n) ∧
    t.estimated_hours ≠ some 0 ∧ t.actual_hours ≠ some 0 ∧
    t.project ≠ some [] ∧ t.parent_id ≠ some [] ∧
    t.recurrence_parent_id ≠ some [] ∧
    (∀ r, t.recurrence = some r → r.days_of_week ≠ some [] ∧ r.day_of_month ≠ some 0)

instance (t : Task) : Decidable (RoundTrippable t) := by
  unfold RoundTrippable; infer_instance

/-- A well-formed storage state paired with the tasks it holds, in file
order: every file is named canonically for its task and decodes to it,
ids are at least as long as a short id, and short ids are pairwise
distinct (ids are glob-literal, as UUIDs are). -/
def WFStore (now : DateTime) (fs : FS) (ts : List Task) : Prop :=
  List.Forall₂ (fun (f : Str × Post) (t : Task) =>
      f.1 = MarkdownStorage.task_filename t.id t.title ∧
      decodePost now f.2 = .ok t) fs ts ∧
    (∀ t ∈ ts, 8 ≤ t.id.length) ∧
    List.Pairwise (fun a b => a.id.take 8 ≠ b.id.take 8) ts

instance (now : DateTime) (fs : FS) (ts : List Task) :
    Decidable (WFStore now fs ts) := by
  unfold WFStore
  infer_instance

/-- An identifier that resolves to nothing in a store: no glob match, no
legacy or placeholder file, and no stored id starts with it. -/
def NoResolve (fs : FS) (ts : List Task) (d : Str) : Prop :=
  globFirst fs (d.take 8) = none ∧
    lookupFile fs (d ++ ".md".toList) = none ∧
    lookupFile fs (d.take 8 ++ "_task.md".toList) = none ∧
    ∀ u ∈ ts, isPre d u.id = false

instance (fs : FS) (ts : List Task) (d : Str) : Decidable (NoResolve fs ts d) := by
  unfold NoResolve
  infer_instance

/-! ## Concrete fixtures

Small concrete tasks and storage states used to evaluate the embedded code
at specific inputs. -/

/-- A fixed `datetime.now()` value. -/
def now0 : DateTime := ⟨2025, 6, 1, 12, 0, 0, 0⟩

/-- A minimal pending task; fields are filled in per fixture. -/
def baseTask : Task where
  id := "00000000-0000-0000-0000-000000000000".toList
  title := "Task".toList
  description := []
  status := .pending
  priority := .medium
  due_date := none
  scheduled_date := none
  start_date := none
  completed_at := none
  estimated_hours := none
  actual_hours := none
  tags := []
  project := none
  parent_id := none
  dependencies := []
  recurrence := none
  recurrence_parent_id := none
  created_at := ⟨2024, 1, 1, 0, 0, 0, 0⟩
  updated_at := ⟨2024, 1, 2, 0, 0, 0, 0⟩
  notes := []

/-- A task whose description is a single checkbox line. -/
def cexTask : Task :=
  { baseTask with
    id := "abc123de-1111-2222-3333-444444444444".toList
    title := "Groceries".toList
    description := "- [ ] buy milk".toList }

/-- Fixture of `tests/test_storage.py::test_ambiguous_id_error`: two stored
tasks whose ids share the 4-character prefix `aaaa`. -/
def taskA : Task :=
  { baseTask with
    id := "aaaa1111-2222-3333-4444-555555555555".toList
    title := "Task A".toList }

def taskB : Task :=
  { baseTask with
    id := "aaaa2222-3333-4444-5555-666666666666".toList
    title := "Task B".toList }

/-- The storage directory holding `taskA` and `taskB`. -/
def fsAB : FS := (MarkdownStorage.save (MarkdownStorage.save [] taskA).2 taskB).2

/-- A task another task depends on. -/
def depTask : Task :=
  { baseTask with
    id := "11111111-aaaa-bbbb-cccc-dddddddddddd".toList
    title := "Dep".toList }

/-- A task depending on `depTask`. -/
def dependentTask : Task :=
  { baseTask with
    id := "22222222-aaaa-bbbb-cccc-dddddddddddd".toList
    title := "Dependent".toList
    dependencies := [depTask.id] }

/-- Storage with `depTask` and its dependent. -/
def fsDep : FS :=
  (MarkdownStorage.save (MarkdownStorage.save [] depTask).2 dependentTask).2

/-- A pending blocker. -/
def blockerTask : Task :=
  { baseTask with
    id := "55555555-aaaa-bbbb-cccc-dddddddddddd".toList
    title := "Blocker".toList }

/-- A completed dependency. -/
def doneBlockerTask : Task :=
  { baseTask with
    id := "66666666-aaaa-bbbb-cccc-dddddddddddd".toList
    title := "Done blocker".toList
    status := .done }

/-- A task depending on both blockers. -/
def blockedTask : Task :=
  { baseTask with
    id := "77777777-aaaa-bbbb-cccc-dddddddddddd".toList
    title := "Blocked".toList
    dependencies := [blockerTask.id, doneBlockerTask.id] }

/-- Storage with the blocking fixture. -/
def fsBlock : FS :=
  (MarkdownStorage.save
    (MarkdownStorage.save (MarkdownStorage.save [] blockerTask).2 doneBlockerTask).2
    blockedTask).2

/-- A completed task and a cancelled task. -/
def doneTask : Task :=
  { baseTask with
    id := "88888888-aaaa-bbbb-cccc-dddddddddddd".toList
    title := "DoneT".toList
    status := .done }

def cancelledTask : Task :=
  { baseTask with
    id := "99999999-aaaa-bbbb-cccc-dddddddddddd".toList
    title := "CancT".toList
    status := .cancelled }

/-- Storage with one done and one cancelled task. -/
def fsDoneCanc : FS :=
  (MarkdownStorage.save (MarkdownStorage.save [] doneTask).2 cancelledTask).2

/-- A task with a description and one note. -/
def noteTask : Task :=
  { baseTask with
    id := "bbbb1111-2222-3333-4444-555555555555".toList
    title := "Noted".toList
    description := "Write the report".toList
    notes := [⟨"hello world".toList, ⟨2025, 5, 2, 9, 30, 0, 0⟩⟩] }

/-- A parent task. -/
def parentTask : Task :=
  { baseTask with
    id := "33333333-aaaa-bbbb-cccc-dddddddddddd".toList
    title := "Parent".toList }

/-- A child of `parentTask`. -/
def childTask : Task :=
  { baseTask with
    id := "44444444-aaaa-bbbb-cccc-dddddddddddd".toList
    title := "Child".toList
    parent_id := some parentTask.id }

/-- Storage with `parentTask` and its child. -/
def fsChild : FS :=
  (MarkdownStorage.save (MarkdownStorage.save [] parentTask).2 childTask).2

/-- A file whose record is missing the required `id` field. -/
def badPost : Post :=
  { meta := { (MarkdownStorage.savePost baseTask).meta with id := none }, content := [] }

/-- A directory holding one well-formed and one malformed file. -/
def fsMixed : FS :=
  [("good.md".toList, MarkdownStorage.savePost taskA), ("bad.md".toList, badPost)]

/-! ## Lemmas: prefixes and substrings -/

theorem isPre_iff {p s : Str} : isPre p s = true ↔ ∃ r, s = p ++ r := by
  induction p generalizing s with
  | nil => simp [isPre]
  | cons a p ih =>
    cases s with
    | nil => simp [isPre]
    | cons b s =>
      simp only [isPre, Bool.and_eq_true, beq_iff_eq, ih, List.cons_append]
      constructor
      · rintro ⟨rfl, r, rfl⟩
        exact ⟨r, rfl⟩
      · rintro ⟨r, h⟩
        obtain ⟨rfl, rfl⟩ : a = b ∧ s = p ++ r := by
          constructor
          · exact (List.cons.injEq .. ▸ h).1.symm
          · exact (List.cons.injEq .. ▸ h).2
        exact ⟨rfl, r, rfl⟩

theorem isPre_self_append (p r : Str) : isPre p (p ++ r) = true :=
  isPre_iff.mpr ⟨r, rfl⟩

theorem isPre_refl (p : Str) : isPre p p = true := by
  simpa using isPre_self_append p []

theorem isPre_trim {p u v : Str} (h : isPre p (u ++ v) = true)
    (hl : p.length ≤ u.length) : isPre p u = true := by
  induction p generalizing u with
  | nil => simp [isPre]
  | cons a p ih =>
    cases u with
    | nil => simp at hl
    | cons b u =>
      simp only [List.cons_append, isPre, Bool.and_eq_true] at h ⊢
      exact ⟨h.1, ih h.2 (by simpa using hl)⟩

theorem hasSub_iff {s pat : Str} : hasSub s pat = true ↔ ∃ a b, s = a ++ pat ++ b := by
  induction s with
  | nil =>
    simp only [hasSub, isPre_iff]
    constructor
    · rintro ⟨r, h⟩
      exact ⟨[], r, by simpa using h⟩
    · rintro ⟨a, b, h⟩
      rcases List.append_eq_nil.mp h.symm with ⟨h1, rfl⟩
      rcases List.append_eq_nil.mp h1 with ⟨rfl, rfl⟩
      exact ⟨[], by simp⟩
  | cons c r ih =>
    simp only [hasSub, Bool.or_eq_true, isPre_iff, ih]
    constructor
    · rintro (⟨t, h⟩ | ⟨a, b, h⟩)
      · exact ⟨[], t, by simpa using h⟩
      · exact ⟨c :: a, b, by simp [h]⟩
    · rintro ⟨a, b, h⟩
      cases a with
      | nil => exact Or.inl ⟨b, by simpa using h⟩
      | cons a0 a' =>
        right
        refine ⟨a', b, ?_⟩
        have h' : c :: r = a0 :: (a' ++ (pat ++ b)) := by simpa using h
        injection h' with h1 h2
        rw [← List.append_assoc] at h2
        exact h2

theorem hasSub_of_isPre {s pat : Str} (h : isPre pat s = true) : hasSub s pat = true := by
  rcases isPre_iff.mp h with ⟨r, rfl⟩
  exact hasSub_iff.mpr ⟨[], r, by simp⟩

theorem hasSub_append_left {v pat : Str} (u : Str) (h : hasSub v pat = true) :
    hasSub (u ++ v) pat = true := by
  rcases hasSub_iff.mp h with ⟨a, b, rfl⟩
  exact hasSub_iff.mpr ⟨u ++ a, b, by simp⟩

theorem hasSub_append_right {u pat : Str} (v : Str) (h : hasSub u pat = true) :
    hasSub (u ++ v) pat = true := by
  rcases hasSub_iff.mp h with ⟨a, b, rfl⟩
  exact hasSub_iff.mpr ⟨a, b ++ v, by simp⟩

/-- A pattern that is a prefix of `u ++ c :: w` either occurs inside `u` or
contains the boundary character `c`. -/
theorem isPre_append_cons {p u w : Str} {c : Char}
    (h : isPre p (u ++ c :: w) = true) : hasSub u p = true ∨ c ∈ p := by
  by_cases hl : p.length ≤ u.length
  · exact Or.inl (hasSub_of_isPre (isPre_trim (by simpa using h) hl))
  · right
    rcases isPre_iff.mp h with ⟨r, hr⟩
    have hc : (u ++ c :: w)[u.length]? = some c := by
      rw [List.getElem?_append_right (Nat.le_refl _)]
      simp
    rw [hr, List.getElem?_append_left (by omega)] at hc
    exact List.getElem?_mem hc

/-- No occurrence of `pat` in `u ++ c :: z` when `pat` occurs in neither
part, is non-empty, and does not contain `c`. -/
theorem hasSub_append_cons_eq_false {u z pat : Str} {c : Char}
    (hu : hasSub u pat = false) (hz : hasSub z pat = false)
    (hne : pat ≠ []) (hc : c ∉ pat) : hasSub (u ++ c :: z) pat = false := by
  induction u with
  | nil =>
    simp only [List.nil_append, hasSub]
    rw [hz, Bool.or_false]
    cases pat with
    | nil => exact absurd rfl hne
    | cons q p' =>
      cases hpre : isPre (q :: p') (c :: z) with
      | false => rfl
      | true =>
        exfalso
        rcases isPre_iff.mp hpre with ⟨r, hr⟩
        simp only [List.cons_append] at hr
        have hqc : c = q := by
          injection hr with h1 h2
        exact hc (hqc ▸ List.mem_cons_self q p')
  | cons a u' ih =>
    have hu' : hasSub u' pat = false := by
      cases hq : hasSub u' pat with
      | false => rfl
      | true =>
        exfalso
        have := hasSub_append_left [a] hq
        simp only [List.singleton_append] at this
        rw [hu] at this
        exact Bool.false_ne_true this
    simp only [List.cons_append, hasSub, List.append_eq]
    have hIH : hasSub (u' ++ c :: z) pat = false := ih hu'
    rw [hIH, Bool.or_false]
    cases hpre : isPre pat (a :: (u' ++ c :: z)) with
    | false => rfl
    | true =>
      exfalso
      rcases isPre_append_cons (p := pat) (u := a :: u') (w := z) (c := c)
          (by simpa using hpre) with hin | hmem
      · rw [hu] at hin
        exact Bool.false_ne_true hin
      · exact hc hmem

/-! ## Lemmas: splitting -/

theorem pySplitGo_ne_nil (hd : Char) (tl s : Str) (k : Nat) :
    pySplitGo hd tl s k ≠ [] := by
  induction s generalizing k with
  | nil => simp [pySplitGo]
  | cons c r ih =>
    cases k with
    | succ k' => simpa [pySplitGo] using ih k'
    | zero =>
      by_cases hp : isPre (hd :: tl) (c :: r) = true
      · simp [pySplitGo, hp]
      · simp only [pySplitGo, if_neg hp]
        cases hq : pySplitGo hd tl r 0 with
        | nil => exact absurd hq (ih 0)
        | cons h t => simp

theorem pySplitGo_skip (hd : Char) (tl : Str) (u B : Str) :
    pySplitGo hd tl (u ++ B) u.length = pySplitGo hd tl B 0 := by
  induction u with
  | nil => rfl
  | cons c u' ih => simpa [pySplitGo] using ih

theorem hasSub_singleton {s : Str} {c : Char} : hasSub s [c] = true ↔ c ∈ s := by
  rw [hasSub_iff]
  constructor
  · rintro ⟨a, b, rfl⟩
    simp
  · intro h
    rcases List.append_of_mem h with ⟨a, b, rfl⟩
    exact ⟨a, b, by simp⟩

theorem pySplitGo_of_not_hasSub {hd : Char} {tl s : Str}
    (h : hasSub s (hd :: tl) = false) : pySplitGo hd tl s 0 = [s] := by
  induction s with
  | nil => rfl
  | cons c r ih =>
    simp only [hasSub, Bool.or_eq_false_iff] at h
    simp only [pySplitGo, h.1, ih h.2]
    simp

/-- Splitting `A ++ sep ++ B` when no occurrence of the separator starts
inside `A` and `B` is separator-free yields exactly the two parts. -/
theorem pySplitGo_boundary (hd : Char) (tl : Str) (A B : Str)
    (hns : ∀ u v, A = u ++ v → v ≠ [] → isPre (hd :: tl) (v ++ ((hd :: tl) ++ B)) = false) :
    pySplitGo hd tl (A ++ ((hd :: tl) ++ B)) 0 = A :: pySplitGo hd tl B 0 := by
  induction A with
  | nil =>
    have hp : isPre (hd :: tl) (hd :: (tl ++ B)) = true := by
      simpa using isPre_self_append (hd :: tl) B
    show pySplitGo hd tl (hd :: (tl ++ B)) 0 = [] :: pySplitGo hd tl B 0
    simp only [pySplitGo, hp, if_true]
    rw [show (List.length tl) = (tl ++ B).length - B.length by simp]
    rw [show (tl ++ B).length - B.length = tl.length by simp]
    rw [pySplitGo_skip hd tl tl B]
  | cons a A' ih =>
    have hp : isPre (hd :: tl) (a :: (A' ++ ((hd :: tl) ++ B))) = false := by
      have := hns [] (a :: A') rfl (by simp)
      simpa [List.append_assoc] using this
    have hrec := ih (fun u v hv hvne => hns (a :: u) v (by rw [hv]; rfl) hvne)
    show pySplitGo hd tl (a :: (A' ++ ((hd :: tl) ++ B))) 0 = (a :: A') :: pySplitGo hd tl B 0
    simp only [pySplitGo, hp]
    rw [hrec]
    simp

theorem joinSep_cons_head (sep h : Str) (t : List Str) (c : Char) :
    joinSep sep ((c :: h) :: t) = c :: joinSep sep (h :: t) := by
  cases t <;> simp [joinSep]

theorem joinSep_pySplitGo_bounded (hd : Char) (tl : Str) :
    ∀ n s, s.length ≤ n → joinSep (hd :: tl) (pySplitGo hd tl s 0) = s := by
  intro n
  induction n with
  | zero =>
    intro s hs
    have : s = [] := List.length_eq_zero.mp (Nat.le_zero.mp hs)
    subst this
    rfl
  | succ n ih =>
    intro s hs
    cases s with
    | nil => rfl
    | cons c r =>
      by_cases hp : isPre (hd :: tl) (c :: r) = true
      · rcases isPre_iff.mp hp with ⟨q, hq⟩
        have hc : c = hd := by injection hq with h1 _
        have hr : r = tl ++ q := by injection hq with _ h2
        have hq' : joinSep (hd :: tl) (pySplitGo hd tl q 0) = q := by
          apply ih
          have h1 := hs
          rw [hr] at h1
          simp only [List.length_cons, List.length_append] at h1
          omega
        simp only [pySplitGo, hp, if_true]
        rw [hr, pySplitGo_skip hd tl tl q]
        cases hsp : pySplitGo hd tl q 0 with
        | nil => exact absurd hsp (pySplitGo_ne_nil hd tl q 0)
        | cons x t =>
          rw [hsp] at hq'
          simp only [joinSep, List.nil_append]
          rw [hq', hc]
          simp
      · simp only [pySplitGo, hp, if_false]
        have hr : joinSep (hd :: tl) (pySplitGo hd tl r 0) = r := by
          apply ih
          simp only [List.length_cons] at hs
          omega
        cases hsp : pySplitGo hd tl r 0 with
        | nil => exact absurd hsp (pySplitGo_ne_nil hd tl r 0)
        | cons h t =>
          rw [hsp] at hr
          show joinSep (hd :: tl) ((c :: h) :: t) = c :: r
          rw [joinSep_cons_head, hr]

theorem joinSep_pySplit (sep : Str) (hne : sep ≠ []) (s : Str) :
    joinSep sep (pySplit sep s) = s := by
  cases sep with
  | nil => exact absurd rfl hne
  | cons hd tl => exact joinSep_pySplitGo_bounded hd tl s.length s (Nat.le_refl _)

/-- Characters of a piece of a single-character split come from the split
string. -/
theorem mem_of_mem_pySplitChar {c : Char} {s l : Str} {d : Char}
    (hl : l ∈ pySplitGo c [] s 0) (hd : d ∈ l) : d ∈ s := by
  induction s generalizing l with
  | nil =>
    simp only [pySplitGo, List.mem_singleton] at hl
    subst hl
    simp at hd
  | cons a r ih =>
    by_cases hp : isPre [c] (a :: r) = true
    · simp only [pySplitGo, if_pos hp, List.mem_cons] at hl
      rcases hl with rfl | hl
      · simp at hd
      · exact List.mem_cons_of_mem a (ih hl hd)
    · simp only [pySplitGo, if_neg hp] at hl
      cases hsp : pySplitGo c [] r 0 with
      | nil => exact absurd hsp (pySplitGo_ne_nil c [] r 0)
      | cons h t =>
        rw [hsp] at hl
        simp only [List.mem_cons] at hl
        rcases hl with rfl | hl
        · rcases List.mem_cons.mp hd with rfl | hd'
          · simp
          · exact List.mem_cons_of_mem a (ih (hsp ▸ List.mem_cons_self h t) hd')
        · exact List.mem_cons_of_mem a (ih (hsp ▸ List.mem_cons_of_mem h hl) hd)

/-- No piece of a single-character split contains the separator. -/
theorem not_mem_of_mem_pySplitChar {c : Char} {s l : Str}
    (hl : l ∈ pySplitGo c [] s 0) : c ∉ l := by
  induction s generalizing l with
  | nil =>
    simp only [pySplitGo, List.mem_singleton] at hl
    subst hl
    simp
  | cons a r ih =>
    by_cases hp : isPre [c] (a :: r) = true
    · simp only [pySplitGo, if_pos hp, List.mem_cons] at hl
      rcases hl with rfl | hl
      · simp
      · exact ih hl
    · have hca : ¬ c = a := by
        intro h
        subst h
        simp [isPre] at hp
      simp only [pySplitGo, if_neg hp] at hl
      cases hsp : pySplitGo c [] r 0 with
      | nil => exact absurd hsp (pySplitGo_ne_nil c [] r 0)
      | cons h t =>
        rw [hsp] at hl
        simp only [List.mem_cons] at hl
        rcases hl with rfl | hl
        · intro hmem
          rcases List.mem_cons.mp hmem with h' | h'
          · exact hca h'
          · exact ih (hsp ▸ List.mem_cons_self h t) h'
        · exact ih (hsp ▸ List.mem_cons_of_mem h hl)

/-- Splitting the single-character join of separator-free pieces recovers
the pieces. -/
theorem pySplitChar_joinSep {c : Char} {ls : List Str} (hne : ls ≠ [])
    (h : ∀ l ∈ ls, c ∉ l) : pySplitGo c [] (joinSep [c] ls) 0 = ls := by
  induction ls with
  | nil => exact absurd rfl hne
  | cons x t ih =>
    cases t with
    | nil =>
      simp only [joinSep]
      exact pySplitGo_of_not_hasSub (by
        cases hq : hasSub x [c] with
        | false => rfl
        | true => exact absurd (hasSub_singleton.mp hq) (h x (List.mem_cons_self x [])))
    | cons y t' =>
      have hx : c ∉ x := h x (List.mem_cons_self _ _)
      have hjoin : joinSep [c] (x :: y :: t') = x ++ ([c] ++ joinSep [c] (y :: t')) := by
        simp [joinSep]
      rw [hjoin]
      have hb := pySplitGo_boundary c [] x (joinSep [c] (y :: t'))
        (by
          intro u v huv hvne
          cases v with
          | nil => exact absurd rfl hvne
          | cons d v' =>
            have hd : d ∈ x := by
              rw [huv]
              exact List.mem_append_right u (List.mem_cons_self d v')
            have : ¬ c = d := fun hcd => hx (hcd ▸ hd)
            simp [isPre, this])
      rw [hb, ih (by simp) (fun l hl => h l (List.mem_cons_of_mem x hl))]

/-- Splitting on a newline that separates two strings splits each side. -/
theorem pySplitChar_append (c : Char) (x y : Str) :
    pySplitGo c [] (x ++ c :: y) 0 = pySplitGo c [] x 0 ++ pySplitGo c [] y 0 := by
  induction x with
  | nil =>
    simp only [List.nil_append]
    have hp : isPre [c] (c :: y) = true := by simp [isPre]
    simp [pySplitGo, hp]
  | cons a x' ih =>
    by_cases hp : isPre [c] (a :: (x' ++ c :: y)) = true
    · have hca : a = c := by
        simp only [isPre, Bool.and_eq_true, beq_iff_eq] at hp
        exact hp.1.symm
      subst hca
      have hp2 : isPre [a] (a :: x') = true := by simp [isPre]
      show pySplitGo a [] (a :: (x' ++ a :: y)) 0 =
        pySplitGo a [] (a :: x') 0 ++ pySplitGo a [] y 0
      simp only [pySplitGo, hp, hp2, if_true, List.length_nil]
      rw [ih]
      simp
    · have hp2 : isPre [c] (a :: x') = false := by
        cases hq : isPre [c] (a :: x') with
        | false => rfl
        | true =>
          exfalso
          simp only [isPre, Bool.and_eq_true, beq_iff_eq] at hq hp
          exact hp ⟨hq.1, by simp [isPre]⟩
      show pySplitGo c [] (a :: (x' ++ c :: y)) 0 =
        pySplitGo c [] (a :: x') 0 ++ pySplitGo c [] y 0
      simp only [pySplitGo, hp, hp2, if_false]
      rw [ih]
      cases hsp : pySplitGo c [] x' 0 with
      | nil => exact absurd hsp (pySplitGo_ne_nil c [] x' 0)
      | cons h t => simp

/-- The first line of a string. -/
theorem pySplitChar_headD (c : Char) (s : Str) :
    (pySplitGo c [] s 0).headD [] = s.takeWhile (fun d => d != c) := by
  induction s with
  | nil => rfl
  | cons a r ih =>
    by_cases hp : isPre [c] (a :: r) = true
    · have hca : a = c := by
        simp only [isPre, Bool.and_eq_true, beq_iff_eq] at hp
        exact hp.1.symm
      subst hca
      simp [pySplitGo, hp, List.takeWhile]
    · have hca : ¬ a = c := by
        intro h
        subst h
        simp [isPre] at hp
      simp only [pySplitGo, if_neg hp]
      cases hsp : pySplitGo c [] r 0 with
      | nil => exact absurd hsp (pySplitGo_ne_nil c [] r 0)
      | cons h t =>
        have := ih
        rw [hsp] at this
        simp only [List.headD_cons] at this
        simp only [List.headD_cons, List.takeWhile, this]
        rw [show (a != c) = true from bne_iff_ne.mpr hca]

/-! ## Lemmas: stripping -/

theorem dropWhile_append_of_all {p : Char → Bool} {u : Str} (v : Str)
    (h : ∀ c ∈ u, p c = true) :
    List.dropWhile p (u ++ v) = List.dropWhile p v := by
  induction u with
  | nil => rfl
  | cons c u' ih =>
    have hc := h c (List.mem_cons_self c u')
    simp only [List.cons_append, List.dropWhile_cons, hc, if_true]
    exact ih (fun d hd => h d (List.mem_cons_of_mem c hd))

theorem dropWhile_append_of_stop {p : Char → Bool} {u : Str} (v : Str)
    (h : List.dropWhile p u ≠ []) :
    List.dropWhile p (u ++ v) = List.dropWhile p u ++ v := by
  induction u with
  | nil => exact absurd rfl h
  | cons c u' ih =>
    by_cases hc : p c = true
    · simp only [List.dropWhile_cons, hc, if_true] at h ⊢
      simp only [List.cons_append, List.dropWhile_cons, hc, if_true]
      exact ih h
    · have hc' : p c = false := by
        cases hq : p c with
        | false => rfl
        | true => exact absurd hq hc
      simp only [List.cons_append, List.dropWhile_cons, hc', if_false]
      simp [List.dropWhile_cons, hc']

theorem pyRstrip_eq_nil_iff {s : Str} : pyRstrip s = [] ↔ ∀ c ∈ s, pyIsSpace c = true := by
  unfold pyRstrip
  rw [List.reverse_eq_nil_iff, List.dropWhile_eq_nil_iff]
  constructor
  · intro h c hc
    exact h c (List.mem_reverse.mpr hc)
  · intro h c hc
    exact h c (List.mem_reverse.mp hc)

theorem pyRstrip_append_all {a w : Str} (h : ∀ c ∈ w, pyIsSpace c = true) :
    pyRstrip (a ++ w) = pyRstrip a := by
  unfold pyRstrip
  rw [List.reverse_append]
  rw [dropWhile_append_of_all a.reverse (fun c hc => h c (List.mem_reverse.mp hc))]

theorem pyRstrip_append_stop {b : Str} (a : Str) (h : pyRstrip b ≠ []) :
    pyRstrip (a ++ b) = a ++ pyRstrip b := by
  unfold pyRstrip at h ⊢
  rw [List.reverse_append]
  rw [dropWhile_append_of_stop a.reverse (fun hn => h (by rw [hn]; rfl))]
  rw [List.reverse_append, List.reverse_reverse]

theorem pyRstrip_ne_nil_of {b : Str} {d : Char} (hd : d ∈ b)
    (hws : pyIsSpace d = false) : pyRstrip b ≠ [] := by
  intro h
  have := pyRstrip_eq_nil_iff.mp h d hd
  rw [hws] at this
  exact Bool.false_ne_true this

theorem mem_pyRstrip {s : Str} {c : Char} (h : c ∈ pyRstrip s) : c ∈ s := by
  unfold pyRstrip at h
  have h' := List.mem_reverse.mp h
  exact List.mem_reverse.mp ((List.dropWhile_sublist pyIsSpace).mem h')

theorem pyRstrip_idem (s : Str) : pyRstrip (pyRstrip s) = pyRstrip s := by
  unfold pyRstrip
  rw [List.reverse_reverse, List.dropWhile_idempotent]

theorem pyLstrip_append_all {a w : Str} (h : ∀ c ∈ w, pyIsSpace c = true) :
    pyLstrip (w ++ a) = pyLstrip a := by
  unfold pyLstrip
  exact dropWhile_append_of_all a h

theorem pyLstrip_cons_ws {c : Char} (x : Str) (h : pyIsSpace c = true) :
    pyLstrip (c :: x) = pyLstrip x := by
  simp [pyLstrip, List.dropWhile_cons, h]

theorem pyLstrip_cons_not {c : Char} (x : Str) (h : pyIsSpace c = false) :
    pyLstrip (c :: x) = c :: x := by
  simp [pyLstrip, List.dropWhile_cons, h]

theorem pyLstrip_idem (s : Str) : pyLstrip (pyLstrip s) = pyLstrip s := by
  unfold pyLstrip
  exact List.dropWhile_idempotent pyIsSpace s

theorem pyLstrip_decomp (s : Str) :
    ∃ w, s = w ++ pyLstrip s ∧ ∀ c ∈ w, pyIsSpace c = true := by
  refine ⟨s.takeWhile pyIsSpace, ?_, ?_⟩
  · rw [pyLstrip, List.takeWhile_append_dropWhile]
  · intro c hc
    exact List.mem_takeWhile_imp hc

theorem pyRstrip_decomp (s : Str) :
    ∃ w, s = pyRstrip s ++ w ∧ ∀ c ∈ w, pyIsSpace c = true := by
  refine ⟨(s.reverse.takeWhile pyIsSpace).reverse, ?_, ?_⟩
  · unfold pyRstrip
    rw [← List.reverse_append, List.takeWhile_append_dropWhile, List.reverse_reverse]
  · intro c hc
    exact List.mem_takeWhile_imp (List.mem_reverse.mp hc)

theorem pyStrip_append_ws {a w : Str} (h : ∀ c ∈ w, pyIsSpace c = true) :
    pyStrip (a ++ w) = pyStrip a := by
  unfold pyStrip
  rw [pyRstrip_append_all h]

theorem pyStrip_cons_ws {c : Char} (x : Str) (h : pyIsSpace c = true) :
    pyStrip (c :: x) = pyStrip x := by
  unfold pyStrip
  by_cases hx : pyRstrip x = []
  · have hall := pyRstrip_eq_nil_iff.mp hx
    have : pyRstrip (c :: x) = [] := by
      rw [pyRstrip_eq_nil_iff]
      intro d hd
      rcases List.mem_cons.mp hd with rfl | hd'
      · exact h
      · exact hall d hd'
    rw [this, hx]
  · have : pyRstrip (c :: x) = c :: pyRstrip x := by
      have := pyRstrip_append_stop (b := x) [c] hx
      simpa using this
    rw [this, pyLstrip_cons_ws _ h]

theorem pyStrip_ws_append {a w : Str} (h : ∀ c ∈ w, pyIsSpace c = true) :
    pyStrip (w ++ a) = pyStrip a := by
  unfold pyStrip
  by_cases hx : pyRstrip a = []
  · have hall := pyRstrip_eq_nil_iff.mp hx
    have h2 : pyRstrip (w ++ a) = [] := by
      rw [pyRstrip_eq_nil_iff]
      intro d hd
      rcases List.mem_append.mp hd with hd' | hd'
      · exact h d hd'
      · exact hall d hd'
    rw [h2, hx]
  · rw [pyRstrip_append_stop w hx, pyLstrip_append_all h]

theorem pyStrip_all_ws {s : Str} (h : ∀ c ∈ s, pyIsSpace c = true) :
    pyStrip s = [] := by
  unfold pyStrip
  rw [pyRstrip_eq_nil_iff.mpr h]
  rfl

theorem pyStrip_of_pyRstrip (s : Str) : pyStrip (pyRstrip s) = pyStrip s := by
  unfold pyStrip
  rw [pyRstrip_idem]

theorem pyRstrip_cons (c : Char) (x : Str) :
    pyRstrip (c :: x) =
      if pyRstrip x = [] then (if pyIsSpace c = true then [] else [c])
      else c :: pyRstrip x := by
  by_cases hx : pyRstrip x = []
  · rw [if_pos hx]
    have hall := pyRstrip_eq_nil_iff.mp hx
    have h1 : pyRstrip (c :: x) = pyRstrip [c] := by
      have := pyRstrip_append_all (a := [c]) (w := x) hall
      simpa using this
    rw [h1]
    unfold pyRstrip
    by_cases hc : pyIsSpace c = true
    · simp [List.dropWhile, hc]
    · have hc' : pyIsSpace c = false := by
        cases hq : pyIsSpace c with
        | false => rfl
        | true => exact absurd hq hc
      simp [List.dropWhile, hc']
  · rw [if_neg hx]
    have := pyRstrip_append_stop (b := x) [c] hx
    simpa using this

theorem pyRstrip_pyLstrip_comm (s : Str) :
    pyRstrip (pyLstrip s) = pyLstrip (pyRstrip s) := by
  induction s with
  | nil => rfl
  | cons c x ih =>
    by_cases hc : pyIsSpace c = true
    · rw [pyLstrip_cons_ws x hc, ih, pyRstrip_cons]
      by_cases hx : pyRstrip x = []
      · rw [if_pos hx, if_pos hc, hx]
      · rw [if_neg hx, pyLstrip_cons_ws _ hc]
    · have hc' : pyIsSpace c = false := by
        cases hq : pyIsSpace c with
        | false => rfl
        | true => exact absurd hq hc
      rw [pyLstrip_cons_not x hc', pyRstrip_cons]
      by_cases hx : pyRstrip x = []
      · rw [if_pos hx, if_neg hc, pyLstrip_cons_not [] hc']
      · rw [if_neg hx, pyLstrip_cons_not _ hc']

theorem pyStrip_idem (s : Str) : pyStrip (pyStrip s) = pyStrip s := by
  show pyLstrip (pyRstrip (pyLstrip (pyRstrip s))) = pyLstrip (pyRstrip s)
  rw [pyRstrip_pyLstrip_comm (pyRstrip s), pyRstrip_idem, pyLstrip_idem]

/-! ## Lemmas: line structure under stripping -/

theorem takeWhile_append_of_all {p : Char → Bool} {u : Str} (v : Str)
    (h : ∀ c ∈ u, p c = true) :
    List.takeWhile p (u ++ v) = u ++ List.takeWhile p v := by
  induction u with
  | nil => rfl
  | cons c u' ih =>
    have hc := h c (List.mem_cons_self c u')
    simp only [List.cons_append, List.takeWhile_cons, hc, if_true]
    rw [ih (fun d hd => h d (List.mem_cons_of_mem c hd))]

theorem headD_mem {ls : List Str} (h : ls ≠ []) : ls.headD [] ∈ ls := by
  cases ls with
  | nil => exact absurd rfl h
  | cons x t => exact List.mem_cons_self x t

theorem getLastD_irrel {t : List Str} (h : t ≠ []) (x y : Str) :
    t.getLastD x = t.getLastD y := by
  cases t with
  | nil => exact absurd rfl h
  | cons b t'' => rw [List.getLastD_cons, List.getLastD_cons]

theorem getLastD_mem {ls : List Str} (h : ls ≠ []) (d : Str) : ls.getLastD d ∈ ls := by
  induction ls generalizing d with
  | nil => exact absurd rfl h
  | cons x t ih =>
    cases t with
    | nil => simp [List.getLastD_cons]
    | cons y t' =>
      rw [List.getLastD_cons]
      exact List.mem_cons_of_mem x (ih (List.cons_ne_nil y t') x)

theorem dropLast_append_getLastD {ls : List Str} (h : ls ≠ []) (d : Str) :
    ls.dropLast ++ [ls.getLastD d] = ls := by
  induction ls generalizing d with
  | nil => exact absurd rfl h
  | cons x t ih =>
    cases t with
    | nil => simp [List.getLastD_cons]
    | cons y t' =>
      rw [List.getLastD_cons, List.dropLast_cons_of_ne_nil (List.cons_ne_nil y t'),
        List.cons_append, ih (List.cons_ne_nil y t') x]

theorem pySplitChar_cons_eq (c : Char) (r : Str) :
    pySplitGo c [] (c :: r) 0 = [] :: pySplitGo c [] r 0 := by
  simp [pySplitGo, isPre]

theorem pySplitChar_cons_ne {c a : Char} (hne : ¬ a = c) {r : Str} {h : Str}
    {t : List Str} (hl : pySplitGo c [] r 0 = h :: t) :
    pySplitGo c [] (a :: r) 0 = (a :: h) :: t := by
  have hp : isPre [c] (a :: r) = false := by simp [isPre, Ne.symm hne]
  simp only [pySplitGo, hp, hl]
  simp

/-- Appending `w` to `r` leaves all lines of `r` but the last unchanged and
replaces the last line `g` by the lines of `g ++ w`. -/
theorem pySplitChar_append_last (c : Char) (r w : Str) :
    pySplitGo c [] (r ++ w) 0 =
      (pySplitGo c [] r 0).dropLast ++
        pySplitGo c [] ((pySplitGo c [] r 0).getLastD [] ++ w) 0 := by
  induction r with
  | nil => simp [pySplitGo]
  | cons a r' ih =>
    cases hl : pySplitGo c [] r' 0 with
    | nil => exact absurd hl (pySplitGo_ne_nil _ _ _ _)
    | cons h' t' =>
      have ih' := ih
      rw [hl] at ih'
      by_cases hac : a = c
      · subst hac
        show pySplitGo a [] (a :: (r' ++ w)) 0 = _
        rw [pySplitChar_cons_eq, pySplitChar_cons_eq, hl, ih']
        simp [List.getLastD_cons, List.dropLast_cons_of_ne_nil (List.cons_ne_nil h' t')]
      · cases hl2 : pySplitGo c [] (r' ++ w) 0 with
        | nil => exact absurd hl2 (pySplitGo_ne_nil _ _ _ _)
        | cons h2 t2 =>
          rw [hl2] at ih'
          show pySplitGo c [] (a :: (r' ++ w)) 0 = _
          rw [pySplitChar_cons_ne hac hl2, pySplitChar_cons_ne hac hl]
          cases t' with
          | nil =>
            rw [List.dropLast_single, List.getLastD_cons, List.getLastD_nil,
              List.nil_append]
            have hstep : pySplitGo c [] ((a :: h') ++ w) 0 = (a :: h2) :: t2 := by
              show pySplitGo c [] (a :: (h' ++ w)) 0 = (a :: h2) :: t2
              have hlw : pySplitGo c [] (h' ++ w) 0 = h2 :: t2 := by
                have h3 := ih'
                simp only [List.dropLast_single, List.getLastD_cons, List.getLastD_nil,
                  List.nil_append] at h3
                exact h3.symm
              exact pySplitChar_cons_ne hac hlw
            rw [hstep]
          | cons b t'' =>
            rw [List.getLastD_cons,
              List.dropLast_cons_of_ne_nil (List.cons_ne_nil b t''), List.cons_append]
            have hg : (b :: t'').getLastD (a :: h') = (b :: t'').getLastD h' :=
              getLastD_irrel (List.cons_ne_nil b t'') _ _
            rw [hg]
            have ih2 : h2 :: t2 =
                h' :: (List.dropLast (b :: t'') ++
                  pySplitGo c [] ((b :: t'').getLastD h' ++ w) 0) := by
              rw [ih']
              rw [List.getLastD_cons,
                List.dropLast_cons_of_ne_nil (List.cons_ne_nil b t''), List.cons_append]
            have hh2 : h2 = h' := by injection ih2
            have ht2 : t2 = List.dropLast (b :: t'') ++
                pySplitGo c [] ((b :: t'').getLastD h' ++ w) 0 := by
              injection ih2 with h1 h2x
            rw [hh2, ht2]

/-- Every line of `pyLstrip s` equals, up to stripping, a line of `s`. -/
theorem lines_pyLstrip (s : Str) :
    ∀ l' ∈ pySplitGo '\n' [] (pyLstrip s) 0,
      ∃ l ∈ pySplitGo '\n' [] s 0, pyStrip l' = pyStrip l := by
  induction s with
  | nil =>
    intro l' hl'
    exact ⟨l', hl', rfl⟩
  | cons c s' ih =>
    by_cases hc : pyIsSpace c = true
    · rw [pyLstrip_cons_ws s' hc]
      intro l' hl'
      rcases ih l' hl' with ⟨l, hl, he⟩
      by_cases hcn : c = '\n'
      · subst hcn
        refine ⟨l, ?_, he⟩
        rw [pySplitChar_cons_eq]
        exact List.mem_cons_of_mem [] hl
      · cases hq : pySplitGo '\n' [] s' 0 with
        | nil => exact absurd hq (pySplitGo_ne_nil _ _ _ _)
        | cons h t =>
          rw [hq] at hl
          rcases List.mem_cons.mp hl with rfl | hlt
          · exact ⟨c :: l, by rw [pySplitChar_cons_ne hcn hq]; exact List.mem_cons_self _ _,
              by rw [he, pyStrip_cons_ws l hc]⟩
          · exact ⟨l, by rw [pySplitChar_cons_ne hcn hq]; exact List.mem_cons_of_mem _ hlt, he⟩
    · have hc' : pyIsSpace c = false := by
        cases hq : pyIsSpace c with
        | false => rfl
        | true => exact absurd hq hc
      rw [pyLstrip_cons_not s' hc']
      intro l' hl'
      exact ⟨l', hl', rfl⟩

/-- Every line of `pyRstrip s` equals, up to stripping, a line of `s`. -/
theorem lines_pyRstrip (s : Str) :
    ∀ l' ∈ pySplitGo '\n' [] (pyRstrip s) 0,
      ∃ l ∈ pySplitGo '\n' [] s 0, pyStrip l' = pyStrip l := by
  rcases pyRstrip_decomp s with ⟨w, hw, hws⟩
  intro l' hl'
  have hform := pySplitChar_append_last '\n' (pyRstrip s) w
  have hforms : pySplitGo '\n' [] s 0 =
      (pySplitGo '\n' [] (pyRstrip s) 0).dropLast ++
        pySplitGo '\n' [] ((pySplitGo '\n' [] (pyRstrip s) 0).getLastD [] ++ w) 0 := by
    conv_lhs => rw [hw]
    exact hform
  have hmem_split : l' ∈ (pySplitGo '\n' [] (pyRstrip s) 0).dropLast ∨
      l' = (pySplitGo '\n' [] (pyRstrip s) 0).getLastD [] := by
    rw [← dropLast_append_getLastD (pySplitGo_ne_nil '\n' [] (pyRstrip s) 0) []] at hl'
    rcases List.mem_append.mp hl' with hmem | hmem
    · exact Or.inl hmem
    · exact Or.inr (List.mem_singleton.mp hmem)
  rcases hmem_split with hmem | hlast
  · refine ⟨l', ?_, rfl⟩
    rw [hforms]
    exact List.mem_append_left _ hmem
  · have hgmem : (pySplitGo '\n' [] (pyRstrip s) 0).getLastD [] ∈
        pySplitGo '\n' [] (pyRstrip s) 0 :=
      getLastD_mem (pySplitGo_ne_nil '\n' [] (pyRstrip s) 0) []
    have hnl : '\n' ∉ (pySplitGo '\n' [] (pyRstrip s) 0).getLastD [] :=
      not_mem_of_mem_pySplitChar hgmem
    have hhead : (pySplitGo '\n' []
          ((pySplitGo '\n' [] (pyRstrip s) 0).getLastD [] ++ w) 0).headD [] =
        (pySplitGo '\n' [] (pyRstrip s) 0).getLastD [] ++
          List.takeWhile (fun d => d != '\n') w := by
      rw [pySplitChar_headD]
      exact takeWhile_append_of_all w
        (fun c hc => bne_iff_ne.mpr (fun he => hnl (he ▸ hc)))
    refine ⟨(pySplitGo '\n' [] (pyRstrip s) 0).getLastD [] ++
      List.takeWhile (fun d => d != '\n') w, ?_, ?_⟩
    · rw [hforms]
      apply List.mem_append_right
      have hm := headD_mem (pySplitGo_ne_nil '\n' []
        ((pySplitGo '\n' [] (pyRstrip s) 0).getLastD [] ++ w) 0)
      rw [hhead] at hm
      exact hm
    · rw [hlast,
        pyStrip_append_ws (fun c hc => hws c ((List.takeWhile_sublist _).subset hc))]

/-- Every line of `pyStrip s` equals, up to stripping, a line of `s`. -/
theorem lines_pyStrip (s : Str) :
    ∀ l' ∈ pySplitGo '\n' [] (pyStrip s) 0,
      ∃ l ∈ pySplitGo '\n' [] s 0, pyStrip l' = pyStrip l := by
  intro l' hl'
  rcases lines_pyLstrip (pyRstrip s) l' hl' with ⟨l1, hl1, he1⟩
  rcases lines_pyRstrip s l1 hl1 with ⟨l, hl, he⟩
  exact ⟨l, hl, he1.trans he⟩

/-! ## Lemmas: obsidian-line stripping -/

theorem strip_obsidian_of_keep {c : Str}
    (h : ∀ l ∈ pySplit ['\n'] c, isObsLine (pyStrip l) = false) :
    MarkdownStorage.strip_obsidian_lines c = pyStrip c := by
  unfold MarkdownStorage.strip_obsidian_lines
  have hfilter : (pySplit ['\n'] c).filter (fun line => !isObsLine (pyStrip line)) =
      pySplit ['\n'] c := by
    rw [List.filter_eq_self]
    intro l hl
    rw [h l hl]
    rfl
  rw [hfilter, joinSep_pySplit ['\n'] (by simp) c]

theorem strip_obsidian_pyStrip {d : Str}
    (h : ∀ l ∈ pySplit ['\n'] d, isObsLine (pyStrip l) = false) :
    MarkdownStorage.strip_obsidian_lines (pyStrip d) = pyStrip d := by
  rw [strip_obsidian_of_keep, pyStrip_idem]
  intro l' hl'
  rcases lines_pyStrip d l' hl' with ⟨l, hl, he⟩
  rw [he]
  exact h l hl

/-! ## Lemmas: timestamp formatting and parsing -/

theorem digitChar_facts {k : Nat} (h : k < 10) :
    isDigitC (digitChar k) = true ∧ digitVal (digitChar k) = k ∧
      pyIsSpace (digitChar k) = false ∧ digitChar k ≠ ']' ∧
      digitChar k ≠ '#' ∧ digitChar k ≠ '\n' := by
  interval_cases k <;> exact ⟨rfl, rfl, rfl, by decide, by decide, by decide⟩

theorem readYear4_pad4 {y : Nat} (h1 : 1000 ≤ y) (h2 : y ≤ 9999) (rest : Str) :
    readYear4 (pad4 y ++ rest) = some (y, rest) := by
  have f1 := digitChar_facts (show y / 1000 < 10 by omega)
  have f2 := digitChar_facts (show y / 100 % 10 < 10 by omega)
  have f3 := digitChar_facts (show y / 10 % 10 < 10 by omega)
  have f4 := digitChar_facts (show y % 10 < 10 by omega)
  show readYear4 (digitChar (y / 1000) :: digitChar (y / 100 % 10) ::
    digitChar (y / 10 % 10) :: digitChar (y % 10) :: rest) = some (y, rest)
  simp only [readYear4]
  rw [if_pos (by rw [f1.1, f2.1, f3.1, f4.1]; rfl)]
  rw [f1.2.1, f2.2.1, f3.2.1, f4.2.1]
  rw [show ((y / 1000 * 10 + y / 100 % 10) * 10 + y / 10 % 10) * 10 + y % 10 = y by omega]

theorem readMonth_pad2 {m : Nat} (h1 : 1 ≤ m) (h2 : m ≤ 12) (rest : Str) :
    readMonth (pad2 m ++ rest) = some (m, rest) := by
  interval_cases m <;> rfl

theorem readDay_pad2 {d : Nat} (h1 : 1 ≤ d) (h2 : d ≤ 31) (rest : Str) :
    readDay (pad2 d ++ rest) = some (d, rest) := by
  interval_cases d <;> rfl

theorem readHour_pad2 {h : Nat} (h2 : h ≤ 23) (rest : Str) :
    readHour (pad2 h ++ rest) = some (h, rest) := by
  interval_cases h <;> rfl

theorem readMinute_pad2 {m : Nat} (h2 : m ≤ 59) (rest : Str) :
    readMinute (pad2 m ++ rest) = some (m, rest) := by
  interval_cases m <;> rfl

theorem skipSpaces1_pad2 {k : Nat} (hk : k < 10) (x : Str) :
    skipSpaces1 (' ' :: digitChar k :: x) = some (digitChar k :: x) := by
  obtain ⟨-, -, hws, -⟩ := digitChar_facts hk
  simp [skipSpaces1, List.dropWhile_cons, hws, (by decide : pyIsSpace ' ' = true)]

/-- Parsing the rendering of a valid minute-precision timestamp recovers
the timestamp. -/
theorem strptime_strftime {dt : DateTime} (h : ValidMinute dt) :
    strptimeYmdHM (strftimeYmdHM dt) = some dt := by
  obtain ⟨y, mo, d, hr, mi, se, mic⟩ := dt
  obtain ⟨hy1, hy2, hm1, hm2, hd1, hd2, hh, hmin, hsec, hmic⟩ := h
  simp only at hy1 hy2 hm1 hm2 hd1 hd2 hh hmin hsec hmic
  have hd31 : d ≤ 31 := by
    have : daysInMonth y mo ≤ 31 := by
      unfold daysInMonth
      split
      · split <;> omega
      · split <;> omega
    omega
  have hfmt : strftimeYmdHM ⟨y, mo, d, hr, mi, se, mic⟩ =
      pad4 y ++ ('-' :: (pad2 mo ++ ('-' :: (pad2 d ++
        (' ' :: (pad2 hr ++ (':' :: pad2 mi))))))) := by
    simp [strftimeYmdHM, List.append_assoc]
  rw [hfmt]
  unfold strptimeYmdHM
  rw [readYear4_pad4 hy1 hy2]
  simp only [Option.bind_eq_bind, Option.some_bind]
  rw [show expectChar '-' ('-' :: (pad2 mo ++ ('-' :: (pad2 d ++
    (' ' :: (pad2 hr ++ (':' :: pad2 mi))))))) =
    some (pad2 mo ++ ('-' :: (pad2 d ++
      (' ' :: (pad2 hr ++ (':' :: pad2 mi)))))) from rfl]
  simp only [Option.some_bind]
  rw [readMonth_pad2 hm1 hm2]
  simp only [Option.some_bind]
  rw [show expectChar '-' ('-' :: (pad2 d ++ (' ' :: (pad2 hr ++
    (':' :: pad2 mi))))) = some (pad2 d ++ (' ' :: (pad2 hr ++
      (':' :: pad2 mi)))) from rfl]
  simp only [Option.some_bind]
  rw [readDay_pad2 hd1 hd31]
  simp only [Option.some_bind]
  have hshape : (pad2 hr ++ (':' :: pad2 mi) : Str) =
      digitChar (hr / 10) :: digitChar (hr % 10) :: (':' :: pad2 mi) := rfl
  rw [hshape, skipSpaces1_pad2 (show hr / 10 < 10 by omega)
    (digitChar (hr % 10) :: (':' :: pad2 mi))]
  simp only [Option.some_bind]
  rw [← hshape, readHour_pad2 hh]
  simp only [Option.some_bind]
  rw [show expectChar ':' (':' :: pad2 mi) = some (pad2 mi) from rfl]
  simp only [Option.some_bind]
  rw [show (pad2 mi : Str) = pad2 mi ++ [] by simp, readMinute_pad2 hmin]
  simp only [Option.some_bind]
  rw [if_pos (by rw [decide_eq_true (show 1 ≤ y by omega),
    decide_eq_true (show d ≤ daysInMonth y mo from hd2)]; rfl)]
  rw [hsec, hmic]

/-! ## Lemmas: note lines -/

/-- No occurrence of `m0 :: M'` in `u ++ x` when `m0` does not occur in `u`
and the pattern does not occur in `x`. -/
theorem hasSub_append_no_head {u x : Str} {m0 : Char} {M' : Str}
    (hm : m0 ∉ u) (hx : hasSub x (m0 :: M') = false) :
    hasSub (u ++ x) (m0 :: M') = false := by
  induction u with
  | nil => simpa using hx
  | cons a u' ih =>
    have ha : m0 ≠ a := fun he => hm (he ▸ List.mem_cons_self a u')
    have hrec := ih (fun hmem => hm (List.mem_cons_of_mem a hmem))
    show hasSub (a :: (u' ++ x)) (m0 :: M') = false
    simp only [hasSub, isPre, Bool.or_eq_false_iff, Bool.and_eq_false_iff]
    exact ⟨Or.inl (by simpa using ha), hrec⟩

theorem hasSub_joinLines {M : Str} (hM : M ≠ []) (hnl : '\n' ∉ M) {ls : List Str}
    (h : ∀ l ∈ ls, hasSub l M = false) : hasSub (joinSep ['\n'] ls) M = false := by
  induction ls with
  | nil =>
    cases M with
    | nil => exact absurd rfl hM
    | cons m0 M' => rfl
  | cons x t ih =>
    cases t with
    | nil => exact h x (List.mem_cons_self x [])
    | cons y t' =>
      have hx := h x (List.mem_cons_self x _)
      have hrec := ih (fun l hl => h l (List.mem_cons_of_mem x hl))
      have hjoin : joinSep ['\n'] (x :: y :: t') = x ++ '\n' :: joinSep ['\n'] (y :: t') := by
        simp [joinSep]
      rw [hjoin]
      exact hasSub_append_cons_eq_false hx hrec hM hnl

theorem hasSub_singleton_false {l : Str} {c : Char} (h : c ∉ l) :
    hasSub l [c] = false := by
  cases hq : hasSub l [c] with
  | false => rfl
  | true => exact absurd (hasSub_singleton.mp hq) h

theorem strftime_length (dt : DateTime) : (strftimeYmdHM dt).length = 16 := by
  simp [strftimeYmdHM, pad4, pad2]

theorem mem_pad2 {c : Char} {n : Nat} (h : c ∈ pad2 n) :
    c = digitChar (n / 10) ∨ c = digitChar (n % 10) := by
  simpa [pad2] using h

theorem mem_pad4 {c : Char} {n : Nat} (h : c ∈ pad4 n) :
    c = digitChar (n / 1000) ∨ c = digitChar (n / 100 % 10) ∨
      c = digitChar (n / 10 % 10) ∨ c = digitChar (n % 10) := by
  simpa [pad4] using h

theorem strftime_chars {dt : DateTime} (hv : ValidMinute dt) :
    ∀ c ∈ strftimeYmdHM dt, c ≠ ']' ∧ c ≠ '#' ∧ c ≠ '\n' := by
  obtain ⟨hy1, hy2, hm1, hm2, hd1, hd2, hh, hmin, -, -⟩ := hv
  intro c hc
  have hd31 : dt.day ≤ 31 := by
    have : daysInMonth dt.year dt.month ≤ 31 := by
      unfold daysInMonth
      split
      · split <;> omega
      · split <;> omega
    omega
  have hdig : ∀ k : Nat, k < 10 → c = digitChar k → c ≠ ']' ∧ c ≠ '#' ∧ c ≠ '\n' := by
    intro k hk he
    have f := digitChar_facts hk
    exact ⟨he ▸ f.2.2.2.1, he ▸ f.2.2.2.2.1, he ▸ f.2.2.2.2.2⟩
  have hfmt : strftimeYmdHM dt =
      pad4 dt.year ++ ('-' :: (pad2 dt.month ++ ('-' :: (pad2 dt.day ++
        (' ' :: (pad2 dt.hour ++ (':' :: pad2 dt.minute))))))) := by
    simp [strftimeYmdHM, List.append_assoc]
  rw [hfmt] at hc
  rcases List.mem_append.mp hc with h | h
  · rcases mem_pad4 h with he | he | he | he
    · exact hdig _ (by omega) he
    · exact hdig _ (by omega) he
    · exact hdig _ (by omega) he
    · exact hdig _ (by omega) he
  rcases List.mem_cons.mp h with rfl | h
  · exact ⟨by decide, by decide, by decide⟩
  rcases List.mem_append.mp h with h | h
  · rcases mem_pad2 h with he | he
    · exact hdig _ (by omega) he
    · exact hdig _ (by omega) he
  rcases List.mem_cons.mp h with rfl | h
  · exact ⟨by decide, by decide, by decide⟩
  rcases List.mem_append.mp h with h | h
  · rcases mem_pad2 h with he | he
    · exact hdig _ (by omega) he
    · exact hdig _ (by omega) he
  rcases List.mem_cons.mp h with rfl | h
  · exact ⟨by decide, by decide, by decide⟩
  rcases List.mem_append.mp h with h | h
  · rcases mem_pad2 h with he | he
    · exact hdig _ (by omega) he
    · exact hdig _ (by omega) he
  rcases List.mem_cons.mp h with rfl | h
  · exact ⟨by decide, by decide, by decide⟩
  rcases mem_pad2 h with he | he
  · exact hdig _ (by omega) he
  · exact hdig _ (by omega) he

theorem pyIndex_first {ch : Char} {u : Str} (hu : ch ∉ u) (v : Str) :
    pyIndex ch (u ++ ch :: v) = some u.length := by
  induction u with
  | nil => simp [pyIndex]
  | cons a u' ih =>
    have ha : ¬ a = ch := fun he => hu (he ▸ List.mem_cons_self a u')
    show pyIndex ch (a :: (u' ++ ch :: v)) = some (u'.length + 1)
    simp only [pyIndex, beq_iff_eq, if_neg ha,
      ih (fun hmem => hu (List.mem_cons_of_mem a hmem)), Option.map_some']

theorem noteLine_eq (n : Note) : noteLine n =
    (noteLead ++ strftimeYmdHM n.created_at ++ [']', ' ']) ++ n.content := by
  simp [noteLine, List.append_assoc]

theorem bracket_not_mem_head {dt : DateTime} (hv : ValidMinute dt) :
    ']' ∉ (noteLead ++ strftimeYmdHM dt : Str) := by
  intro hmem
  rcases List.mem_append.mp hmem with h | h
  · simp [noteLead] at h
  · exact (strftime_chars hv ']' h).1 rfl

theorem hash_not_mem_pre {dt : DateTime} (hv : ValidMinute dt) :
    '#' ∉ (noteLead ++ strftimeYmdHM dt ++ [']', ' '] : Str) := by
  intro hmem
  rcases List.mem_append.mp hmem with h | h
  · rcases List.mem_append.mp h with h' | h'
    · simp [noteLead] at h'
    · exact (strftime_chars hv '#' h').2.1 rfl
  · simp at h

theorem noteLine_no_newline {n : Note} (hg : GoodNote n) : '\n' ∉ noteLine n := by
  obtain ⟨hnl, -, -, hval⟩ := hg
  rw [noteLine_eq]
  intro hmem
  rcases List.mem_append.mp hmem with h | h
  · rcases List.mem_append.mp h with h' | h'
    · rcases List.mem_append.mp h' with h2 | h2
      · simp [noteLead] at h2
      · exact (strftime_chars hval '\n' h2).2.2 rfl
    · simp at h'
  · exact hnl h

theorem hasSub_noteLine_marker {n : Note} (hg : GoodNote n) :
    hasSub (noteLine n) notesMarker = false := by
  obtain ⟨-, -, hma, hval⟩ := hg
  rw [noteLine_eq]
  show hasSub _ ('#' :: "# Notes".toList) = false
  exact hasSub_append_no_head (hash_not_mem_pre hval) hma

theorem pyLstrip_noteLead (x : Str) : pyLstrip (noteLead ++ x) = noteLead ++ x := by
  show pyLstrip ('-' :: (' ' :: ('[' :: x))) = '-' :: (' ' :: ('[' :: x))
  exact pyLstrip_cons_not _ (by decide)

theorem pyRstrip_noteLine {n : Note} (hg : GoodNote n) :
    pyRstrip (noteLine n) =
      if n.content = [] then noteLead ++ strftimeYmdHM n.created_at ++ [']']
      else noteLine n := by
  obtain ⟨hnl, hrs, hma, hval⟩ := hg
  by_cases hc : n.content = []
  · rw [if_pos hc, noteLine_eq, hc, List.append_nil]
    have hsh : (noteLead ++ strftimeYmdHM n.created_at ++ [']', ' '] : Str) =
        (noteLead ++ strftimeYmdHM n.created_at ++ [']']) ++ [' '] := by simp
    rw [hsh, pyRstrip_append_all (by intro c hc'; simp at hc'; rw [hc']; rfl)]
    rw [pyRstrip_append_stop (noteLead ++ strftimeYmdHM n.created_at)
      (show pyRstrip [']'] ≠ [] by decide)]
    rfl
  · rw [if_neg hc, noteLine_eq]
    rw [pyRstrip_append_stop _ (by rw [hrs]; exact hc)]
    rw [hrs, ← noteLine_eq]

theorem pyStrip_noteLine {n : Note} (hg : GoodNote n) :
    pyStrip (noteLine n) =
      if n.content = [] then noteLead ++ strftimeYmdHM n.created_at ++ [']']
      else noteLine n := by
  show pyLstrip (pyRstrip (noteLine n)) = _
  rw [pyRstrip_noteLine hg]
  by_cases hc : n.content = []
  · rw [if_pos hc]
    have hsh : (noteLead ++ strftimeYmdHM n.created_at ++ [']'] : Str) =
        noteLead ++ (strftimeYmdHM n.created_at ++ [']']) := by simp
    rw [hsh, pyLstrip_noteLead]
  · rw [if_neg hc, noteLine_eq]
    have hsh : ((noteLead ++ strftimeYmdHM n.created_at ++ [']', ' ']) ++ n.content : Str) =
        noteLead ++ (strftimeYmdHM n.created_at ++ [']', ' '] ++ n.content) := by simp
    rw [hsh, pyLstrip_noteLead]

theorem noteFromLine_strip {now : DateTime} {n : Note} (hg : GoodNote n) :
    noteFromLine now (pyStrip (noteLine n)) = n := by
  have hval := hg.2.2.2
  rw [pyStrip_noteLine hg]
  by_cases hc : n.content = []
  · rw [if_pos hc]
    have hsh : (noteLead ++ strftimeYmdHM n.created_at ++ [']'] : Str) =
        (noteLead ++ strftimeYmdHM n.created_at) ++ ']' :: [] := by simp
    have hidx : pyIndex ']' (noteLead ++ strftimeYmdHM n.created_at ++ [']']) =
        some 19 := by
      rw [hsh, pyIndex_first (bracket_not_mem_head hval)]
      simp [noteLead, strftime_length]
    simp only [noteFromLine, hidx]
    have hdrop3 : ((noteLead ++ strftimeYmdHM n.created_at ++ [']'] : Str).drop 3) =
        strftimeYmdHM n.created_at ++ [']'] := by
      have : (noteLead ++ strftimeYmdHM n.created_at ++ [']'] : Str) =
          noteLead ++ (strftimeYmdHM n.created_at ++ [']']) := by simp
      rw [this, show (3 : Nat) = (noteLead : Str).length from rfl, List.drop_left]
    rw [hdrop3]
    have htake : (strftimeYmdHM n.created_at ++ [']'] : Str).take (19 - 3) =
        strftimeYmdHM n.created_at := by
      rw [show (19 - 3 : Nat) = (strftimeYmdHM n.created_at).length from
        by rw [strftime_length], List.take_left]
    rw [htake, strptime_strftime hval]
    have hdrop21 : ((noteLead ++ strftimeYmdHM n.created_at ++ [']'] : Str).drop (19 + 2)) =
        [] := by
      apply List.drop_eq_nil_of_le
      simp [noteLead, strftime_length]
    rw [hdrop21]
    cases n with
    | mk c ca => simp only at hc; rw [hc]
  · rw [if_neg hc, noteLine_eq]
    have hsh : ((noteLead ++ strftimeYmdHM n.created_at ++ [']', ' ']) ++ n.content : Str) =
        (noteLead ++ strftimeYmdHM n.created_at) ++ ']' :: (' ' :: n.content) := by simp
    have hidx : pyIndex ']' ((noteLead ++ strftimeYmdHM n.created_at ++ [']', ' '])
        ++ n.content) = some 19 := by
      rw [hsh, pyIndex_first (bracket_not_mem_head hval)]
      simp [noteLead, strftime_length]
    simp only [noteFromLine, hidx]
    have hdrop3 : (((noteLead ++ strftimeYmdHM n.created_at ++ [']', ' ']) ++
        n.content : Str).drop 3) =
        strftimeYmdHM n.created_at ++ [']', ' '] ++ n.content := by
      have : ((noteLead ++ strftimeYmdHM n.created_at ++ [']', ' ']) ++ n.content : Str) =
          noteLead ++ (strftimeYmdHM n.created_at ++ [']', ' '] ++ n.content) := by simp
      rw [this, show (3 : Nat) = (noteLead : Str).length from rfl, List.drop_left]
    rw [hdrop3]
    have htake : (strftimeYmdHM n.created_at ++ [']', ' '] ++ n.content : Str).take
        (19 - 3) = strftimeYmdHM n.created_at := by
      have : (strftimeYmdHM n.created_at ++ [']', ' '] ++ n.content : Str) =
          strftimeYmdHM n.created_at ++ ([']', ' '] ++ n.content) := by simp
      rw [this, show (19 - 3 : Nat) = (strftimeYmdHM n.created_at).length from
        by rw [strftime_length], List.take_left]
    rw [htake, strptime_strftime hval]
    have hdrop21 : (((noteLead ++ strftimeYmdHM n.created_at ++ [']', ' ']) ++
        n.content : Str).drop (19 + 2)) = n.content := by
      rw [show (19 + 2 : Nat) =
        ((noteLead ++ strftimeYmdHM n.created_at ++ [']', ' ']) : Str).length from
        by simp [noteLead, strftime_length], List.drop_left]
    rw [hdrop21]

/-! ## Lemmas: the notes section -/

theorem pyStrip_eq_pyRstrip_head {a : Char} (t : Str) (ha : pyIsSpace a = false) :
    pyStrip (a :: t) = pyRstrip (a :: t) := by
  show pyLstrip (pyRstrip (a :: t)) = pyRstrip (a :: t)
  rw [pyRstrip_cons]
  by_cases h : pyRstrip t = []
  · rw [if_pos h, if_neg (by rw [ha]; exact Bool.false_ne_true)]
    exact pyLstrip_cons_not [] ha
  · rw [if_neg h]
    exact pyLstrip_cons_not _ ha

theorem noteLine_head (n : Note) : ∃ t, noteLine n = '-' :: t := ⟨_, rfl⟩

/-- The condition of the notes loop holds on a stripped note line, and the
parse recovers the note. -/
theorem parseFun_noteLine {now : DateTime} {n : Note} {l : Str} (hg : GoodNote n)
    (hl : pyStrip l = pyStrip (noteLine n)) :
    (if isPre noteLead (pyStrip l) then some (noteFromLine now (pyStrip l)) else none) =
      some n := by
  have hcond : isPre noteLead (pyStrip l) = true := by
    rw [hl, pyStrip_noteLine hg]
    by_cases hc : n.content = []
    · rw [if_pos hc]
      have hsh : (noteLead ++ strftimeYmdHM n.created_at ++ [']'] : Str) =
          noteLead ++ (strftimeYmdHM n.created_at ++ [']']) := by simp
      rw [hsh]
      exact isPre_self_append _ _
    · rw [if_neg hc, noteLine_eq]
      have hsh : ((noteLead ++ strftimeYmdHM n.created_at ++ [']', ' ']) ++
          n.content : Str) =
          noteLead ++ (strftimeYmdHM n.created_at ++ [']', ' '] ++ n.content) := by simp
      rw [hsh]
      exact isPre_self_append _ _
  rw [if_pos hcond, hl, noteFromLine_strip hg]

/-- Parsing the stripped join of good note lines recovers the notes. -/
theorem parse_joined (now : DateTime) (notes : List Note) (hne : notes ≠ [])
    (hg : ∀ n ∈ notes, GoodNote n) :
    (pySplit ['\n'] (pyStrip (joinSep ['\n'] (notes.map noteLine)))).filterMap
      (fun l =>
        let l := pyStrip l
        if isPre noteLead l then some (noteFromLine now l) else none) = notes := by
  induction notes with
  | nil => exact absurd rfl hne
  | cons n rest ih =>
    have hgn : GoodNote n := hg n (List.mem_cons_self n rest)
    cases rest with
    | nil =>
      show (pySplit ['\n'] (pyStrip (noteLine n))).filterMap _ = [n]
      have hnl : '\n' ∉ pyStrip (noteLine n) := by
        intro hmem
        have h1 : '\n' ∈ pyRstrip (noteLine n) :=
          (List.dropWhile_sublist pyIsSpace).mem hmem
        exact noteLine_no_newline hgn (mem_pyRstrip h1)
      have hlines : pySplit ['\n'] (pyStrip (noteLine n)) = [pyStrip (noteLine n)] :=
        pySplitGo_of_not_hasSub (hasSub_singleton_false hnl)
      rw [hlines]
      simp only [List.filterMap_cons, List.filterMap_nil]
      rw [show (if isPre noteLead (pyStrip (pyStrip (noteLine n))) then
          some (noteFromLine now (pyStrip (pyStrip (noteLine n)))) else none) = some n from
        parseFun_noteLine hgn (pyStrip_idem (noteLine n))]
    | cons m rest' =>
      have hgr : ∀ x ∈ m :: rest', GoodNote x :=
        fun x hx => hg x (List.mem_cons_of_mem n hx)
      have hjoin : joinSep ['\n'] ((n :: m :: rest').map noteLine) =
          noteLine n ++ '\n' :: joinSep ['\n'] ((m :: rest').map noteLine) := by
        simp [joinSep]
      have hjrhead : ∃ t, joinSep ['\n'] ((m :: rest').map noteLine) = '-' :: t := by
        rcases noteLine_head m with ⟨t0, ht0⟩
        cases rest' with
        | nil => exact ⟨t0, by simp [joinSep, ht0]⟩
        | cons m2 r2 =>
          refine ⟨t0 ++ '\n' :: joinSep ['\n'] ((m2 :: r2).map noteLine), ?_⟩
          simp [joinSep, ht0]
      rcases hjrhead with ⟨jt, hjt⟩
      have hrne : pyRstrip (joinSep ['\n'] ((m :: rest').map noteLine)) ≠ [] := by
        apply pyRstrip_ne_nil_of (d := '-')
        · rw [hjt]; exact List.mem_cons_self _ _
        · decide
      have hrstrip : pyRstrip (joinSep ['\n'] ((n :: m :: rest').map noteLine)) =
          noteLine n ++ '\n' :: pyRstrip (joinSep ['\n'] ((m :: rest').map noteLine)) := by
        rw [hjoin]
        rw [pyRstrip_append_stop (noteLine n) (b := '\n' :: joinSep ['\n']
          ((m :: rest').map noteLine)) (by
            rw [pyRstrip_cons, if_neg hrne]
            exact List.cons_ne_nil _ _)]
        rw [pyRstrip_cons, if_neg hrne]
      have hstrip : pyStrip (joinSep ['\n'] ((n :: m :: rest').map noteLine)) =
          noteLine n ++ '\n' :: pyRstrip (joinSep ['\n'] ((m :: rest').map noteLine)) := by
        show pyLstrip _ = _
        rw [hrstrip]
        rcases noteLine_head n with ⟨t0, ht0⟩
        rw [ht0]
        show pyLstrip ('-' :: (t0 ++ '\n' :: pyRstrip (joinSep ['\n']
          ((m :: rest').map noteLine)))) = _
        exact pyLstrip_cons_not _ (by decide)
      have hstrip_rest : pyStrip (joinSep ['\n'] ((m :: rest').map noteLine)) =
          pyRstrip (joinSep ['\n'] ((m :: rest').map noteLine)) := by
        rw [hjt]
        exact pyStrip_eq_pyRstrip_head jt (by decide)
      have hlinesn : pySplitGo '\n' [] (noteLine n) 0 = [noteLine n] :=
        pySplitGo_of_not_hasSub (hasSub_singleton_false (noteLine_no_newline hgn))
      show (pySplit ['\n'] (pyStrip (joinSep ['\n'] ((n :: m :: rest').map noteLine)))).filterMap
        _ = n :: m :: rest'
      rw [hstrip]
      show (pySplitGo '\n' [] (noteLine n ++ '\n' :: pyRstrip (joinSep ['\n']
        ((m :: rest').map noteLine))) 0).filterMap _ = n :: m :: rest'
      rw [pySplitChar_append, hlinesn, ← hstrip_rest]
      rw [List.filterMap_append]
      have hih := ih (List.cons_ne_nil _ _) hgr
      show List.filterMap _ [noteLine n] ++
        (pySplit ['\n'] (pyStrip (joinSep ['\n'] ((m :: rest').map noteLine)))).filterMap _ =
          n :: m :: rest'
      rw [hih]
      simp only [List.filterMap_cons, List.filterMap_nil]
      rw [show (if isPre noteLead (pyStrip (noteLine n)) then
          some (noteFromLine now (pyStrip (noteLine n))) else none) = some n from
        parseFun_noteLine hgn rfl]
      rfl

/-- `parseNotes` on the written notes section recovers the notes. -/
theorem parseNotes_section (now : DateTime) (notes : List Note) (hne : notes ≠ [])
    (hg : ∀ n ∈ notes, GoodNote n) :
    parseNotes now ('\n' :: '\n' :: joinSep ['\n'] (notes.map noteLine)) = notes := by
  unfold parseNotes
  rw [show ('\n' :: '\n' :: joinSep ['\n'] (notes.map noteLine) : Str) =
    ['\n', '\n'] ++ joinSep ['\n'] (notes.map noteLine) from rfl]
  rw [pyStrip_ws_append (by decide)]
  exact parse_joined now notes hne hg

/-! ## Lemmas: enum codecs and the file system -/

theorem statusOfValue_value (s : Status) : Status.ofValue s.value = some s := by
  cases s <;> rfl

theorem priorityOfValue_value (p : Priority) : Priority.ofValue p.value = some p := by
  cases p <;> rfl

theorem frequencyOfValue_value (f : Frequency) : Frequency.ofValue f.value = some f := by
  cases f <;> rfl

theorem find?_map_replace (fs : FS) (name : Str) (p : Post) :
    ((fs.map (fun f => if f.1 == name then (name, p) else f)).find?
        (fun f => f.1 == name)) =
      if (fs.find? (fun f => f.1 == name)).isSome then some (name, p) else none := by
  induction fs with
  | nil => rfl
  | cons f r ih =>
    by_cases hf : (f.1 == name) = true
    · simp [List.find?, hf]
    · simp only [List.map_cons, List.find?]
      rw [if_neg (by simpa using hf)]
      simp only [List.find?, hf]
      exact ih

theorem find?_append_of_none {fs : FS} {name : Str}
    (h : fs.find? (fun f => f.1 == name) = none) (l2 : FS) :
    (fs ++ l2).find? (fun f => f.1 == name) = l2.find? (fun f => f.1 == name) := by
  induction fs with
  | nil => rfl
  | cons f r ih =>
    simp only [List.find?] at h ⊢
    cases hf : (f.1 == name) with
    | true => rw [hf] at h; exact absurd h (by simp)
    | false =>
      rw [hf] at h
      simp only [List.cons_append]
      exact ih h

theorem lookupFile_writeFile (fs : FS) (name : Str) (p : Post) :
    lookupFile (writeFile fs name p) name = some p := by
  unfold lookupFile writeFile
  by_cases h : (fs.find? (fun f => f.1 == name)).isSome
  · rw [if_pos h, find?_map_replace, if_pos h]
    rfl
  · rw [if_neg h]
    have hn : fs.find? (fun f => f.1 == name) = none := by
      cases hh : fs.find? (fun f => f.1 == name) with
      | none => rfl
      | some v => rw [hh] at h; exact absurd (by simp) h
    rw [find?_append_of_none hn]
    simp [List.find?]

/-! ## Lemmas: splitting the saved body on the notes marker -/

theorem isPre_marker_nl (x : Str) : isPre notesMarker ('\n' :: x) = false := by
  show isPre ('#' :: "# Notes".toList) ('\n' :: x) = false
  show (('#' == '\n') && isPre "# Notes".toList x) = false
  rw [show ('#' == '\n') = false from rfl, Bool.false_and]

/-- No nonempty suffix of `d ++ "\n\n"` can start an occurrence of the
notes marker spilling over the boundary, when `d` itself contains no
marker. -/
theorem noSpill_desc {d : Str} (B : Str) (hd : hasSub d notesMarker = false) :
    ∀ u v, d ++ ['\n', '\n'] = u ++ v → v ≠ [] →
      isPre notesMarker (v ++ (notesMarker ++ B)) = false := by
  intro u v huv hv
  rcases List.append_eq_append_iff.mp huv with ⟨w, hw1, hw2⟩ | ⟨w, hw1, hw2⟩
  · -- w ++ v = ['\n','\n']; v is a nonempty suffix of the two newlines
    cases w with
    | nil =>
      simp only [List.nil_append] at hw2
      rw [← hw2]
      exact isPre_marker_nl _
    | cons c w' =>
      cases w' with
      | nil =>
        have : v = ['\n'] := by
          have := hw2
          simp only [List.cons_append, List.nil_append] at this
          exact (List.cons.injEq .. ▸ this).2.symm
        rw [this]
        exact isPre_marker_nl _
      | cons c2 w'' =>
        exfalso
        have hlen := congrArg List.length hw2
        simp only [List.length_cons, List.length_append, List.length_nil] at hlen
        have hvz : v.length = 0 := by omega
        exact hv (List.eq_nil_of_length_eq_zero hvz)
  · -- d = u ++ w and v = w ++ ['\n','\n']
    cases hres : isPre notesMarker (v ++ (notesMarker ++ B)) with
    | false => rfl
    | true =>
      exfalso
      rw [hw2] at hres
      have hshape : ((w ++ ['\n', '\n']) ++ (notesMarker ++ B) : Str) =
          w ++ '\n' :: ('\n' :: (notesMarker ++ B)) := by simp
      rw [hshape] at hres
      rcases isPre_append_cons hres with hws | hmem
      · have : hasSub d notesMarker = true := hw1 ▸ hasSub_append_left u hws
        rw [this] at hd
        exact Bool.noConfusion hd
      · revert hmem
        show '\n' ∈ ('#' :: "# Notes".toList : Str) → False
        decide

theorem hasSub_marker_notesB {notes : List Note} (hg : ∀ n ∈ notes, GoodNote n) :
    hasSub ('\n' :: '\n' :: joinSep ['\n'] (notes.map noteLine)) notesMarker = false := by
  have hJ : hasSub (joinSep ['\n'] (notes.map noteLine)) notesMarker = false := by
    apply hasSub_joinLines (by decide) (by decide)
    intro l hl
    rcases List.mem_map.mp hl with ⟨n, hn, rfl⟩
    exact hasSub_noteLine_marker (hg n hn)
  show hasSub ((['\n', '\n'] : Str) ++ joinSep ['\n'] (notes.map noteLine))
    ('#' :: "# Notes".toList) = false
  exact hasSub_append_no_head (by decide) hJ

/-- The body written for a task with notes, as description part, marker,
and notes section. -/
theorem encodeContent_notes (t : Task) (hn : t.notes ≠ []) :
    MarkdownStorage.encodeContent t =
      (if t.description = [] then ['\n'] else t.description ++ ['\n', '\n']) ++
        (notesMarker ++ ('\n' :: '\n' :: joinSep ['\n'] (t.notes.map noteLine))) := by
  unfold MarkdownStorage.encodeContent
  rw [if_neg hn]
  cases hns : t.notes with
  | nil => exact absurd hns hn
  | cons m rest =>
    by_cases hd : t.description = []
    · rw [if_pos hd, if_pos hd]
      simp [joinSep, notesMarker]
    · rw [if_neg hd, if_neg hd]
      simp [joinSep, notesMarker]

theorem encodeContent_nonotes (t : Task) (hn : t.notes = []) :
    MarkdownStorage.encodeContent t = t.description := by
  unfold MarkdownStorage.encodeContent
  rw [if_pos hn]
  by_cases hd : t.description = []
  · rw [if_pos hd, hd]
    rfl
  · rw [if_neg hd]
    rfl

theorem hasSub_encodeContent_notes (t : Task) (hn : t.notes ≠ []) :
    hasSub (MarkdownStorage.encodeContent t) notesMarker = true := by
  rw [encodeContent_notes t hn]
  exact hasSub_append_left _ (hasSub_of_isPre (isPre_self_append _ _))

/-- Splitting the saved body of a task with notes on the marker yields
exactly the description part and the notes section. -/
theorem pySplit_encodeContent (t : Task) (hn : t.notes ≠ [])
    (hd : hasSub t.description notesMarker = false)
    (hg : ∀ n ∈ t.notes, GoodNote n) :
    pySplit notesMarker (MarkdownStorage.encodeContent t) =
      [(if t.description = [] then ['\n'] else t.description ++ ['\n', '\n']),
        '\n' :: '\n' :: joinSep ['\n'] (t.notes.map noteLine)] := by
  rw [encodeContent_notes t hn]
  show pySplitGo '#' "# Notes".toList _ 0 = _
  rw [show ((if t.description = [] then ['\n'] else t.description ++ ['\n', '\n']) ++
      (notesMarker ++ ('\n' :: '\n' :: joinSep ['\n'] (t.notes.map noteLine))) : Str) =
    (if t.description = [] then ['\n'] else t.description ++ ['\n', '\n']) ++
      (('#' :: "# Notes".toList) ++ ('\n' :: '\n' :: joinSep ['\n'] (t.notes.map noteLine)))
    from rfl]
  rw [pySplitGo_boundary '#' "# Notes".toList _ _ (by
    by_cases hde : t.description = []
    · rw [if_pos hde]
      intro u v huv hv
      cases u with
      | nil =>
        simp only [List.nil_append] at huv
        rw [← huv]
        exact isPre_marker_nl _
      | cons c u' =>
        exfalso
        have hlen := congrArg List.length huv
        simp only [List.length_cons, List.length_append, List.length_nil] at hlen
        have hvz : v.length = 0 := by omega
        exact hv (List.eq_nil_of_length_eq_zero hvz)
    · rw [if_neg hde]
      exact noSpill_desc _ hd)]
  have hB : pySplitGo '#' "# Notes".toList
      ('\n' :: '\n' :: joinSep ['\n'] (t.notes.map noteLine)) 0 =
      ['\n' :: '\n' :: joinSep ['\n'] (t.notes.map noteLine)] :=
    pySplitGo_of_not_hasSub (hasSub_marker_notesB hg)
  rw [hB]

/-! ## Lemmas: decoding a saved file -/

theorem except_bind_ok {ε α β : Type} (a : α) (f : α → Except ε β) :
    (Except.ok a >>= f) = f a := rfl

theorem except_map_ok {ε α β : Type} (f : α → β) (a : α) :
    (Except.ok a : Except ε α).map f = .ok (f a) := rfl

/-- Decoding the saved file of a round-trippable task recovers the task,
with the description stripped of edge whitespace. -/
theorem decodePost_savePost (now : DateTime) (t : Task) (h : RoundTrippable t) :
    decodePost now (MarkdownStorage.savePost t) =
      .ok { t with description := pyStrip t.description } := by
  obtain ⟨⟨hdm, hdo⟩, hgn, he, ha, hp, hpar, hrp, hrec⟩ := h
  have hmid : (MarkdownStorage.encodeMeta t).id = some t.id := rfl
  have hmtitle : (MarkdownStorage.encodeMeta t).title = some t.title := rfl
  have hmstatus : (MarkdownStorage.encodeMeta t).status = some t.status.value := rfl
  have hmprio : (MarkdownStorage.encodeMeta t).priority = some t.priority.value := rfl
  have hmcre : (MarkdownStorage.encodeMeta t).created_at = some t.created_at := rfl
  have hmupd : (MarkdownStorage.encodeMeta t).updated_at = some t.updated_at := rfl
  have hmdue : (MarkdownStorage.encodeMeta t).due_date = t.due_date := rfl
  have hmsch : (MarkdownStorage.encodeMeta t).scheduled_date = t.scheduled_date := rfl
  have hmstart : (MarkdownStorage.encodeMeta t).start_date = t.start_date := rfl
  have hmcomp : (MarkdownStorage.encodeMeta t).completed_at = t.completed_at := rfl
  have hmest : (MarkdownStorage.encodeMeta t).estimated_hours = t.estimated_hours := by
    show (match t.estimated_hours with
      | some v => if v = 0 then none else some v
      | none => none) = t.estimated_hours
    cases hv : t.estimated_hours with
    | none => rfl
    | some v =>
      show (if v = 0 then none else some v) = some v
      rw [if_neg (fun h0 => he (by rw [hv, h0]))]
  have hmact : (MarkdownStorage.encodeMeta t).actual_hours = t.actual_hours := by
    show (match t.actual_hours with
      | some v => if v = 0 then none else some v
      | none => none) = t.actual_hours
    cases hv : t.actual_hours with
    | none => rfl
    | some v =>
      show (if v = 0 then none else some v) = some v
      rw [if_neg (fun h0 => ha (by rw [hv, h0]))]
  have hmproj : (MarkdownStorage.encodeMeta t).project = t.project := by
    show (match t.project with
      | some p => if p = [] then none else some p
      | none => none) = t.project
    cases hv : t.project with
    | none => rfl
    | some pr =>
      show (if pr = [] then none else some pr) = some pr
      rw [if_neg (fun h0 => hp (by rw [hv, h0]))]
  have hmpar : (MarkdownStorage.encodeMeta t).parent_id = t.parent_id := by
    show (match t.parent_id with
      | some p => if p = [] then none else some p
      | none => none) = t.parent_id
    cases hv : t.parent_id with
    | none => rfl
    | some pr =>
      show (if pr = [] then none else some pr) = some pr
      rw [if_neg (fun h0 => hpar (by rw [hv, h0]))]
  have hmrpid : (MarkdownStorage.encodeMeta t).recurrence_parent_id =
      t.recurrence_parent_id := by
    show (match t.recurrence_parent_id with
      | some p => if p = [] then none else some p
      | none => none) = t.recurrence_parent_id
    cases hv : t.recurrence_parent_id with
    | none => rfl
    | some pr =>
      show (if pr = [] then none else some pr) = some pr
      rw [if_neg (fun h0 => hrp (by rw [hv, h0]))]
  have hmtags : (MarkdownStorage.encodeMeta t).tags.getD [] = t.tags := by
    show (if t.tags = [] then (none : Option (List Str)) else some t.tags).getD [] = t.tags
    by_cases ht : t.tags = []
    · rw [if_pos ht, ht]; rfl
    · rw [if_neg ht]; rfl
  have hmdeps : (MarkdownStorage.encodeMeta t).dependencies.getD [] = t.dependencies := by
    show (if t.dependencies = [] then (none : Option (List Str))
      else some t.dependencies).getD [] = t.dependencies
    by_cases ht : t.dependencies = []
    · rw [if_pos ht, ht]; rfl
    · rw [if_neg ht]; rfl
  by_cases hn : t.notes = []
  · have hcontent := encodeContent_nonotes t hn
    have hso : MarkdownStorage.strip_obsidian_lines t.description =
        pyStrip t.description := strip_obsidian_of_keep hdo
    simp only [decodePost, MarkdownStorage.savePost, hcontent, hdm,
      except_bind_ok, Bool.false_eq_true, if_false, hso, hmid, hmtitle, hmstatus,
      hmprio, hmcre, hmupd, hmdue, hmsch, hmstart, hmcomp, hmest, hmact, hmproj,
      hmpar, hmrpid, hmtags, hmdeps, req, statusOfValue_value,
      priorityOfValue_value, hn]
    cases hr : t.recurrence with
    | none =>
      have hnone : (MarkdownStorage.encodeMeta t).recurrence = none := by
        show t.recurrence.map _ = none
        rw [hr]
        rfl
      simp only [hnone]
    | some r =>
      obtain ⟨hdow, hdom⟩ := hrec r hr
      have hmr : (MarkdownStorage.encodeMeta t).recurrence =
          some ⟨some r.frequency.value, some r.interval, r.days_of_week,
            r.day_of_month, r.end_date⟩ := by
        have hX : (match r.days_of_week with
            | some l => if l = [] then none else some l
            | none => none) = r.days_of_week := by
          cases hdw : r.days_of_week with
          | none => rfl
          | some l =>
            show (if l = [] then none else some l) = some l
            rw [if_neg (fun hle => hdow (by rw [hdw, hle]))]
        have hY : (match r.day_of_month with
            | some d => if d = 0 then none else some d
            | none => none) = r.day_of_month := by
          cases hdm2 : r.day_of_month with
          | none => rfl
          | some d =>
            show (if d = 0 then none else some d) = some d
            rw [if_neg (fun h0 => hdom (by rw [hdm2, h0]))]
        show t.recurrence.map _ = _
        rw [hr]
        show some (⟨some r.frequency.value, some r.interval,
          (match r.days_of_week with
            | some l => if l = [] then none else some l
            | none => none),
          (match r.day_of_month with
            | some d => if d = 0 then none else some d
            | none => none),
          r.end_date⟩ : RecMeta) =
          some ⟨some r.frequency.value, some r.interval, r.days_of_week,
            r.day_of_month, r.end_date⟩
        rw [hX, hY]
      simp only [hmr, decodeRecurrence, req, except_bind_ok,
        frequencyOfValue_value, except_map_ok, Option.getD_some]
  · have hmark := hasSub_encodeContent_notes t hn
    have hsplit := pySplit_encodeContent t hn hdm hgn
    have hA : pyStrip (if t.description = [] then ['\n']
        else t.description ++ ['\n', '\n']) = pyStrip t.description := by
      by_cases hdesc : t.description = []
      · rw [if_pos hdesc, hdesc]
        rfl
      · rw [if_neg hdesc]
        exact pyStrip_append_ws (by decide)
    have hpn : parseNotes now ('\n' :: '\n' :: joinSep ['\n'] (t.notes.map noteLine)) =
        t.notes := parseNotes_section now t.notes hn hgn
    have hso : MarkdownStorage.strip_obsidian_lines (pyStrip t.description) =
        pyStrip t.description := strip_obsidian_pyStrip hdo
    simp only [decodePost, MarkdownStorage.savePost, hmark, except_bind_ok,
      if_true, hsplit, List.headD_cons, List.drop_succ_cons, List.drop_zero, hA,
      hpn, hso, hmid, hmtitle, hmstatus, hmprio, hmcre, hmupd, hmdue, hmsch,
      hmstart, hmcomp, hmest, hmact, hmproj, hmpar, hmrpid, hmtags, hmdeps, req,
      statusOfValue_value, priorityOfValue_value]
    cases hr : t.recurrence with
    | none =>
      have hnone : (MarkdownStorage.encodeMeta t).recurrence = none := by
        show t.recurrence.map _ = none
        rw [hr]
        rfl
      simp only [hnone]
    | some r =>
      obtain ⟨hdow, hdom⟩ := hrec r hr
      have hmr : (MarkdownStorage.encodeMeta t).recurrence =
          some ⟨some r.frequency.value, some r.interval, r.days_of_week,
            r.day_of_month, r.end_date⟩ := by
        have hX : (match r.days_of_week with
            | some l => if l = [] then none else some l
            | none => none) = r.days_of_week := by
          cases hdw : r.days_of_week with
          | none => rfl
          | some l =>
            show (if l = [] then none else some l) = some l
            rw [if_neg (fun hle => hdow (by rw [hdw, hle]))]
        have hY : (match r.day_of_month with
            | some d => if d = 0 then none else some d
            | none => none) = r.day_of_month := by
          cases hdm2 : r.day_of_month with
          | none => rfl
          | some d =>
            show (if d = 0 then none else some d) = some d
            rw [if_neg (fun h0 => hdom (by rw [hdm2, h0]))]
        show t.recurrence.map _ = _
        rw [hr]
        show some (⟨some r.frequency.value, some r.interval,
          (match r.days_of_week with
            | some l => if l = [] then none else some l
            | none => none),
          (match r.day_of_month with
            | some d => if d = 0 then none else some d
            | none => none),
          r.end_date⟩ : RecMeta) =
          some ⟨some r.frequency.value, some r.interval, r.days_of_week,
            r.day_of_month, r.end_date⟩
        rw [hX, hY]
      simp only [hmr, decodeRecurrence, req, except_bind_ok,
        frequencyOfValue_value, except_map_ok, Option.getD_some]

/-- Saving a round-trippable task and loading the written path back
recovers the task with its description stripped. -/
theorem save_load_from_path (now : DateTime) (fs : FS) (t : Task)
    (h : RoundTrippable t) :
    MarkdownStorage.load_from_path now (MarkdownStorage.save fs t).2
        (MarkdownStorage.save fs t).1 =
      .ok (some { t with description := pyStrip t.description }) := by
  simp only [MarkdownStorage.load_from_path, MarkdownStorage.save,
    lookupFile_writeFile, decodePost_savePost now t h, except_map_ok]

/-! ## Lemmas: resolution over a well-formed store -/

theorem except_pure {ε α : Type} (a : α) : (pure a : Except ε α) = .ok a := rfl

theorem isSuf_append (p a : Str) : isSuf p (a ++ p) = true := by
  unfold isSuf
  rw [List.reverse_append]
  exact isPre_self_append _ _

theorem task_filename_eq (id title : Str) :
    MarkdownStorage.task_filename id title =
      (id.take 8 ++ '_' :: MarkdownStorage.sanitize_filename title) ++
        ".md".toList := by
  unfold MarkdownStorage.task_filename
  simp

theorem task_filename_suffix (id title : Str) :
    isSuf ".md".toList (MarkdownStorage.task_filename id title) = true := by
  rw [task_filename_eq]
  exact isSuf_append _ _

theorem list_all_of_wf {now : DateTime} {fs : FS} {ts : List Task}
    (hw : WFStore now fs ts) : MarkdownStorage.list_all now fs = .ok ts := by
  obtain ⟨hall, -, -⟩ := hw
  unfold MarkdownStorage.list_all
  induction hall with
  | nil => rfl
  | @cons f t fs' ts' hft hrest ih =>
    obtain ⟨hname, hdec⟩ := hft
    have hsuf : isSuf ".md".toList f.1 = true := by
      rw [hname]
      exact task_filename_suffix _ _
    simp only [List.filter_cons, hsuf, if_true, List.mapM_cons, hdec,
      except_bind_ok, ih, except_pure]

theorem take_append_len {a : Str} (b : Str) {n : Nat} (h : a.length = n) :
    (a ++ b).take n = a := by
  subst h
  exact List.take_left a b

theorem take_eight_length {id : Str} (h8 : 8 ≤ id.length) :
    (id.take 8).length = 8 := by
  rw [List.length_take]
  omega

theorem task_filename_take {id : Str} (title : Str) (h8 : 8 ≤ id.length) :
    (MarkdownStorage.task_filename id title).take 8 = id.take 8 := by
  rw [task_filename_eq]
  rw [show ((id.take 8 ++ '_' :: MarkdownStorage.sanitize_filename title) ++
      ".md".toList : Str) =
    id.take 8 ++ ('_' :: MarkdownStorage.sanitize_filename title ++
      ".md".toList) by simp]
  exact take_append_len _ (take_eight_length h8)

theorem task_filename_ne {ida idb : Str} (ta tb : Str) (h8a : 8 ≤ ida.length)
    (h8b : 8 ≤ idb.length) (hne : ida.take 8 ≠ idb.take 8) :
    MarkdownStorage.task_filename ida ta ≠ MarkdownStorage.task_filename idb tb := by
  intro he
  apply hne
  have h := congrArg (List.take 8) he
  rwa [task_filename_take ta h8a, task_filename_take tb h8b] at h

theorem glob_self {id : Str} (title : Str) (h8 : 8 ≤ id.length) :
    globMatch (id.take 8) (MarkdownStorage.task_filename id title) = true := by
  unfold globMatch
  have h1 : isPre (id.take 8 ++ ['_'])
      (MarkdownStorage.task_filename id title) = true := by
    rw [task_filename_eq]
    rw [show ((id.take 8 ++ '_' :: MarkdownStorage.sanitize_filename title) ++
        ".md".toList : Str) =
      (id.take 8 ++ ['_']) ++ (MarkdownStorage.sanitize_filename title ++
        ".md".toList) by simp]
    exact isPre_self_append _ _
  have h3 : (id.take 8).length + 4 ≤
      (MarkdownStorage.task_filename id title).length := by
    rw [task_filename_eq]
    have hmd : (".md".toList : Str).length = 3 := rfl
    simp only [List.length_append, List.length_cons, List.length_take, hmd]
    omega
  rw [h1, task_filename_suffix]
  simp only [Bool.true_and, decide_eq_true_eq]
  exact h3

theorem glob_other {ida idb : Str} (title : Str) (h8a : 8 ≤ ida.length)
    (h8b : 8 ≤ idb.length) (hne : ida.take 8 ≠ idb.take 8) :
    globMatch (idb.take 8) (MarkdownStorage.task_filename ida title) = false := by
  cases hres : globMatch (idb.take 8) (MarkdownStorage.task_filename ida title) with
  | false => rfl
  | true =>
    exfalso
    unfold globMatch at hres
    simp only [Bool.and_eq_true] at hres
    have hpre := hres.1.1
    rw [task_filename_eq] at hpre
    rw [show ((ida.take 8 ++ '_' :: MarkdownStorage.sanitize_filename title) ++
        ".md".toList : Str) =
      (ida.take 8 ++ ['_']) ++ (MarkdownStorage.sanitize_filename title ++
        ".md".toList) by simp] at hpre
    rcases isPre_iff.mp hpre with ⟨r, hr⟩
    have hinj := List.append_inj hr.symm (by
      simp [take_eight_length h8a, take_eight_length h8b])
    have hinj2 := List.append_inj hinj.1 (by
      simp [take_eight_length h8a, take_eight_length h8b])
    exact hne hinj2.1.symm

theorem wf_resolve {now : DateTime} {u : Task} :
    ∀ {fs : FS} {ts : List Task},
      List.Forall₂ (fun (f : Str × Post) (t : Task) =>
        f.1 = MarkdownStorage.task_filename t.id t.title ∧
        decodePost now f.2 = .ok t) fs ts →
      (∀ t ∈ ts, 8 ≤ t.id.length) →
      List.Pairwise (fun a b => a.id.take 8 ≠ b.id.take 8) ts →
      u ∈ ts →
      globFirst fs (u.id.take 8) =
        some (MarkdownStorage.task_filename u.id u.title) ∧
      ∃ p, lookupFile fs (MarkdownStorage.task_filename u.id u.title) = some p ∧
        decodePost now p = .ok u := by
  intro fs ts hall
  induction hall with
  | nil => exact fun _ _ hu => absurd hu (List.not_mem_nil u)
  | @cons f t fs' ts' hft hrest ih =>
    intro hlen hpw hu
    obtain ⟨hname, hdec⟩ := hft
    have h8t : 8 ≤ t.id.length := hlen t (List.mem_cons_self t ts')
    have h8u : 8 ≤ u.id.length := hlen u hu
    rcases List.mem_cons.mp hu with rfl | hu'
    · constructor
      · have hm : globMatch (u.id.take 8) f.1 = true := by
          rw [hname]
          exact glob_self u.title h8u
        unfold globFirst
        simp only [List.find?, hm]
        simp [hname]
      · refine ⟨f.2, ?_, hdec⟩
        have hb : (f.1 == MarkdownStorage.task_filename u.id u.title) = true := by
          rw [hname]
          simp
        unfold lookupFile
        simp only [List.find?, hb]
        rfl
    · have hne8 : t.id.take 8 ≠ u.id.take 8 := (List.pairwise_cons.mp hpw).1 u hu'
      have hglobf : globMatch (u.id.take 8) f.1 = false := by
        rw [hname]
        exact glob_other t.title h8t h8u hne8
      have hnamene : (f.1 == MarkdownStorage.task_filename u.id u.title) = false := by
        rw [hname, beq_eq_false_iff_ne]
        exact task_filename_ne t.title u.title h8t h8u hne8
      obtain ⟨ihg, p, ihl, ihd⟩ := ih (fun x hx => hlen x (List.mem_cons_of_mem t hx))
        (List.pairwise_cons.mp hpw).2 hu'
      refine ⟨?_, p, ?_, ihd⟩
      · unfold globFirst at ihg ⊢
        simp only [List.find?, hglobf]
        exact ihg
      · unfold lookupFile at ihl ⊢
        simp only [List.find?, hnamene]
        exact ihl

theorem load_of_mem {now : DateTime} {fs : FS} {ts : List Task}
    (hw : WFStore now fs ts) {u : Task} (hu : u ∈ ts) :
    MarkdownStorage.load now fs u.id = .ok (some u) := by
  obtain ⟨hall, hlen, hpw⟩ := hw
  obtain ⟨hg, p, hlk, hdec⟩ := wf_resolve hall hlen hpw hu
  unfold MarkdownStorage.load MarkdownStorage.find_task_file
  simp only [hg]
  unfold MarkdownStorage.load_from_path
  simp only [hlk, hdec, except_map_ok]

theorem get_of_mem {now : DateTime} {fs : FS} {ts : List Task}
    (hw : WFStore now fs ts) {u : Task} (hu : u ∈ ts) :
    TaskRepository.get now fs u.id = .ok (some u) := by
  unfold TaskRepository.get
  simp only [load_of_mem hw hu, except_bind_ok]

theorem load_of_noresolve {now : DateTime} {fs : FS} {ts : List Task} {d : Str}
    (hnr : NoResolve fs ts d) : MarkdownStorage.load now fs d = .ok none := by
  obtain ⟨hg, hleg, hph, -⟩ := hnr
  unfold MarkdownStorage.load MarkdownStorage.find_task_file
  simp only [hg, hleg, Option.isSome_none, Bool.false_eq_true, if_false]
  unfold MarkdownStorage.load_from_path
  simp only [hph]

theorem get_of_noresolve {now : DateTime} {fs : FS} {ts : List Task} {d : Str}
    (hw : WFStore now fs ts) (hnr : NoResolve fs ts d) :
    TaskRepository.get now fs d = .ok none := by
  have hload : MarkdownStorage.load now fs d = .ok none := load_of_noresolve hnr
  have hlist := list_all_of_wf hw
  unfold TaskRepository.get
  simp only [hload, except_bind_ok, hlist]
  rw [List.find?_eq_none.mpr]
  intro x hx
  simp [hnr.2.2.2 x hx]

theorem find_id {ts : List Task} (hlen : ∀ t ∈ ts, 8 ≤ t.id.length)
    (hpw : List.Pairwise (fun a b => a.id.take 8 ≠ b.id.take 8) ts)
    {u : Task} (hu : u ∈ ts) :
    ts.find? (fun v => v.id == u.id) = some u := by
  induction ts with
  | nil => exact absurd hu (List.not_mem_nil u)
  | cons t rest ih =>
    rcases List.mem_cons.mp hu with rfl | hu'
    · simp [List.find?]
    · have hne8 : t.id.take 8 ≠ u.id.take 8 := (List.pairwise_cons.mp hpw).1 u hu'
      have hne : (t.id == u.id) = false := by
        rw [beq_eq_false_iff_ne]
        intro he
        exact hne8 (by rw [he])
      simp only [List.find?, hne]
      exact ih (fun x hx => hlen x (List.mem_cons_of_mem t hx))
        (List.pairwise_cons.mp hpw).2 hu'

/-! ## The claims -/

/-- Claim C1 (counterexample): saving and re-loading `cexTask`, whose
description is the single checkbox line `"- [ ] buy milk"`, yields an empty
description.  The description had no edge whitespace, so the change is not
the whitespace normalization the round-trip claim allows. -/
theorem C1_counterexample :
    MarkdownStorage.load_from_path now0 (MarkdownStorage.save [] cexTask).2
        (MarkdownStorage.save [] cexTask).1 =
      .ok (some { cexTask with description := [] }) ∧
    pyStrip cexTask.description = cexTask.description ∧
    cexTask.description ≠ [] := by decide

/-- Claim C1 (amended): for every task whose description contains no notes
marker and no checkbox-looking line, whose notes are single-line with
minute-precision timestamps, and none of whose optional fields holds a
Python-falsy value (`0`, `""`, `[]`) that `save`'s truthiness guards
conflate with absent, `MarkdownStorage.save` followed by
`MarkdownStorage.load_from_path` on the written path yields the task
field-for-field, except that the description is stripped of leading and
trailing whitespace. -/
theorem C1_round_trip (now : DateTime) (fs : FS) (t : Task)
    (h : RoundTrippable t) :
    MarkdownStorage.load_from_path now (MarkdownStorage.save fs t).2
        (MarkdownStorage.save fs t).1 =
      .ok (some { t with description := pyStrip t.description }) :=
  save_load_from_path now fs t h

/-- Witness for C1 at `noteTask` (a description and one note). -/
theorem C1_round_trip_witness :
    RoundTrippable noteTask ∧
      MarkdownStorage.load_from_path now0 (MarkdownStorage.save [] noteTask).2
          (MarkdownStorage.save [] noteTask).1 =
        .ok (some { noteTask with description := pyStrip noteTask.description }) :=
  ⟨by decide, C1_round_trip now0 [] noteTask (by decide)⟩

/-- Claim C2 (code bug): over a store holding two tasks whose ids share the
4-character prefix `"aaaa"`, `TaskRepository.get` on that prefix silently
returns the first match instead of failing with an ambiguity error (no
ambiguity error exists anywhere in the storage layer, although the
tests import `AmbiguousTaskIdError` from it); a longer unique prefix resolves to
its task. -/
theorem C2_ambiguous_prefix_first_match :
    isPre "aaaa".toList taskA.id = true ∧
    isPre "aaaa".toList taskB.id = true ∧
    taskA ≠ taskB ∧
    TaskRepository.get now0 fsAB "aaaa".toList = .ok (some taskA) ∧
    TaskRepository.get now0 fsAB "aaaa2222".toList = .ok (some taskB) := by decide

/-- Claim C3 (counterexample): `depTask` has one dependent, yet
`TaskRepository.delete` reports success and removes its file. -/
theorem C3_counterexample :
    (TaskRepository.get_dependents now0 fsDep depTask.id).map List.length =
      .ok 1 ∧
    (TaskRepository.delete now0 fsDep depTask.id).map
        (fun r => (r.1, lookupFile r.2
          (MarkdownStorage.task_filename depTask.id depTask.title))) =
      .ok (true, none) := by decide

/-- Claim C3 (amended): `TaskRepository.delete` performs no dependent or
child validation; the rejection the spec describes lives in
`TaskManager.delete` (modelled from the spec; `core/task_manager.py` is not
among the sources), which fails with the counted message and leaves the
storage state unchanged. -/
theorem C3_delete_validation :
    TaskManager.delete now0 fsDep depTask.id =
      (.error (.valueError (depErrMsg 1)), fsDep) ∧
    depErrMsg 1 = "Cannot delete: 1 task(s) depend on this task".toList ∧
    TaskManager.delete now0 fsChild parentTask.id =
      (.error (.valueError (childErrMsg 1)), fsChild) ∧
    childErrMsg 1 = "Cannot delete: task has 1 child task(s)".toList := by decide

/-- Claim C5 (counterexample): listing the directory that holds one
well-formed file and one file missing its `id` does not return the
well-formed task. -/
theorem C5_counterexample :
    MarkdownStorage.list_all now0 fsMixed ≠ .ok [taskA] := by decide

/-- Claim C5 (amended): a record missing a required identity field aborts
decoding of that file with a `KeyError`, and `MarkdownStorage.list_all` has
no handler, so the error aborts the whole directory scan: no tasks are
returned, not even the well-formed ones. -/
theorem C5_scan_aborts :
    decodePost now0 (MarkdownStorage.savePost taskA) = .ok taskA ∧
    decodePost now0 badPost = .error (.keyError "id".toList) ∧
    MarkdownStorage.list_all now0 fsMixed = .error (.keyError "id".toList) := by
  decide

/-- Claim C6 (counterexample): the fallback parse of the malformed note
line `"- [notadate] hello"` does not use the raw line as the note's
content. -/
theorem C6_counterexample :
    noteFromLine now0 "- [notadate] hello".toList ≠
      ⟨"- [notadate] hello".toList, now0⟩ := by decide

/-! ### Decoding a body with arbitrary (also malformed) note lines -/

theorem dropWhile_head_not {p : Char → Bool} :
    ∀ {l : Str} {c : Char} {r : Str}, l.dropWhile p = c :: r → p c = false := by
  intro l
  induction l with
  | nil => intro c r h; exact absurd h (by simp)
  | cons a l' ih =>
    intro c r h
    by_cases ha : p a = true
    · rw [List.dropWhile_cons_of_pos ha] at h
      exact ih h
    · rw [List.dropWhile_cons_of_neg ha] at h
      obtain ⟨rfl, -⟩ := List.cons.injEq .. ▸ h
      exact Bool.not_eq_true _ ▸ ha

theorem dropWhile_decomp {p : Char → Bool} (l : Str) :
    ∃ w, l = w ++ l.dropWhile p ∧ ∀ c ∈ w, p c = true := by
  induction l with
  | nil => exact ⟨[], rfl, by simp⟩
  | cons a l' ih =>
    by_cases ha : p a = true
    · obtain ⟨w, hw, hall⟩ := ih
      refine ⟨a :: w, ?_, ?_⟩
      · rw [List.dropWhile_cons_of_pos ha, List.cons_append, ← hw]
      · intro c hc
        rcases List.mem_cons.mp hc with rfl | hc
        · exact ha
        · exact hall c hc
    · refine ⟨[], ?_, by simp⟩
      rw [List.dropWhile_cons_of_neg ha]
      rfl

theorem isPre_single_dropWhile (c0 : Char) (l : Str) :
    isPre [c0] (l.dropWhile (· == c0)) = false := by
  cases h : l.dropWhile (· == c0) with
  | nil => rfl
  | cons c r =>
    have hc := dropWhile_head_not h
    show (c0 == c && isPre [] r) = false
    rw [show (c0 == c) = false from by
      rw [beq_eq_false_iff_ne] at hc ⊢
      exact fun he => hc he.symm]
    rfl


theorem pyRstrip_of_pyStrip_eq {l : Str} (h : pyStrip l = l) : pyRstrip l = l := by
  obtain ⟨w, hw, -⟩ := pyRstrip_decomp l
  have h1 : (pyStrip l).length ≤ (pyRstrip l).length := by
    show (pyLstrip (pyRstrip l)).length ≤ _
    exact (List.dropWhile_sublist _).length_le
  have h2 : (pyRstrip l).length + w.length = l.length := by
    have h3 := congrArg List.length hw
    rw [List.length_append] at h3
    omega
  have h3 := congrArg List.length h
  have hwlen : w.length = 0 := by omega
  rw [List.eq_nil_of_length_eq_zero hwlen, List.append_nil] at hw
  exact hw.symm

theorem head_not_ws_of_pyStrip_eq {l : Str} {c : Char} {t : Str}
    (h : pyStrip l = l) (hc : l = c :: t) : pyIsSpace c = false := by
  have hr := pyRstrip_of_pyStrip_eq h
  have hls : pyLstrip l = l := by
    have h2 := h
    rw [show pyStrip l = pyLstrip (pyRstrip l) from rfl, hr] at h2
    exact h2
  have hdw : l.dropWhile pyIsSpace = c :: t := by
    rw [show l.dropWhile pyIsSpace = pyLstrip l from rfl, hls, hc]
  exact dropWhile_head_not hdw

/-- The notes loop on a joined list of arbitrary pre-stripped single-line
strings: every line starting with `"- ["` is parsed by the try/except body,
every other line is skipped. -/
theorem parse_lines (now : DateTime) (ls : List Str) (hne : ls ≠ [])
    (hl : ∀ l ∈ ls, '\n' ∉ l ∧ pyStrip l = l ∧ l ≠ []) :
    (pySplit ['\n'] (pyStrip (joinSep ['\n'] ls))).filterMap
      (fun l =>
        let l := pyStrip l
        if isPre noteLead l then some (noteFromLine now l) else none) =
      ls.filterMap (fun l =>
        if isPre noteLead l then some (noteFromLine now l) else none) := by
  induction ls with
  | nil => exact absurd rfl hne
  | cons l rest ih =>
    obtain ⟨hnl, hst, hlne⟩ := hl l (List.mem_cons_self l rest)
    cases rest with
    | nil =>
      show (pySplit ['\n'] (pyStrip l)).filterMap _ = _
      rw [hst]
      have hlines : pySplit ['\n'] l = [l] :=
        pySplitGo_of_not_hasSub (hasSub_singleton_false hnl)
      rw [hlines]
      simp only [List.filterMap_cons, List.filterMap_nil]
      rw [hst]
    | cons m rest' =>
      obtain ⟨hnlm, hstm, hmne⟩ :=
        hl m (List.mem_cons_of_mem l (List.mem_cons_self m rest'))
      have hlr : ∀ x ∈ m :: rest', '\n' ∉ x ∧ pyStrip x = x ∧ x ≠ [] :=
        fun x hx => hl x (List.mem_cons_of_mem l hx)
      obtain ⟨c, tm, hm⟩ : ∃ c tm, m = c :: tm := by
        cases m with
        | nil => exact absurd rfl hmne
        | cons c tm => exact ⟨c, tm, rfl⟩
      have hcw : pyIsSpace c = false := head_not_ws_of_pyStrip_eq hstm hm
      have hjrhead : joinSep ['\n'] (m :: rest') =
          c :: joinSep ['\n'] (tm :: rest') := by
        rw [hm]
        exact joinSep_cons_head ['\n'] tm rest' c
      have hrne : pyRstrip (joinSep ['\n'] (m :: rest')) ≠ [] := by
        apply pyRstrip_ne_nil_of (d := c)
        · rw [hjrhead]
          exact List.mem_cons_self _ _
        · exact hcw
      have hjoin : joinSep ['\n'] (l :: m :: rest') =
          l ++ '\n' :: joinSep ['\n'] (m :: rest') := by
        simp [joinSep]
      have hrstrip : pyRstrip (joinSep ['\n'] (l :: m :: rest')) =
          l ++ '\n' :: pyRstrip (joinSep ['\n'] (m :: rest')) := by
        rw [hjoin]
        rw [pyRstrip_append_stop l (b := '\n' :: joinSep ['\n'] (m :: rest')) (by
            rw [pyRstrip_cons, if_neg hrne]
            exact List.cons_ne_nil _ _)]
        rw [pyRstrip_cons, if_neg hrne]
      obtain ⟨c0, t0, hl0⟩ : ∃ c0 t0, l = c0 :: t0 := by
        cases l with
        | nil => exact absurd rfl hlne
        | cons c0 t0 => exact ⟨c0, t0, rfl⟩
      have hc0w : pyIsSpace c0 = false := head_not_ws_of_pyStrip_eq hst hl0
      have hstrip : pyStrip (joinSep ['\n'] (l :: m :: rest')) =
          l ++ '\n' :: pyRstrip (joinSep ['\n'] (m :: rest')) := by
        show pyLstrip _ = _
        rw [hrstrip, hl0]
        show pyLstrip (c0 :: (t0 ++ '\n' :: pyRstrip (joinSep ['\n']
          (m :: rest')))) = _
        exact pyLstrip_cons_not _ hc0w
      have hstrip_rest : pyStrip (joinSep ['\n'] (m :: rest')) =
          pyRstrip (joinSep ['\n'] (m :: rest')) := by
        rw [hjrhead]
        exact pyStrip_eq_pyRstrip_head _ hcw
      have hlinesl : pySplitGo '\n' [] l 0 = [l] :=
        pySplitGo_of_not_hasSub (hasSub_singleton_false hnl)
      show (pySplit ['\n'] (pyStrip (joinSep ['\n'] (l :: m :: rest')))).filterMap
        _ = _
      rw [hstrip]
      show (pySplitGo '\n' [] (l ++ '\n' :: pyRstrip (joinSep ['\n']
        (m :: rest'))) 0).filterMap _ = _
      rw [pySplitChar_append, hlinesl, ← hstrip_rest]
      rw [List.filterMap_append]
      have hih := ih (List.cons_ne_nil _ _) hlr
      show List.filterMap _ [l] ++
        (pySplit ['\n'] (pyStrip (joinSep ['\n'] (m :: rest')))).filterMap _ = _
      rw [hih]
      simp only [List.filterMap_cons, List.filterMap_nil]
      rw [hst]
      cases hfl : (if isPre noteLead l then some (noteFromLine now l)
          else none) with
      | none => simp
      | some b => simp

/-- `parseNotes` on a section made of arbitrary pre-stripped lines. -/
theorem parseNotes_lines (now : DateTime) (ls : List Str) (hne : ls ≠ [])
    (hl : ∀ l ∈ ls, '\n' ∉ l ∧ pyStrip l = l ∧ l ≠ []) :
    parseNotes now ('\n' :: '\n' :: joinSep ['\n'] ls) =
      ls.filterMap (fun l =>
        if isPre noteLead l then some (noteFromLine now l) else none) := by
  unfold parseNotes
  rw [show ('\n' :: '\n' :: joinSep ['\n'] ls : Str) =
    ['\n', '\n'] ++ joinSep ['\n'] ls from rfl]
  rw [pyStrip_ws_append (by decide)]
  exact parse_lines now ls hne hl

theorem hasSub_marker_linesB {ls : List Str}
    (h : ∀ l ∈ ls, hasSub l notesMarker = false) :
    hasSub ('\n' :: '\n' :: joinSep ['\n'] ls) notesMarker = false := by
  have hJ : hasSub (joinSep ['\n'] ls) notesMarker = false :=
    hasSub_joinLines (by decide) (by decide) h
  show hasSub ((['\n', '\n'] : Str) ++ joinSep ['\n'] ls)
    ('#' :: "# Notes".toList) = false
  exact hasSub_append_no_head (by decide) hJ

/-- Splitting a body made of a marker-free description part and an
arbitrary marker-free notes section. -/
theorem pySplit_body (d B : Str) (hdm : hasSub d notesMarker = false)
    (hB : hasSub B notesMarker = false) :
    pySplit notesMarker
      ((if d = [] then ['\n'] else d ++ ['\n', '\n']) ++ (notesMarker ++ B)) =
      [(if d = [] then ['\n'] else d ++ ['\n', '\n']), B] := by
  show pySplitGo '#' "# Notes".toList _ 0 = _
  rw [show ((if d = [] then ['\n'] else d ++ ['\n', '\n']) ++
      (notesMarker ++ B) : Str) =
    (if d = [] then ['\n'] else d ++ ['\n', '\n']) ++
      (('#' :: "# Notes".toList) ++ B) from rfl]
  rw [pySplitGo_boundary '#' "# Notes".toList _ _ (by
    by_cases hde : d = []
    · rw [if_pos hde]
      intro u v huv hv
      cases u with
      | nil =>
        simp only [List.nil_append] at huv
        rw [← huv]
        exact isPre_marker_nl _
      | cons c u' =>
        exfalso
        have hlen := congrArg List.length huv
        simp only [List.length_cons, List.length_append, List.length_nil] at hlen
        have hvz : v.length = 0 := by omega
        exact hv (List.eq_nil_of_length_eq_zero hvz)
    · rw [if_neg hde]
      exact noSpill_desc _ hdm)]
  have hBsplit : pySplitGo '#' "# Notes".toList B 0 = [B] :=
    pySplitGo_of_not_hasSub hB
  rw [hBsplit]

/-- Claim C6 (amended): for every record body whose notes section is any
list of single-line entries — well-formed or not — decoding
(`decodePost`, the record decoder of `MarkdownStorage.load_from_path`)
never raises: it returns the task whose notes are, line by line, the
result of the note parse on each line starting with `"- ["` (other lines
are skipped).  For every such line, when the first `]` is missing or the
bracketed slice does not parse as `"YYYY-MM-DD HH:MM"`, the fallback note
content is `line[2:]` — the raw line minus the leading `"- "`, not the raw
line itself — with `created_at` defaulting to the current time; when the
timestamp parses, the note carries the parsed timestamp and the content
after `"] "`. -/
theorem C6_note_fallback (now : DateTime) (t : Task) (d : Str) (ls : List Str)
    (hdm : hasSub d notesMarker = false)
    (hdo : ∀ l ∈ pySplit ['\n'] d, isObsLine (pyStrip l) = false)
    (hne : ls ≠ [])
    (hl : ∀ l ∈ ls, '\n' ∉ l ∧ pyStrip l = l ∧ l ≠ [] ∧
      hasSub l notesMarker = false)
    (he : t.estimated_hours ≠ some 0) (ha : t.actual_hours ≠ some 0)
    (hp : t.project ≠ some []) (hpar : t.parent_id ≠ some [])
    (hrp : t.recurrence_parent_id ≠ some [])
    (hrec : ∀ r, t.recurrence = some r →
      r.days_of_week ≠ some [] ∧ r.day_of_month ≠ some 0) :
    decodePost now ⟨MarkdownStorage.encodeMeta t,
      (if d = [] then ['\n'] else d ++ ['\n', '\n']) ++
        (notesMarker ++ ('\n' :: '\n' :: joinSep ['\n'] ls))⟩ =
      .ok { t with
        description := pyStrip d
        notes := ls.filterMap (fun l =>
          if isPre noteLead l then some (noteFromLine now l) else none) } ∧
    (∀ l : Str, pyIndex ']' l = none →
      noteFromLine now l = ⟨l.drop 2, now⟩) ∧
    (∀ (l : Str) (i : Nat), pyIndex ']' l = some i →
      strptimeYmdHM ((l.drop 3).take (i - 3)) = none →
      noteFromLine now l = ⟨l.drop 2, now⟩) ∧
    (∀ (l : Str) (i : Nat) (dt : DateTime), pyIndex ']' l = some i →
      strptimeYmdHM ((l.drop 3).take (i - 3)) = some dt →
      noteFromLine now l = ⟨l.drop (i + 2), dt⟩) := by
  refine ⟨?_, ?_, ?_, ?_⟩
  · have hmid : (MarkdownStorage.encodeMeta t).id = some t.id := rfl
    have hmtitle : (MarkdownStorage.encodeMeta t).title = some t.title := rfl
    have hmstatus : (MarkdownStorage.encodeMeta t).status =
      some t.status.value := rfl
    have hmprio : (MarkdownStorage.encodeMeta t).priority =
      some t.priority.value := rfl
    have hmcre : (MarkdownStorage.encodeMeta t).created_at =
      some t.created_at := rfl
    have hmupd : (MarkdownStorage.encodeMeta t).updated_at =
      some t.updated_at := rfl
    have hmdue : (MarkdownStorage.encodeMeta t).due_date = t.due_date := rfl
    have hmsch : (MarkdownStorage.encodeMeta t).scheduled_date =
      t.scheduled_date := rfl
    have hmstart : (MarkdownStorage.encodeMeta t).start_date = t.start_date := rfl
    have hmcomp : (MarkdownStorage.encodeMeta t).completed_at =
      t.completed_at := rfl
    have hmest : (MarkdownStorage.encodeMeta t).estimated_hours =
        t.estimated_hours := by
      show (match t.estimated_hours with
        | some v => if v = 0 then none else some v
        | none => none) = t.estimated_hours
      cases hv : t.estimated_hours with
      | none => rfl
      | some v =>
        show (if v = 0 then none else some v) = some v
        rw [if_neg (fun h0 => he (by rw [hv, h0]))]
    have hmact : (MarkdownStorage.encodeMeta t).actual_hours =
        t.actual_hours := by
      show (match t.actual_hours with
        | some v => if v = 0 then none else some v
        | none => none) = t.actual_hours
      cases hv : t.actual_hours with
      | none => rfl
      | some v =>
        show (if v = 0 then none else some v) = some v
        rw [if_neg (fun h0 => ha (by rw [hv, h0]))]
    have hmproj : (MarkdownStorage.encodeMeta t).project = t.project := by
      show (match t.project with
        | some p => if p = [] then none else some p
        | none => none) = t.project
      cases hv : t.project with
      | none => rfl
      | some pr =>
        show (if pr = [] then none else some pr) = some pr
        rw [if_neg (fun h0 => hp (by rw [hv, h0]))]
    have hmpar : (MarkdownStorage.encodeMeta t).parent_id = t.parent_id := by
      show (match t.parent_id with
        | some p => if p = [] then none else some p
        | none => none) = t.parent_id
      cases hv : t.parent_id with
      | none => rfl
      | some pr =>
        show (if pr = [] then none else some pr) = some pr
        rw [if_neg (fun h0 => hpar (by rw [hv, h0]))]
    have hmrpid : (MarkdownStorage.encodeMeta t).recurrence_parent_id =
        t.recurrence_parent_id := by
      show (match t.recurrence_parent_id with
        | some p => if p = [] then none else some p
        | none => none) = t.recurrence_parent_id
      cases hv : t.recurrence_parent_id with
      | none => rfl
      | some pr =>
        show (if pr = [] then none else some pr) = some pr
        rw [if_neg (fun h0 => hrp (by rw [hv, h0]))]
    have hmtags : (MarkdownStorage.encodeMeta t).tags.getD [] = t.tags := by
      show (if t.tags = [] then (none : Option (List Str))
        else some t.tags).getD [] = t.tags
      by_cases ht : t.tags = []
      · rw [if_pos ht, ht]; rfl
      · rw [if_neg ht]; rfl
    have hmdeps : (MarkdownStorage.encodeMeta t).dependencies.getD [] =
        t.dependencies := by
      show (if t.dependencies = [] then (none : Option (List Str))
        else some t.dependencies).getD [] = t.dependencies
      by_cases ht : t.dependencies = []
      · rw [if_pos ht, ht]; rfl
      · rw [if_neg ht]; rfl
    have hB : hasSub ('\n' :: '\n' :: joinSep ['\n'] ls) notesMarker = false :=
      hasSub_marker_linesB (fun x hx => (hl x hx).2.2.2)
    have hmark : hasSub
        ((if d = [] then ['\n'] else d ++ ['\n', '\n']) ++
          (notesMarker ++ ('\n' :: '\n' :: joinSep ['\n'] ls))) notesMarker =
        true :=
      hasSub_append_left _ (hasSub_of_isPre (isPre_self_append _ _))
    have hsplit := pySplit_body d ('\n' :: '\n' :: joinSep ['\n'] ls) hdm hB
    have hA : pyStrip (if d = [] then ['\n'] else d ++ ['\n', '\n']) =
        pyStrip d := by
      by_cases hdesc : d = []
      · rw [if_pos hdesc, hdesc]
        rfl
      · rw [if_neg hdesc]
        exact pyStrip_append_ws (by decide)
    have hpn := parseNotes_lines now ls hne
      (fun x hx => ⟨(hl x hx).1, (hl x hx).2.1, (hl x hx).2.2.1⟩)
    have hso : MarkdownStorage.strip_obsidian_lines (pyStrip d) = pyStrip d :=
      strip_obsidian_pyStrip hdo
    simp only [decodePost, hmark, except_bind_ok, if_true, hsplit,
      List.headD_cons, List.drop_succ_cons, List.drop_zero, hA, hpn, hso, hmid,
      hmtitle, hmstatus, hmprio, hmcre, hmupd, hmdue, hmsch, hmstart, hmcomp,
      hmest, hmact, hmproj, hmpar, hmrpid, hmtags, hmdeps, req,
      statusOfValue_value, priorityOfValue_value]
    cases hr : t.recurrence with
    | none =>
      have hnone : (MarkdownStorage.encodeMeta t).recurrence = none := by
        show t.recurrence.map _ = none
        rw [hr]
        rfl
      simp only [hnone]
    | some r =>
      obtain ⟨hdow, hdom⟩ := hrec r hr
      have hmr : (MarkdownStorage.encodeMeta t).recurrence =
          some ⟨some r.frequency.value, some r.interval, r.days_of_week,
            r.day_of_month, r.end_date⟩ := by
        have hX : (match r.days_of_week with
            | some l => if l = [] then none else some l
            | none => none) = r.days_of_week := by
          cases hdw : r.days_of_week with
          | none => rfl
          | some l =>
            show (if l = [] then none else some l) = some l
            rw [if_neg (fun hle => hdow (by rw [hdw, hle]))]
        have hY : (match r.day_of_month with
            | some d2 => if d2 = 0 then none else some d2
            | none => none) = r.day_of_month := by
          cases hdm2 : r.day_of_month with
          | none => rfl
          | some d2 =>
            show (if d2 = 0 then none else some d2) = some d2
            rw [if_neg (fun h0 => hdom (by rw [hdm2, h0]))]
        show t.recurrence.map _ = _
        rw [hr]
        show some (⟨some r.frequency.value, some r.interval,
          (match r.days_of_week with
            | some l => if l = [] then none else some l
            | none => none),
          (match r.day_of_month with
            | some d2 => if d2 = 0 then none else some d2
            | none => none),
          r.end_date⟩ : RecMeta) =
          some ⟨some r.frequency.value, some r.interval, r.days_of_week,
            r.day_of_month, r.end_date⟩
        rw [hX, hY]
      simp only [hmr, decodeRecurrence, req, except_bind_ok,
        frequencyOfValue_value, except_map_ok, Option.getD_some]
  · intro l hli
    unfold noteFromLine
    simp only [hli]
  · intro l i hli hs
    unfold noteFromLine
    simp only [hli, hs]
  · intro l i dt hli hs
    unfold noteFromLine
    simp only [hli, hs]

/-- Witness for C6: a body whose notes section holds one malformed and one
well-formed note line. -/
theorem C6_note_fallback_witness :
    (hasSub ([] : Str) notesMarker = false ∧
      (∀ l ∈ pySplit ['\n'] ([] : Str), isObsLine (pyStrip l) = false) ∧
      (["- [notadate] hello".toList,
        "- [2025-05-02 09:30] all good".toList] : List Str) ≠ [] ∧
      (∀ l ∈ (["- [notadate] hello".toList,
          "- [2025-05-02 09:30] all good".toList] : List Str),
        '\n' ∉ l ∧ pyStrip l = l ∧ l ≠ [] ∧ hasSub l notesMarker = false) ∧
      baseTask.estimated_hours ≠ some 0 ∧ baseTask.actual_hours ≠ some 0 ∧
      baseTask.project ≠ some [] ∧ baseTask.parent_id ≠ some [] ∧
      baseTask.recurrence_parent_id ≠ some [] ∧
      (∀ r, baseTask.recurrence = some r →
        r.days_of_week ≠ some [] ∧ r.day_of_month ≠ some 0)) ∧
      (decodePost now0 ⟨MarkdownStorage.encodeMeta baseTask,
        (if ([] : Str) = [] then ['\n'] else [] ++ ['\n', '\n']) ++
          (notesMarker ++ ('\n' :: '\n' :: joinSep ['\n']
            ["- [notadate] hello".toList,
             "- [2025-05-02 09:30] all good".toList]))⟩ =
        .ok { baseTask with
          description := pyStrip []
          notes := (["- [notadate] hello".toList,
            "- [2025-05-02 09:30] all good".toList] : List Str).filterMap
            (fun l => if isPre noteLead l then some (noteFromLine now0 l)
              else none) } ∧
      (∀ l : Str, pyIndex ']' l = none →
        noteFromLine now0 l = ⟨l.drop 2, now0⟩) ∧
      (∀ (l : Str) (i : Nat), pyIndex ']' l = some i →
        strptimeYmdHM ((l.drop 3).take (i - 3)) = none →
        noteFromLine now0 l = ⟨l.drop 2, now0⟩) ∧
      (∀ (l : Str) (i : Nat) (dt : DateTime), pyIndex ']' l = some i →
        strptimeYmdHM ((l.drop 3).take (i - 3)) = some dt →
        noteFromLine now0 l = ⟨l.drop (i + 2), dt⟩)) :=
  ⟨⟨by decide, by decide, by decide, by decide, by decide, by decide, by decide,
      by decide, by decide, by decide⟩,
    C6_note_fallback now0 baseTask []
      ["- [notadate] hello".toList, "- [2025-05-02 09:30] all good".toList]
      (by decide) (by decide) (by decide) (by decide) (by decide) (by decide)
      (by decide) (by decide) (by decide) (by decide)⟩

/-- Claim C4 (counterexample): for the unresolvable identifier `"zzzz"`,
`TaskRepository.delete` returns `False` with the store unchanged instead of
raising, and `TaskRepository.update` on an empty store silently creates the
task's file instead of raising. -/
theorem C4_counterexample :
    TaskRepository.delete now0 fsAB "zzzz".toList = .ok (false, fsAB) ∧
    (TaskRepository.update now0 [] baseTask).2 =
      [(MarkdownStorage.task_filename baseTask.id baseTask.title,
        MarkdownStorage.savePost { baseTask with updated_at := now0 })] := by
  decide

/-- Claim C4 (amended): for an identifier that resolves to no stored task,
the read paths (`MarkdownStorage.load`, `TaskRepository.get`) return an
empty result without raising; but the write paths do not raise either:
`TaskRepository.delete` returns `False` with the store unchanged, and
`TaskRepository.update` never checks existence — it stamps `updated_at` and
saves unconditionally, creating state for an unknown task. -/
theorem C4_notfound_semantics (now : DateTime) (fs : FS) (ts : List Task)
    (d : Str) (t0 : Task) (hw : WFStore now fs ts) (hnr : NoResolve fs ts d) :
    MarkdownStorage.load now fs d = .ok none ∧
    TaskRepository.get now fs d = .ok none ∧
    TaskRepository.delete now fs d = .ok (false, fs) ∧
    TaskRepository.update now fs t0 =
      ({ t0 with updated_at := now },
        (MarkdownStorage.save fs { t0 with updated_at := now }).2) := by
  have hget := get_of_noresolve hw hnr
  refine ⟨load_of_noresolve hnr, hget, ?_, rfl⟩
  unfold TaskRepository.delete
  simp only [hget, except_bind_ok]

/-- Witness for C4 over the two-task store and the identifier `"zzzz"`. -/
theorem C4_notfound_semantics_witness :
    (WFStore now0 fsAB [taskA, taskB] ∧
        NoResolve fsAB [taskA, taskB] "zzzz".toList) ∧
      (MarkdownStorage.load now0 fsAB "zzzz".toList = .ok none ∧
       TaskRepository.get now0 fsAB "zzzz".toList = .ok none ∧
       TaskRepository.delete now0 fsAB "zzzz".toList = .ok (false, fsAB) ∧
       TaskRepository.update now0 fsAB baseTask =
        ({ baseTask with updated_at := now0 },
          (MarkdownStorage.save fsAB { baseTask with updated_at := now0 }).2)) :=
  ⟨⟨by decide, by decide⟩,
    C4_notfound_semantics now0 fsAB [taskA, taskB] "zzzz".toList baseTask
      (by decide) (by decide)⟩

/-- Claim C10: with no status filter and `include_done` at its default
`False`, `TaskRepository.list_all` filters out exactly the tasks whose
status is `done` — `cancelled`, `pending` and `in_progress` tasks remain —
and an explicit status filter replaces the default exclusion. -/
theorem C10_default_excludes_done (now : DateTime) (fs : FS) (ts : List Task)
    (hw : WFStore now fs ts) :
    TaskRepository.list_all now fs none none none none none false =
      .ok (ts.filter (fun u => u.status != Status.done)) ∧
    (∀ u ∈ ts.filter (fun u => u.status != Status.done), u.status ≠ Status.done) ∧
    (∀ u ∈ ts, u.status ≠ Status.done →
      u ∈ ts.filter (fun u => u.status != Status.done)) ∧
    ∀ st : Status, TaskRepository.list_all now fs (some st) none none none none false =
      .ok (ts.filter (fun u => u.status == st)) := by
  have hlist := list_all_of_wf hw
  refine ⟨?_, ?_, ?_, ?_⟩
  · unfold TaskRepository.list_all
    simp only [hlist, except_bind_ok, Bool.false_eq_true, if_false]
  · intro u hu
    have := (List.mem_filter.mp hu).2
    simpa using this
  · intro u hu hne
    exact List.mem_filter.mpr ⟨hu, by simpa using hne⟩
  · intro st
    unfold TaskRepository.list_all
    simp only [hlist, except_bind_ok]

/-- Witness for C10 over a store holding one done and one cancelled task. -/
theorem C10_default_excludes_done_witness :
    WFStore now0 fsDoneCanc [doneTask, cancelledTask] ∧
      (TaskRepository.list_all now0 fsDoneCanc none none none none none false =
        .ok ([doneTask, cancelledTask].filter (fun u => u.status != Status.done)) ∧
      (∀ u ∈ [doneTask, cancelledTask].filter (fun u => u.status != Status.done),
        u.status ≠ Status.done) ∧
      (∀ u ∈ [doneTask, cancelledTask], u.status ≠ Status.done →
        u ∈ [doneTask, cancelledTask].filter (fun u => u.status != Status.done)) ∧
      ∀ st : Status,
        TaskRepository.list_all now0 fsDoneCanc (some st) none none none none false =
          .ok ([doneTask, cancelledTask].filter (fun u => u.status == st))) :=
  ⟨by decide, C10_default_excludes_done now0 fsDoneCanc [doneTask, cancelledTask]
    (by decide)⟩

/-- The dependency fold of `get_blocking_tasks`, characterized over a
well-formed store: each dependency that is the id of a stored open task is
appended, all others contribute nothing. -/
theorem foldlM_blocking {now : DateTime} {fs : FS} {ts : List Task}
    (hw : WFStore now fs ts) :
    ∀ deps : List Str,
      (∀ dep ∈ deps, (∃ u ∈ ts, dep = u.id) ∨ NoResolve fs ts dep) →
      ∀ acc : List Task,
        deps.foldlM (fun acc dep => do
          let d? ← TaskRepository.get now fs dep
          match d? with
          | some d => Except.ok (if d.is_open then acc ++ [d] else acc)
          | none => Except.ok acc) acc =
        .ok (acc ++ deps.filterMap (fun dep =>
          match ts.find? (fun u => u.id == dep) with
          | some u => if u.is_open then some u else none
          | none => none)) := by
  have hlen := hw.2.1
  have hpw := hw.2.2
  intro deps
  induction deps with
  | nil =>
    intro _ acc
    simp [List.foldlM, except_pure]
  | cons dep rest ih =>
    intro hdep acc
    rcases hdep dep (List.mem_cons_self dep rest) with ⟨u, hu, rfl⟩ | hnr
    · have hget := get_of_mem hw hu
      have hfind : ts.find? (fun v => v.id == u.id) = some u := find_id hlen hpw hu
      rw [List.foldlM_cons]
      simp only [hget, except_bind_ok]
      cases ho : u.is_open with
      | true =>
        simp only [ho, if_true, except_bind_ok,
          ih (fun x hx => hdep x (List.mem_cons_of_mem _ hx)) (acc ++ [u]),
          List.filterMap_cons, hfind]
        simp
      | false =>
        simp only [ho, Bool.false_eq_true, if_false, except_bind_ok,
          ih (fun x hx => hdep x (List.mem_cons_of_mem _ hx)) acc,
          List.filterMap_cons, hfind]
    · have hget := get_of_noresolve hw hnr
      have hfind : ts.find? (fun v => v.id == dep) = none := by
        rw [List.find?_eq_none]
        intro x hx h
        have hpre := hnr.2.2.2 x hx
        rw [beq_iff_eq] at h
        rw [h, isPre_refl] at hpre
        exact Bool.noConfusion hpre
      rw [List.foldlM_cons]
      simp only [hget, except_bind_ok,
        ih (fun x hx => hdep x (List.mem_cons_of_mem _ hx)) acc,
        List.filterMap_cons, hfind]

/-- Claim C7: over a well-formed store, `get_blocking_tasks` returns exactly
the dependencies that are ids of stored open tasks, `can_start` is true iff
that list is empty, and a `done` or `cancelled` dependency is never open. -/
theorem C7_blocking (now : DateTime) (fs : FS) (ts : List Task) (t : Task)
    (hw : WFStore now fs ts) (ht : t ∈ ts)
    (hdep : ∀ dep ∈ t.dependencies, (∃ u ∈ ts, dep = u.id) ∨ NoResolve fs ts dep) :
    TaskRepository.get_blocking_tasks now fs t.id =
      .ok (t.dependencies.filterMap (fun dep =>
        match ts.find? (fun u => u.id == dep) with
        | some u => if u.is_open then some u else none
        | none => none)) ∧
    TaskRepository.can_start now fs t.id =
      .ok ((t.dependencies.filterMap (fun dep =>
        match ts.find? (fun u => u.id == dep) with
        | some u => if u.is_open then some u else none
        | none => none)).length == 0) ∧
    ∀ u : Task, u.status = Status.done ∨ u.status = Status.cancelled →
      u.is_open = false := by
  have hget := get_of_mem hw ht
  have hb : TaskRepository.get_blocking_tasks now fs t.id =
      .ok (t.dependencies.filterMap (fun dep =>
        match ts.find? (fun u => u.id == dep) with
        | some u => if u.is_open then some u else none
        | none => none)) := by
    unfold TaskRepository.get_blocking_tasks
    simp only [hget, except_bind_ok]
    by_cases hdeps : t.dependencies = []
    · simp [hdeps]
    · rw [if_neg hdeps, foldlM_blocking hw t.dependencies hdep []]
      rw [List.nil_append]
  refine ⟨hb, ?_, ?_⟩
  · unfold TaskRepository.can_start
    rw [hb, except_map_ok]
  · intro u hu
    unfold Task.is_open
    rcases hu with h | h <;> rw [h] <;> rfl

/-- Witness for C7 at the blocked task of `fsBlock`: the pending blocker
blocks, the completed one does not. -/
theorem C7_blocking_witness :
    (WFStore now0 fsBlock [blockerTask, doneBlockerTask, blockedTask] ∧
      blockedTask ∈ [blockerTask, doneBlockerTask, blockedTask] ∧
      (∀ dep ∈ blockedTask.dependencies,
        (∃ u ∈ [blockerTask, doneBlockerTask, blockedTask], dep = u.id) ∨
          NoResolve fsBlock [blockerTask, doneBlockerTask, blockedTask] dep)) ∧
      (TaskRepository.get_blocking_tasks now0 fsBlock blockedTask.id =
        .ok (blockedTask.dependencies.filterMap (fun dep =>
          match [blockerTask, doneBlockerTask, blockedTask].find?
              (fun u => u.id == dep) with
          | some u => if u.is_open then some u else none
          | none => none)) ∧
      TaskRepository.can_start now0 fsBlock blockedTask.id =
        .ok ((blockedTask.dependencies.filterMap (fun dep =>
          match [blockerTask, doneBlockerTask, blockedTask].find?
              (fun u => u.id == dep) with
          | some u => if u.is_open then some u else none
          | none => none)).length == 0) ∧
      ∀ u : Task, u.status = Status.done ∨ u.status = Status.cancelled →
        u.is_open = false) :=
  ⟨⟨by decide, by decide, by decide⟩,
    C7_blocking now0 fsBlock [blockerTask, doneBlockerTask, blockedTask]
      blockedTask (by decide) (by decide) (by decide)⟩

/-! ## Lemmas: filename sanitization -/

theorem collapseGo_cons (a : Char) (r : Str) (b : Bool) :
    collapseGo (a :: r) b =
      if isWsUnd a then (if b then collapseGo r true else '_' :: collapseGo r true)
      else a :: collapseGo r false := rfl

theorem mem_collapseGo :
    ∀ (s : Str) (b : Bool) (c : Char), c ∈ collapseGo s b →
      c = '_' ∨ (c ∈ s ∧ isWsUnd c = false) := by
  intro s
  induction s with
  | nil => intro b c h; exact absurd h (List.not_mem_nil c)
  | cons a r ih =>
    intro b c h
    by_cases ha : isWsUnd a = true
    · rw [collapseGo_cons, if_pos ha] at h
      cases b with
      | true =>
        rw [if_pos rfl] at h
        rcases ih true c h with h' | ⟨hm, hn⟩
        · exact Or.inl h'
        · exact Or.inr ⟨List.mem_cons_of_mem a hm, hn⟩
      | false =>
        rw [if_neg (by simp)] at h
        rcases List.mem_cons.mp h with rfl | h'
        · exact Or.inl rfl
        · rcases ih true c h' with h'' | ⟨hm, hn⟩
          · exact Or.inl h''
          · exact Or.inr ⟨List.mem_cons_of_mem a hm, hn⟩
    · rw [collapseGo_cons, if_neg ha] at h
      rcases List.mem_cons.mp h with he | h'
      · rw [he]
        exact Or.inr ⟨List.mem_cons_self a r, by
          rw [Bool.not_eq_true] at ha
          exact ha⟩
      · rcases ih false c h' with h'' | ⟨hm, hn⟩
        · exact Or.inl h''
        · exact Or.inr ⟨List.mem_cons_of_mem a hm, hn⟩

theorem collapse_true_head (s : Str) :
    collapseGo s true = [] ∨
      ∃ c r, collapseGo s true = c :: r ∧ isWsUnd c = false := by
  induction s with
  | nil => exact Or.inl rfl
  | cons a r ih =>
    by_cases ha : isWsUnd a = true
    · rw [collapseGo_cons, if_pos ha, if_pos rfl]
      exact ih
    · refine Or.inr ⟨a, collapseGo r false, ?_, by
        rw [Bool.not_eq_true] at ha; exact ha⟩
      rw [collapseGo_cons, if_neg ha]

theorem collapse_no_dd : ∀ (s : Str) (b : Bool),
    hasSub (collapseGo s b) ['_', '_'] = false := by
  intro s
  induction s with
  | nil => intro b; rfl
  | cons a r ih =>
    intro b
    by_cases ha : isWsUnd a = true
    · cases b with
      | true =>
        rw [collapseGo_cons, if_pos ha, if_pos rfl]
        exact ih true
      | false =>
        rw [collapseGo_cons, if_pos ha, if_neg (by simp)]
        show (isPre ['_', '_'] ('_' :: collapseGo r true) ||
          hasSub (collapseGo r true) ['_', '_']) = false
        rw [ih true, Bool.or_false]
        show (('_' == '_') && isPre ['_'] (collapseGo r true)) = false
        rw [show ('_' == '_') = true from rfl, Bool.true_and]
        rcases collapse_true_head r with hnil | ⟨c, r', hcons, hnw⟩
        · rw [hnil]
          rfl
        · rw [hcons]
          show (('_' == c) && isPre [] r') = false
          rw [show ('_' == c) = false from by
            rw [beq_eq_false_iff_ne]
            intro he
            rw [← he] at hnw
            exact Bool.noConfusion hnw]
          rfl
    · rw [collapseGo_cons, if_neg ha]
      show (isPre ['_', '_'] (a :: collapseGo r false) ||
        hasSub (collapseGo r false) ['_', '_']) = false
      rw [ih false, Bool.or_false]
      show (('_' == a) && isPre ['_'] (collapseGo r false)) = false
      rw [show ('_' == a) = false from by
        rw [beq_eq_false_iff_ne]
        intro he
        rw [← he] at ha
        exact ha rfl, Bool.false_and]

/-- Invariants of the strip/truncate tail of `_sanitize_filename`, for any
collapsed string with no doubled underscore. -/
theorem sanitize_steps (s2 : Str) (hdd2 : hasSub s2 ['_', '_'] = false) :
    ∀ s4 : Str,
      s4 = (if 50 < (stripUnd s2).length then rstripUnd ((stripUnd s2).take 50)
        else stripUnd s2) →
      s4.length ≤ 50 ∧ (∀ c ∈ s4, c ∈ s2) ∧ hasSub s4 ['_', '_'] = false ∧
        isPre ['_'] s4 = false ∧ isSuf ['_'] s4 = false := by
  obtain ⟨w1, hw1, -⟩ := dropWhile_decomp (p := fun c => c == '_') s2
  obtain ⟨w2, hw2, -⟩ := dropWhile_decomp (p := fun c => c == '_')
    (s2.dropWhile (fun c => c == '_')).reverse
  have hS3eq : stripUnd s2 =
      ((s2.dropWhile (fun c => c == '_')).reverse.dropWhile
        (fun c => c == '_')).reverse := rfl
  have hy : s2.dropWhile (fun c => c == '_') = stripUnd s2 ++ w2.reverse := by
    have h := congrArg List.reverse hw2
    rw [List.reverse_reverse, List.reverse_append] at h
    rw [h, hS3eq]
  have hs2eq : s2 = (w1 ++ stripUnd s2) ++ w2.reverse := by
    conv_lhs => rw [hw1, hy]
    rw [List.append_assoc]
  have h3mem : ∀ c ∈ stripUnd s2, c ∈ s2 := by
    intro c hc
    rw [hs2eq]
    simp only [List.mem_append]
    exact Or.inl (Or.inr hc)
  have h3dd : hasSub (stripUnd s2) ['_', '_'] = false := by
    cases hq : hasSub (stripUnd s2) ['_', '_'] with
    | false => rfl
    | true =>
      exfalso
      have h1 := hasSub_append_right w2.reverse (hasSub_append_left w1 hq)
      rw [← hs2eq] at h1
      rw [h1] at hdd2
      exact Bool.noConfusion hdd2
  have h3head : isPre ['_'] (stripUnd s2) = false := by
    cases hc3 : stripUnd s2 with
    | nil => rfl
    | cons c t =>
      have hyc : s2.dropWhile (fun c => c == '_') = c :: (t ++ w2.reverse) := by
        rw [hy, hc3]
        rfl
      have hpc := dropWhile_head_not hyc
      show ('_' == c && isPre [] t) = false
      rw [show ('_' == c) = false from by
        rw [beq_eq_false_iff_ne] at hpc ⊢
        exact fun he => hpc he.symm]
      rfl
  have h3last : isSuf ['_'] (stripUnd s2) = false := by
    unfold isSuf
    rw [show (['_'] : Str).reverse = ['_'] from rfl, hS3eq, List.reverse_reverse]
    exact isPre_single_dropWhile '_' _
  intro s4 hs4
  by_cases h50 : 50 < (stripUnd s2).length
  · rw [if_pos h50] at hs4
    obtain ⟨w3, hw3, -⟩ := dropWhile_decomp (p := fun c => c == '_')
      ((stripUnd s2).take 50).reverse
    have hS4rev : s4.reverse =
        ((stripUnd s2).take 50).reverse.dropWhile (fun c => c == '_') := by
      rw [hs4]
      show ((((stripUnd s2).take 50).reverse.dropWhile
        (fun c => c == '_')).reverse).reverse = _
      rw [List.reverse_reverse]
    have hpref : (stripUnd s2).take 50 = s4 ++ w3.reverse := by
      have h := congrArg List.reverse hw3
      rw [List.reverse_reverse, List.reverse_append, ← hS4rev,
        List.reverse_reverse] at h
      exact h
    have hS3S4 : stripUnd s2 = (s4 ++ w3.reverse) ++ (stripUnd s2).drop 50 := by
      conv_lhs => rw [← List.take_append_drop 50 (stripUnd s2)]
      rw [hpref]
    refine ⟨?_, ?_, ?_, ?_, ?_⟩
    · have h1 : s4.length = s4.reverse.length := (List.length_reverse _).symm
      rw [h1, hS4rev]
      calc (((stripUnd s2).take 50).reverse.dropWhile (fun c => c == '_')).length
          ≤ ((stripUnd s2).take 50).reverse.length :=
            (List.dropWhile_sublist _).length_le
        _ = ((stripUnd s2).take 50).length := List.length_reverse _
        _ ≤ 50 := by
            rw [List.length_take]
            omega
    · intro c hc
      apply h3mem
      rw [hS3S4]
      simp only [List.mem_append]
      exact Or.inl (Or.inl hc)
    · cases hq : hasSub s4 ['_', '_'] with
      | false => rfl
      | true =>
        exfalso
        have h1 := hasSub_append_right ((stripUnd s2).drop 50)
          (hasSub_append_right w3.reverse hq)
        rw [← hS3S4] at h1
        rw [h1] at h3dd
        exact Bool.noConfusion h3dd
    · cases hq : isPre ['_'] s4 with
      | false => rfl
      | true =>
        exfalso
        rcases isPre_iff.mp hq with ⟨r, hr⟩
        have hp : isPre ['_'] (stripUnd s2) = true := by
          rw [hS3S4, hr]
          rw [show ((((['_'] : Str) ++ r) ++ w3.reverse) ++
              (stripUnd s2).drop 50 : Str) =
            ['_'] ++ ((r ++ w3.reverse) ++ (stripUnd s2).drop 50) by simp]
          exact isPre_self_append _ _
        rw [hp] at h3head
        exact Bool.noConfusion h3head
    · unfold isSuf
      rw [show (['_'] : Str).reverse = ['_'] from rfl, hS4rev]
      exact isPre_single_dropWhile '_' _
  · rw [if_neg h50] at hs4
    rw [hs4]
    exact ⟨by omega, h3mem, h3dd, h3head, h3last⟩

/-- The sanitized title: nonempty, at most 50 characters, free of invalid
and whitespace characters, no doubled underscore, no edge underscore. -/
theorem sanitize_props (title : Str) :
    MarkdownStorage.sanitize_filename title ≠ [] ∧
    (MarkdownStorage.sanitize_filename title).length ≤ 50 ∧
    (∀ c ∈ MarkdownStorage.sanitize_filename title,
      isInvalidFileChar c = false ∧ pyIsSpace c = false) ∧
    hasSub (MarkdownStorage.sanitize_filename title) ['_', '_'] = false ∧
    isPre ['_'] (MarkdownStorage.sanitize_filename title) = false ∧
    isSuf ['_'] (MarkdownStorage.sanitize_filename title) = false := by
  have hcore := sanitize_steps
    (collapseRuns (title.map (fun c => if isInvalidFileChar c then '_' else c)))
    (collapse_no_dd _ false)
    (if 50 < (stripUnd (collapseRuns (title.map (fun c =>
          if isInvalidFileChar c then '_' else c)))).length
     then rstripUnd ((stripUnd (collapseRuns (title.map (fun c =>
          if isInvalidFileChar c then '_' else c)))).take 50)
     else stripUnd (collapseRuns (title.map (fun c =>
          if isInvalidFileChar c then '_' else c)))) rfl
  have hdef : MarkdownStorage.sanitize_filename title =
      (if (if 50 < (stripUnd (collapseRuns (title.map (fun c =>
            if isInvalidFileChar c then '_' else c)))).length
        then rstripUnd ((stripUnd (collapseRuns (title.map (fun c =>
            if isInvalidFileChar c then '_' else c)))).take 50)
        else stripUnd (collapseRuns (title.map (fun c =>
            if isInvalidFileChar c then '_' else c)))) = []
      then "task".toList
      else (if 50 < (stripUnd (collapseRuns (title.map (fun c =>
            if isInvalidFileChar c then '_' else c)))).length
        then rstripUnd ((stripUnd (collapseRuns (title.map (fun c =>
            if isInvalidFileChar c then '_' else c)))).take 50)
        else stripUnd (collapseRuns (title.map (fun c =>
            if isInvalidFileChar c then '_' else c))))) := rfl
  rw [hdef]
  by_cases h4 : (if 50 < (stripUnd (collapseRuns (title.map (fun c =>
        if isInvalidFileChar c then '_' else c)))).length
    then rstripUnd ((stripUnd (collapseRuns (title.map (fun c =>
        if isInvalidFileChar c then '_' else c)))).take 50)
    else stripUnd (collapseRuns (title.map (fun c =>
        if isInvalidFileChar c then '_' else c)))) = []
  · rw [if_pos h4]
    decide
  · rw [if_neg h4]
    obtain ⟨hlen, hmem, hdd, hhead, hlast⟩ := hcore
    refine ⟨h4, hlen, ?_, hdd, hhead, hlast⟩
    intro c hc
    have hc2 := hmem c hc
    rcases mem_collapseGo _ false c hc2 with rfl | ⟨hc1, hnw⟩
    · exact ⟨by decide, by decide⟩
    · rcases List.mem_map.mp hc1 with ⟨d, hd, hcd⟩
      by_cases hdv : isInvalidFileChar d = true
      · rw [if_pos hdv] at hcd
        exfalso
        rw [← hcd] at hnw
        exact absurd hnw (by decide)
      · rw [if_neg hdv] at hcd
        rw [← hcd]
        refine ⟨by rw [Bool.not_eq_true] at hdv; exact hdv, ?_⟩
        rw [← hcd] at hnw
        unfold isWsUnd at hnw
        exact (Bool.or_eq_false_iff.mp hnw).1

/-- Claim C8: the computed filename is
`{first 8 chars of id}_{sanitized title}.md`, and the sanitized title is
nonempty (the placeholder `"task"` when sanitization empties it), at most
50 characters, contains no filename-invalid character and no whitespace, no
run of underscores, and neither starts nor ends with an underscore. -/
theorem C8_task_filename (task_id title : Str) :
    MarkdownStorage.task_filename task_id title =
      task_id.take 8 ++ '_' :: MarkdownStorage.sanitize_filename title ++
        ".md".toList ∧
    MarkdownStorage.sanitize_filename title ≠ [] ∧
    (MarkdownStorage.sanitize_filename title).length ≤ 50 ∧
    (∀ c ∈ MarkdownStorage.sanitize_filename title,
      isInvalidFileChar c = false ∧ pyIsSpace c = false) ∧
    hasSub (MarkdownStorage.sanitize_filename title) ['_', '_'] = false ∧
    isPre ['_'] (MarkdownStorage.sanitize_filename title) = false ∧
    isSuf ['_'] (MarkdownStorage.sanitize_filename title) = false :=
  ⟨rfl, sanitize_props title⟩

/-- Claim C9: decoding the saved file of a task (no notes, marker-free
description, no conflated falsy fields) yields a description equal to the
saved one with every line whose stripped form looks like a checkbox line
(`"- [ ]"`, or case-insensitively `"- [x]"`) removed and the rest rejoined
and stripped of edge whitespace — such description lines are silently lost
across a save/load cycle. -/
theorem C9_checkbox_lines_lost (now : DateTime) (t : Task)
    (hn : t.notes = []) (hdm : hasSub t.description notesMarker = false)
    (he : t.estimated_hours ≠ some 0) (ha : t.actual_hours ≠ some 0)
    (hp : t.project ≠ some []) (hpar : t.parent_id ≠ some [])
    (hrp : t.recurrence_parent_id ≠ some [])
    (hrec : ∀ r, t.recurrence = some r →
      r.days_of_week ≠ some [] ∧ r.day_of_month ≠ some 0) :
    decodePost now (MarkdownStorage.savePost t) =
      .ok { t with description := pyStrip (joinSep ['\n']
        ((pySplit ['\n'] t.description).filter
          (fun line => !isObsLine (pyStrip line)))) } := by
  have hmid : (MarkdownStorage.encodeMeta t).id = some t.id := rfl
  have hmtitle : (MarkdownStorage.encodeMeta t).title = some t.title := rfl
  have hmstatus : (MarkdownStorage.encodeMeta t).status = some t.status.value := rfl
  have hmprio : (MarkdownStorage.encodeMeta t).priority = some t.priority.value := rfl
  have hmcre : (MarkdownStorage.encodeMeta t).created_at = some t.created_at := rfl
  have hmupd : (MarkdownStorage.encodeMeta t).updated_at = some t.updated_at := rfl
  have hmdue : (MarkdownStorage.encodeMeta t).due_date = t.due_date := rfl
  have hmsch : (MarkdownStorage.encodeMeta t).scheduled_date = t.scheduled_date := rfl
  have hmstart : (MarkdownStorage.encodeMeta t).start_date = t.start_date := rfl
  have hmcomp : (MarkdownStorage.encodeMeta t).completed_at = t.completed_at := rfl
  have hmest : (MarkdownStorage.encodeMeta t).estimated_hours = t.estimated_hours := by
    show (match t.estimated_hours with
      | some v => if v = 0 then none else some v
      | none => none) = t.estimated_hours
    cases hv : t.estimated_hours with
    | none => rfl
    | some v =>
      show (if v = 0 then none else some v) = some v
      rw [if_neg (fun h0 => he (by rw [hv, h0]))]
  have hmact : (MarkdownStorage.encodeMeta t).actual_hours = t.actual_hours := by
    show (match t.actual_hours with
      | some v => if v = 0 then none else some v
      | none => none) = t.actual_hours
    cases hv : t.actual_hours with
    | none => rfl
    | some v =>
      show (if v = 0 then none else some v) = some v
      rw [if_neg (fun h0 => ha (by rw [hv, h0]))]
  have hmproj : (MarkdownStorage.encodeMeta t).project = t.project := by
    show (match t.project with
      | some p => if p = [] then none else some p
      | none => none) = t.project
    cases hv : t.project with
    | none => rfl
    | some pr =>
      show (if pr = [] then none else some pr) = some pr
      rw [if_neg (fun h0 => hp (by rw [hv, h0]))]
  have hmpar : (MarkdownStorage.encodeMeta t).parent_id = t.parent_id := by
    show (match t.parent_id with
      | some p => if p = [] then none else some p
      | none => none) = t.parent_id
    cases hv : t.parent_id with
    | none => rfl
    | some pr =>
      show (if pr = [] then none else some pr) = some pr
      rw [if_neg (fun h0 => hpar (by rw [hv, h0]))]
  have hmrpid : (MarkdownStorage.encodeMeta t).recurrence_parent_id =
      t.recurrence_parent_id := by
    show (match t.recurrence_parent_id with
      | some p => if p = [] then none else some p
      | none => none) = t.recurrence_parent_id
    cases hv : t.recurrence_parent_id with
    | none => rfl
    | some pr =>
      show (if pr = [] then none else some pr) = some pr
      rw [if_neg (fun h0 => hrp (by rw [hv, h0]))]
  have hmtags : (MarkdownStorage.encodeMeta t).tags.getD [] = t.tags := by
    show (if t.tags = [] then (none : Option (List Str)) else some t.tags).getD [] =
      t.tags
    by_cases ht : t.tags = []
    · rw [if_pos ht, ht]; rfl
    · rw [if_neg ht]; rfl
  have hmdeps : (MarkdownStorage.encodeMeta t).dependencies.getD [] =
      t.dependencies := by
    show (if t.dependencies = [] then (none : Option (List Str))
      else some t.dependencies).getD [] = t.dependencies
    by_cases ht : t.dependencies = []
    · rw [if_pos ht, ht]; rfl
    · rw [if_neg ht]; rfl
  have hcontent := encodeContent_nonotes t hn
  have hsoeq : MarkdownStorage.strip_obsidian_lines t.description =
      pyStrip (joinSep ['\n'] ((pySplit ['\n'] t.description).filter
        (fun line => !isObsLine (pyStrip line)))) := rfl
  simp only [decodePost, MarkdownStorage.savePost, hcontent, hdm,
    except_bind_ok, Bool.false_eq_true, if_false, hsoeq, hmid, hmtitle, hmstatus,
    hmprio, hmcre, hmupd, hmdue, hmsch, hmstart, hmcomp, hmest, hmact, hmproj,
    hmpar, hmrpid, hmtags, hmdeps, req, statusOfValue_value,
    priorityOfValue_value, hn]
  cases hr : t.recurrence with
  | none =>
    have hnone : (MarkdownStorage.encodeMeta t).recurrence = none := by
      show t.recurrence.map _ = none
      rw [hr]
      rfl
    simp only [hnone]
  | some r =>
    obtain ⟨hdow, hdom⟩ := hrec r hr
    have hmr : (MarkdownStorage.encodeMeta t).recurrence =
        some ⟨some r.frequency.value, some r.interval, r.days_of_week,
          r.day_of_month, r.end_date⟩ := by
      have hX : (match r.days_of_week with
          | some l => if l = [] then none else some l
          | none => none) = r.days_of_week := by
        cases hdw : r.days_of_week with
        | none => rfl
        | some l =>
          show (if l = [] then none else some l) = some l
          rw [if_neg (fun hle => hdow (by rw [hdw, hle]))]
      have hY : (match r.day_of_month with
          | some d => if d = 0 then none else some d
          | none => none) = r.day_of_month := by
        cases hdm2 : r.day_of_month with
        | none => rfl
        | some d =>
          show (if d = 0 then none else some d) = some d
          rw [if_neg (fun h0 => hdom (by rw [hdm2, h0]))]
      show t.recurrence.map _ = _
      rw [hr]
      show some (⟨some r.frequency.value, some r.interval,
        (match r.days_of_week with
          | some l => if l = [] then none else some l
          | none => none),
        (match r.day_of_month with
          | some d => if d = 0 then none else some d
          | none => none),
        r.end_date⟩ : RecMeta) =
        some ⟨some r.frequency.value, some r.interval, r.days_of_week,
          r.day_of_month, r.end_date⟩
      rw [hX, hY]
    simp only [hmr, decodeRecurrence, req, except_bind_ok,
      frequencyOfValue_value, except_map_ok, Option.getD_some]

/-- Witness for C9 at `cexTask`: its checkbox-line description decodes to
the empty description. -/
theorem C9_checkbox_lines_lost_witness :
    (cexTask.notes = [] ∧ hasSub cexTask.description notesMarker = false ∧
      cexTask.estimated_hours ≠ some 0 ∧ cexTask.actual_hours ≠ some 0 ∧
      cexTask.project ≠ some [] ∧ cexTask.parent_id ≠ some [] ∧
      cexTask.recurrence_parent_id ≠ some [] ∧
      (∀ r, cexTask.recurrence = some r →
        r.days_of_week ≠ some [] ∧ r.day_of_month ≠ some 0)) ∧
      decodePost now0 (MarkdownStorage.savePost cexTask) =
        .ok { cexTask with description := pyStrip (joinSep ['\n']
          ((pySplit ['\n'] cexTask.description).filter
            (fun line => !isObsLine (pyStrip line)))) } :=
  ⟨⟨by decide, by decide, by decide, by decide, by decide, by decide, by decide,
      by decide⟩,
    C9_checkbox_lines_lost now0 cexTask (by decide) (by decide) (by decide)
      (by decide) (by decide) (by decide) (by decide) (by decide)⟩

end TB
